import Mathlib

/-!
Verification development for the hyper-scatter scatterplot engine.

The TypeScript sources are shallowly embedded over the real numbers: every
floating-point expression of the code is rendered as the corresponding exact
real-arithmetic expression, `Math.sqrt` becomes `Real.sqrt`, `Math.pow`
becomes `Real.rpow`, `Math.floor`/`Math.round` become `Int.floor`/`round`,
and JavaScript's `Number.isFinite` guards are identically true in this model
(real arithmetic produces no infinities from finite inputs).  Datasets are
lists of coordinate pairs; typed-array index reads become list lookups.
-/

open Classical

noncomputable section

namespace VizLab

/-! ## Euclidean geometry math (`src/core/math/euclidean.ts`) -/

/-- Euclidean view state (`core/types.ts`): pan center in data coordinates
plus a zoom factor. -/
structure EuclideanViewState where
  centerX : ℝ
  centerY : ℝ
  zoom : ℝ

/-- The base projection scale `min(width, height) * 0.4 * zoom` shared by the
Euclidean project/unproject/pan/zoom functions. -/
def euclideanScale (view : EuclideanViewState) (width height : ℝ) : ℝ :=
  min width height * 0.4 * view.zoom

/-- `projectEuclidean`: data space to screen space (Y flipped). -/
def projectEuclidean (dataX dataY : ℝ) (view : EuclideanViewState)
    (width height : ℝ) : ℝ × ℝ :=
  (width / 2 + (dataX - view.centerX) * euclideanScale view width height,
   height / 2 - (dataY - view.centerY) * euclideanScale view width height)

/-- `unprojectEuclidean`: screen space back to data space. -/
def unprojectEuclidean (screenX screenY : ℝ) (view : EuclideanViewState)
    (width height : ℝ) : ℝ × ℝ :=
  (view.centerX + (screenX - width / 2) / euclideanScale view width height,
   view.centerY - (screenY - height / 2) / euclideanScale view width height)

/-- `zoomEuclidean`: anchored zoom.  The new zoom is
`clamp(zoom * 1.1^delta, 0.1, 100)` and the center is recomputed so that the
data point under the anchor stays under the anchor. -/
def zoomEuclidean (view : EuclideanViewState)
    (anchorScreenX anchorScreenY delta width height : ℝ) : EuclideanViewState :=
  let anchorData := unprojectEuclidean anchorScreenX anchorScreenY view width height
  let zoomFactor := (1.1 : ℝ) ^ delta
  let newZoom := max 0.1 (min 100 (view.zoom * zoomFactor))
  let newScale := min width height * 0.4 * newZoom
  { centerX := anchorData.1 - (anchorScreenX - width / 2) / newScale
    centerY := anchorData.2 + (anchorScreenY - height / 2) / newScale
    zoom := newZoom }

/-! ## Poincaré geometry math (`src/core/math/poincare.ts`) -/

/-- Hyperbolic view state: Möbius translation parameter `(ax, ay)` with
`ax² + ay² < 1`, plus a purely visual display zoom. -/
structure HyperbolicViewState where
  ax : ℝ
  ay : ℝ
  displayZoom : ℝ

/-- `mobiusTransform`: `T_a(z) = (z - a) / (1 - conj(a) * z)` computed in
components, with the two degenerate-denominator / outside-disk clamping
branches of the source. -/
def mobiusTransform (zx zy ax ay : ℝ) : ℝ × ℝ :=
  let numX := zx - ax
  let numY := zy - ay
  let denomX := 1 - (ax * zx + ay * zy)
  let denomY := -(ax * zy - ay * zx)
  let denomNormSq := denomX * denomX + denomY * denomY
  if denomNormSq < 1e-12 then
    let norm := Real.sqrt (numX * numX + numY * numY)
    if norm < 1e-12 then (0, 0)
    else ((numX / norm) * 0.999, (numY / norm) * 0.999)
  else
    let resultX := (numX * denomX + numY * denomY) / denomNormSq
    let resultY := (numY * denomX - numX * denomY) / denomNormSq
    let rSq := resultX * resultX + resultY * resultY
    if 1 ≤ rSq then
      let r := Real.sqrt rSq
      ((resultX / r) * 0.999, (resultY / r) * 0.999)
    else (resultX, resultY)

/-- `inverseMobiusTransform`: `T_a⁻¹(w) = (w + a) / (1 + conj(a) * w)` with
the same clamping branches. -/
def inverseMobiusTransform (wx wy ax ay : ℝ) : ℝ × ℝ :=
  let numX := wx + ax
  let numY := wy + ay
  let denomX := 1 + (ax * wx + ay * wy)
  let denomY := ax * wy - ay * wx
  let denomNormSq := denomX * denomX + denomY * denomY
  if denomNormSq < 1e-12 then
    let norm := Real.sqrt (numX * numX + numY * numY)
    if norm < 1e-12 then (0, 0)
    else ((numX / norm) * 0.999, (numY / norm) * 0.999)
  else
    let resultX := (numX * denomX + numY * denomY) / denomNormSq
    let resultY := (numY * denomX - numX * denomY) / denomNormSq
    let rSq := resultX * resultX + resultY * resultY
    if 1 ≤ rSq then
      let r := Real.sqrt rSq
      ((resultX / r) * 0.999, (resultY / r) * 0.999)
    else (resultX, resultY)

/-- The on-screen disk radius `min(width, height) * 0.45 * displayZoom`. -/
def diskRadius (view : HyperbolicViewState) (width height : ℝ) : ℝ :=
  min width height * 0.45 * view.displayZoom

/-- `projectPoincare`: Möbius camera transform followed by the screen map. -/
def projectPoincare (dataX dataY : ℝ) (view : HyperbolicViewState)
    (width height : ℝ) : ℝ × ℝ :=
  let transformed := mobiusTransform dataX dataY view.ax view.ay
  (width / 2 + transformed.1 * diskRadius view width height,
   height / 2 - transformed.2 * diskRadius view width height)

/-- `unprojectPoincare`: screen to disk coordinates, clamping to radius 0.999
when the screen point falls outside the displayed disk, then `T_a⁻¹`. -/
def unprojectPoincare (screenX screenY : ℝ) (view : HyperbolicViewState)
    (width height : ℝ) : ℝ × ℝ :=
  let dr := diskRadius view width height
  let diskX := (screenX - width / 2) / dr
  let diskY := -(screenY - height / 2) / dr
  let rSq := diskX * diskX + diskY * diskY
  if 1 ≤ rSq then
    let r := Real.sqrt rSq
    inverseMobiusTransform ((diskX / r) * 0.999) ((diskY / r) * 0.999) view.ax view.ay
  else
    inverseMobiusTransform diskX diskY view.ax view.ay

/-- `solveForCamera`: solve `T_{a'}(p) = d2` for the camera `a'` by Cramer's
rule, with the near-singular fallback `a' = -d2` and the radial clamp to
0.99 when the solution would leave the unit disk. -/
def solveForCamera (px py d2x d2y : ℝ) : ℝ × ℝ :=
  let A := d2x * px - d2y * py
  let B := d2x * py + d2y * px
  let det := A * A + B * B - 1
  if |det| < 1e-10 then (-d2x, -d2y)
  else
    let rhsX := px - d2x
    let rhsY := d2y - py
    let x := (-(1 + A) * rhsX + B * rhsY) / det
    let y := ((1 - A) * rhsY - B * rhsX) / det
    let rSq := x * x + y * y
    if 1 ≤ rSq then
      let r := Real.sqrt rSq
      ((x / r) * 0.99, (y / r) * 0.99)
    else (x, y)

/-- The inner `clampToDisk` helper of `panPoincare` (margin 0.95). -/
def clampToDisk (x y maxR : ℝ) : ℝ × ℝ :=
  let rSq := x * x + y * y
  if maxR * maxR < rSq then
    let r := Real.sqrt rSq
    ((x / r) * maxR, (y / r) * maxR)
  else (x, y)

/-- `panPoincare`: anchor-invariant pan.  Both screen positions are converted
to disk coordinates, clamped to radius 0.95, the anchored data point is
recovered through `T_a⁻¹`, and the new camera comes from `solveForCamera`. -/
def panPoincare (view : HyperbolicViewState)
    (startScreenX startScreenY endScreenX endScreenY width height : ℝ) :
    HyperbolicViewState :=
  let dr := diskRadius view width height
  let d1 := clampToDisk ((startScreenX - width / 2) / dr)
    (-(startScreenY - height / 2) / dr) 0.95
  let d2 := clampToDisk ((endScreenX - width / 2) / dr)
    (-(endScreenY - height / 2) / dr) 0.95
  let p := inverseMobiusTransform d1.1 d1.2 view.ax view.ay
  let newA := solveForCamera p.1 p.2 d2.1 d2.2
  { view with ax := newA.1, ay := newA.2 }

/-! ### Basic norm facts used throughout -/

/-- A radially clamped vector `(x / √(x² + y²)) * c` has squared norm exactly
`c²` provided `x² + y² ≠ 0`. -/
theorem clamped_normSq (x y c : ℝ) (h : x * x + y * y ≠ 0) :
    (x / Real.sqrt (x * x + y * y)) * c * ((x / Real.sqrt (x * x + y * y)) * c) +
      (y / Real.sqrt (x * x + y * y)) * c * ((y / Real.sqrt (x * x + y * y)) * c) =
      c * c := by
  have hnn : 0 ≤ x * x + y * y := add_nonneg (mul_self_nonneg x) (mul_self_nonneg y)
  have hs : Real.sqrt (x * x + y * y) * Real.sqrt (x * x + y * y) = x * x + y * y :=
    Real.mul_self_sqrt hnn
  have key : (x / Real.sqrt (x * x + y * y)) * c * ((x / Real.sqrt (x * x + y * y)) * c) +
      (y / Real.sqrt (x * x + y * y)) * c * ((y / Real.sqrt (x * x + y * y)) * c) =
      (x * x + y * y) / (Real.sqrt (x * x + y * y) * Real.sqrt (x * x + y * y)) * (c * c) := by
    ring
  rw [key, hs, div_self h, one_mul]

/-- The `clampToDisk` helper always returns a point of squared norm at most
`maxR²`: either the input already satisfies the bound, or it is rescaled to
norm exactly `maxR`. -/
theorem clampToDisk_normSq_le (x y m : ℝ) :
    (clampToDisk x y m).1 * (clampToDisk x y m).1 +
      (clampToDisk x y m).2 * (clampToDisk x y m).2 ≤ m * m := by
  unfold clampToDisk
  by_cases hc : m * m < x * x + y * y
  · rw [if_pos hc]
    have hne : x * x + y * y ≠ 0 := by
      have hmm : 0 ≤ m * m := mul_self_nonneg m
      have : 0 < x * x + y * y := lt_of_le_of_lt hmm hc
      exact ne_of_gt this
    simp only
    rw [clamped_normSq x y m hne]
  · rw [if_neg hc]
    exact le_of_not_lt hc

/-- `solveForCamera` returns a point of squared norm < 1 whenever the target
display position `d2` has squared norm < 1 (the fallback branch returns
`-d2`, the clamp branch returns norm exactly 0.99, and the regular branch is
guarded by the `rSq < 1` check). -/
theorem solveForCamera_normSq_lt (px py d2x d2y : ℝ)
    (hd : d2x * d2x + d2y * d2y < 1) :
    (solveForCamera px py d2x d2y).1 * (solveForCamera px py d2x d2y).1 +
      (solveForCamera px py d2x d2y).2 * (solveForCamera px py d2x d2y).2 < 1 := by
  unfold solveForCamera
  by_cases hdet : |(d2x * px - d2y * py) * (d2x * px - d2y * py) +
      (d2x * py + d2y * px) * (d2x * py + d2y * px) - 1| < 1e-10
  all_goals simp only
  · rw [if_pos hdet]
    simpa using hd
  · rw [if_neg hdet]
    set A := d2x * px - d2y * py with hA
    set B := d2x * py + d2y * px with hB
    set det := A * A + B * B - 1 with hdet2
    set xx := (-(1 + A) * (px - d2x) + B * (d2y - py)) / det with hx
    set yy := ((1 - A) * (d2y - py) - B * (px - d2x)) / det with hy
    by_cases hr : 1 ≤ xx * xx + yy * yy
    · rw [if_pos hr]
      have hne : xx * xx + yy * yy ≠ 0 := by
        have : (0 : ℝ) < 1 := one_pos
        exact ne_of_gt (lt_of_lt_of_le this hr)
      simp only
      rw [clamped_normSq xx yy 0.99 hne]
      norm_num
    · rw [if_neg hr]
      simpa using lt_of_not_le hr

/-- One `panPoincare` step always lands strictly inside the unit disk: the
display targets are clamped to radius 0.95 before `solveForCamera` runs. -/
theorem panPoincare_normSq_lt (view : HyperbolicViewState)
    (sx sy ex ey width height : ℝ) :
    (panPoincare view sx sy ex ey width height).ax *
        (panPoincare view sx sy ex ey width height).ax +
      (panPoincare view sx sy ex ey width height).ay *
        (panPoincare view sx sy ex ey width height).ay < 1 := by
  unfold panPoincare
  simp only
  apply solveForCamera_normSq_lt
  have h2 := clampToDisk_normSq_le ((ex - width / 2) / diskRadius view width height)
    (-(ey - height / 2) / diskRadius view width height) 0.95
  apply lt_of_le_of_lt h2
  norm_num

/-- A list of pan gestures: start/end screen positions plus canvas size. -/
structure PanCall where
  startX : ℝ
  startY : ℝ
  endX : ℝ
  endY : ℝ
  width : ℝ
  height : ℝ

/-- Apply a finite sequence of `panPoincare` calls. -/
def applyPans (view : HyperbolicViewState) (calls : List PanCall) :
    HyperbolicViewState :=
  calls.foldl (fun v c => panPoincare v c.startX c.startY c.endX c.endY c.width c.height)
    view

/-- C2: starting from any hyperbolic view with `ax² + ay² < 1`, any finite
sequence of `panPoincare` calls (arbitrary screen positions and canvas sizes)
keeps `ax² + ay² < 1`; moreover `solveForCamera` returns a point of squared
norm < 1 whenever its display target `d2` has squared norm < 1 (which
`panPoincare` guarantees by clamping `d2` to radius 0.95), covering both the
0.99 radial clamp and the `a' = -d2` fallback branch. -/
theorem pan_boundary_containment :
    (∀ px py d2x d2y : ℝ, d2x * d2x + d2y * d2y < 1 →
      (solveForCamera px py d2x d2y).1 * (solveForCamera px py d2x d2y).1 +
        (solveForCamera px py d2x d2y).2 * (solveForCamera px py d2x d2y).2 < 1) ∧
    (∀ (view : HyperbolicViewState) (calls : List PanCall),
      view.ax * view.ax + view.ay * view.ay < 1 →
      (applyPans view calls).ax * (applyPans view calls).ax +
        (applyPans view calls).ay * (applyPans view calls).ay < 1) := by
  refine ⟨solveForCamera_normSq_lt, ?_⟩
  intro view calls h0
  induction calls generalizing view with
  | nil => exact h0
  | cons c rest ih =>
      exact ih _ (panPoincare_normSq_lt view c.startX c.startY c.endX c.endY
        c.width c.height)

/-- Concrete instance of `pan_boundary_containment`: a single pan on a
1200×800 canvas starting from the default view. -/
theorem pan_boundary_containment_witness :
    (((1 : ℝ) / 2) * ((1 : ℝ) / 2) + (0 : ℝ) * 0 < 1 ∧
      (solveForCamera 0 0 (1 / 2) 0).1 * (solveForCamera 0 0 (1 / 2) 0).1 +
        (solveForCamera 0 0 (1 / 2) 0).2 * (solveForCamera 0 0 (1 / 2) 0).2 < 1) ∧
    ((0 : ℝ) * 0 + (0 : ℝ) * 0 < 1 ∧
      (applyPans ⟨0, 0, 1⟩ [⟨600, 400, 700, 400, 1200, 800⟩]).ax *
          (applyPans ⟨0, 0, 1⟩ [⟨600, 400, 700, 400, 1200, 800⟩]).ax +
        (applyPans ⟨0, 0, 1⟩ [⟨600, 400, 700, 400, 1200, 800⟩]).ay *
          (applyPans ⟨0, 0, 1⟩ [⟨600, 400, 700, 400, 1200, 800⟩]).ay < 1) :=
  ⟨⟨by norm_num, pan_boundary_containment.1 0 0 (1 / 2) 0 (by norm_num)⟩,
   ⟨by norm_num, pan_boundary_containment.2 ⟨0, 0, 1⟩ _ (by norm_num)⟩⟩

/-- C5: `zoomEuclidean` returns a view whose zoom is exactly
`clamp(zoom * 1.1^delta, 0.1, 100)`, and the data point obtained by
unprojecting the anchor under the old view projects exactly back onto the
anchor under the returned view (exact real arithmetic, also when the clamp
binds). -/
theorem zoomEuclidean_clamp_and_anchor (view : EuclideanViewState)
    (anchorX anchorY delta width height : ℝ)
    (hz : 0 < view.zoom) (hw : 0 < width) (hh : 0 < height) :
    (zoomEuclidean view anchorX anchorY delta width height).zoom =
        max 0.1 (min 100 (view.zoom * (1.1 : ℝ) ^ delta)) ∧
    projectEuclidean (unprojectEuclidean anchorX anchorY view width height).1
        (unprojectEuclidean anchorX anchorY view width height).2
        (zoomEuclidean view anchorX anchorY delta width height) width height =
      (anchorX, anchorY) := by
  constructor
  · rfl
  · have hmin : 0 < min width height := lt_min hw hh
    have hmax : (0 : ℝ) < max 0.1 (min 100 (view.zoom * (1.1 : ℝ) ^ delta)) :=
      lt_of_lt_of_le (by norm_num) (le_max_left _ _)
    have hscale : min width height * 0.4 *
        max 0.1 (min 100 (view.zoom * (1.1 : ℝ) ^ delta)) ≠ 0 := by
      have : (0 : ℝ) < min width height * 0.4 *
          max 0.1 (min 100 (view.zoom * (1.1 : ℝ) ^ delta)) :=
        mul_pos (mul_pos hmin (by norm_num)) hmax
      exact ne_of_gt this
    simp only [projectEuclidean, zoomEuclidean, euclideanScale, Prod.mk.injEq]
    constructor
    · field_simp
      ring
    · field_simp
      ring

/-- Concrete instance of `zoomEuclidean_clamp_and_anchor` at zoom 1 on a
1200×800 canvas. -/
theorem zoomEuclidean_clamp_and_anchor_witness :
    (0 : ℝ) < 1 ∧ (0 : ℝ) < 1200 ∧ (0 : ℝ) < 800 ∧
    ((zoomEuclidean ⟨0, 0, 1⟩ 300 200 2 1200 800).zoom =
        max 0.1 (min 100 (1 * (1.1 : ℝ) ^ (2 : ℝ))) ∧
      projectEuclidean (unprojectEuclidean 300 200 ⟨0, 0, 1⟩ 1200 800).1
          (unprojectEuclidean 300 200 ⟨0, 0, 1⟩ 1200 800).2
          (zoomEuclidean ⟨0, 0, 1⟩ 300 200 2 1200 800) 1200 800 = (300, 200)) :=
  ⟨by norm_num, by norm_num, by norm_num,
   zoomEuclidean_clamp_and_anchor ⟨0, 0, 1⟩ 300 200 2 1200 800
     (by norm_num) (by norm_num) (by norm_num)⟩

/-! ## Complex-number reading of the Möbius code

Both `mobiusTransform` and `inverseMobiusTransform` share the same
computational tail: a complex division computed in components followed by the
two clamping branches.  We characterize that tail against genuine complex
division. -/

/-- Squared Euclidean norm of a coordinate pair. -/
def pairNormSq (p : ℝ × ℝ) : ℝ := p.1 * p.1 + p.2 * p.2

/-- The shared tail of `mobiusTransform` and `inverseMobiusTransform`:
complex division `num / denom` in components with the degenerate-denominator
branch and the radial clamp to 0.999. -/
def clampedComplexDiv (numX numY denomX denomY : ℝ) : ℝ × ℝ :=
  let denomNormSq := denomX * denomX + denomY * denomY
  if denomNormSq < 1e-12 then
    let norm := Real.sqrt (numX * numX + numY * numY)
    if norm < 1e-12 then (0, 0)
    else ((numX / norm) * 0.999, (numY / norm) * 0.999)
  else
    let resultX := (numX * denomX + numY * denomY) / denomNormSq
    let resultY := (numY * denomX - numX * denomY) / denomNormSq
    let rSq := resultX * resultX + resultY * resultY
    if 1 ≤ rSq then
      let r := Real.sqrt rSq
      ((resultX / r) * 0.999, (resultY / r) * 0.999)
    else (resultX, resultY)

theorem mobiusTransform_eq_clampedDiv (zx zy ax ay : ℝ) :
    mobiusTransform zx zy ax ay =
      clampedComplexDiv (zx - ax) (zy - ay) (1 - (ax * zx + ay * zy))
        (-(ax * zy - ay * zx)) := rfl

theorem inverseMobiusTransform_eq_clampedDiv (wx wy ax ay : ℝ) :
    inverseMobiusTransform wx wy ax ay =
      clampedComplexDiv (wx + ax) (wy + ay) (1 + (ax * wx + ay * wy))
        (ax * wy - ay * wx) := rfl

/-- The exact Möbius image `T_a(z) = (z - a) / (1 - conj(a) * z)` as a
complex number. -/
def mobiusQuotient (zx zy ax ay : ℝ) : ℂ :=
  ((⟨zx, zy⟩ : ℂ) - ⟨ax, ay⟩) / (1 - star (⟨ax, ay⟩ : ℂ) * ⟨zx, zy⟩)

/-- The exact inverse Möbius image `T_a⁻¹(w) = (w + a) / (1 + conj(a) * w)`
as a complex number. -/
def inverseMobiusQuotient (wx wy ax ay : ℝ) : ℂ :=
  ((⟨wx, wy⟩ : ℂ) + ⟨ax, ay⟩) / (1 + star (⟨ax, ay⟩ : ℂ) * ⟨wx, wy⟩)

theorem mobiusQuotient_eq_div (zx zy ax ay : ℝ) :
    mobiusQuotient zx zy ax ay =
      (⟨zx - ax, zy - ay⟩ : ℂ) / ⟨1 - (ax * zx + ay * zy), -(ax * zy - ay * zx)⟩ := by
  have hnum : ((⟨zx, zy⟩ : ℂ) - ⟨ax, ay⟩) = (⟨zx - ax, zy - ay⟩ : ℂ) := by
    apply Complex.ext <;> simp
  have hden : (1 - star (⟨ax, ay⟩ : ℂ) * ⟨zx, zy⟩) =
      (⟨1 - (ax * zx + ay * zy), -(ax * zy - ay * zx)⟩ : ℂ) := by
    apply Complex.ext
    · simp [Complex.mul_re]
    · simp [Complex.mul_im]
      ring
  rw [mobiusQuotient, hnum, hden]

theorem inverseMobiusQuotient_eq_div (wx wy ax ay : ℝ) :
    inverseMobiusQuotient wx wy ax ay =
      (⟨wx + ax, wy + ay⟩ : ℂ) / ⟨1 + (ax * wx + ay * wy), ax * wy - ay * wx⟩ := by
  have hnum : ((⟨wx, wy⟩ : ℂ) + ⟨ax, ay⟩) = (⟨wx + ax, wy + ay⟩ : ℂ) := by
    apply Complex.ext <;> simp
  have hden : (1 + star (⟨ax, ay⟩ : ℂ) * ⟨wx, wy⟩) =
      (⟨1 + (ax * wx + ay * wy), ax * wy - ay * wx⟩ : ℂ) := by
    apply Complex.ext
    · simp [Complex.mul_re]
    · simp [Complex.mul_im]
      ring
  rw [inverseMobiusQuotient, hnum, hden]

/-- Complex division in components, as the source computes it. -/
theorem complex_div_components (nX nY dX dY : ℝ) :
    ((⟨nX, nY⟩ : ℂ) / ⟨dX, dY⟩) =
      ⟨(nX * dX + nY * dY) / (dX * dX + dY * dY),
       (nY * dX - nX * dY) / (dX * dX + dY * dY)⟩ := by
  apply Complex.ext
  · rw [Complex.div_re]
    simp [Complex.normSq_apply]
    rw [div_add_div_same]
  · rw [Complex.div_im]
    simp [Complex.normSq_apply]
    rw [div_sub_div_same]

/-- Exact branch: when the squared denominator magnitude is at least `1e-12`
and the exact quotient lies strictly inside the unit disk, the code returns
the exact quotient. -/
theorem clampedComplexDiv_exact (nX nY dX dY : ℝ)
    (h1 : 1e-12 ≤ dX * dX + dY * dY)
    (h2 : Complex.normSq ((⟨nX, nY⟩ : ℂ) / ⟨dX, dY⟩) < 1) :
    clampedComplexDiv nX nY dX dY =
      (((⟨nX, nY⟩ : ℂ) / ⟨dX, dY⟩).re, ((⟨nX, nY⟩ : ℂ) / ⟨dX, dY⟩).im) := by
  have hq := complex_div_components nX nY dX dY
  have hre : ((⟨nX, nY⟩ : ℂ) / ⟨dX, dY⟩).re =
      (nX * dX + nY * dY) / (dX * dX + dY * dY) := by rw [hq]
  have him : ((⟨nX, nY⟩ : ℂ) / ⟨dX, dY⟩).im =
      (nY * dX - nX * dY) / (dX * dX + dY * dY) := by rw [hq]
  have hns : Complex.normSq ((⟨nX, nY⟩ : ℂ) / ⟨dX, dY⟩) =
      (nX * dX + nY * dY) / (dX * dX + dY * dY) *
        ((nX * dX + nY * dY) / (dX * dX + dY * dY)) +
      (nY * dX - nX * dY) / (dX * dX + dY * dY) *
        ((nY * dX - nX * dY) / (dX * dX + dY * dY)) := by
    rw [Complex.normSq_apply, hre, him]
  unfold clampedComplexDiv
  rw [if_neg (not_lt.2 h1)]
  simp only
  rw [if_neg (not_le.2 (by rw [← hns]; exact h2))]
  rw [hre, him]

/-- Outside-disk branch: when the guard passes but the exact quotient has
squared magnitude at least 1, the result is radially clamped to squared norm
exactly `0.999²`. -/
theorem clampedComplexDiv_clamp (nX nY dX dY : ℝ)
    (h1 : 1e-12 ≤ dX * dX + dY * dY)
    (h2 : 1 ≤ Complex.normSq ((⟨nX, nY⟩ : ℂ) / ⟨dX, dY⟩)) :
    pairNormSq (clampedComplexDiv nX nY dX dY) = 0.999 * 0.999 := by
  have hq := complex_div_components nX nY dX dY
  have hns : Complex.normSq ((⟨nX, nY⟩ : ℂ) / ⟨dX, dY⟩) =
      (nX * dX + nY * dY) / (dX * dX + dY * dY) *
        ((nX * dX + nY * dY) / (dX * dX + dY * dY)) +
      (nY * dX - nX * dY) / (dX * dX + dY * dY) *
        ((nY * dX - nX * dY) / (dX * dX + dY * dY)) := by
    rw [hq, Complex.normSq_apply]
  rw [hns] at h2
  unfold clampedComplexDiv
  rw [if_neg (not_lt.2 h1)]
  simp only
  rw [if_pos h2]
  unfold pairNormSq
  simp only
  exact clamped_normSq _ _ _ (ne_of_gt (lt_of_lt_of_le one_pos h2))

/-- Degenerate-denominator branch with a nonzero numerator: radial clamp of
the numerator direction, squared norm exactly `0.999²`. -/
theorem clampedComplexDiv_degenerate (nX nY dX dY : ℝ)
    (h1 : dX * dX + dY * dY < 1e-12)
    (h2 : 1e-12 ≤ Real.sqrt (nX * nX + nY * nY)) :
    pairNormSq (clampedComplexDiv nX nY dX dY) = 0.999 * 0.999 := by
  unfold clampedComplexDiv
  rw [if_pos h1]
  simp only
  rw [if_neg (not_lt.2 h2)]
  have hne : nX * nX + nY * nY ≠ 0 := by
    intro h0
    rw [h0, Real.sqrt_zero] at h2
    norm_num at h2
  unfold pairNormSq
  simp only
  exact clamped_normSq _ _ _ hne

/-- Degenerate-denominator branch with a (near-)zero numerator: the code
returns the origin. -/
theorem clampedComplexDiv_zero (nX nY dX dY : ℝ)
    (h1 : dX * dX + dY * dY < 1e-12)
    (h2 : Real.sqrt (nX * nX + nY * nY) < 1e-12) :
    clampedComplexDiv nX nY dX dY = (0, 0) := by
  unfold clampedComplexDiv
  rw [if_pos h1]
  simp only
  rw [if_pos h2]

/-- C7 (amended): `mobiusTransform` (and symmetrically
`inverseMobiusTransform`) returns the exact complex quotient whenever the
SQUARED denominator magnitude is at least `1e-12` and the quotient's
magnitude is less than 1; when the squared denominator magnitude is at least
`1e-12` but the quotient leaves the disk, or the squared denominator
magnitude is below `1e-12` with numerator norm at least `1e-12`, the result
is clamped radially to magnitude exactly 0.999; and with both denominator
and numerator degenerate the origin is returned. -/
theorem mobius_clamp_characterization :
    ∀ zx zy ax ay : ℝ,
      ((1e-12 : ℝ) ≤ (1 - (ax * zx + ay * zy)) * (1 - (ax * zx + ay * zy)) +
          (-(ax * zy - ay * zx)) * (-(ax * zy - ay * zx)) →
        (Complex.normSq (mobiusQuotient zx zy ax ay) < 1 →
          mobiusTransform zx zy ax ay =
            ((mobiusQuotient zx zy ax ay).re, (mobiusQuotient zx zy ax ay).im)) ∧
        (1 ≤ Complex.normSq (mobiusQuotient zx zy ax ay) →
          pairNormSq (mobiusTransform zx zy ax ay) = 0.999 * 0.999)) ∧
      ((1 - (ax * zx + ay * zy)) * (1 - (ax * zx + ay * zy)) +
          (-(ax * zy - ay * zx)) * (-(ax * zy - ay * zx)) < 1e-12 →
        ((1e-12 : ℝ) ≤ Real.sqrt ((zx - ax) * (zx - ax) + (zy - ay) * (zy - ay)) →
          pairNormSq (mobiusTransform zx zy ax ay) = 0.999 * 0.999) ∧
        (Real.sqrt ((zx - ax) * (zx - ax) + (zy - ay) * (zy - ay)) < 1e-12 →
          mobiusTransform zx zy ax ay = (0, 0))) ∧
      ((1e-12 : ℝ) ≤ (1 + (ax * zx + ay * zy)) * (1 + (ax * zx + ay * zy)) +
          (ax * zy - ay * zx) * (ax * zy - ay * zx) →
        (Complex.normSq (inverseMobiusQuotient zx zy ax ay) < 1 →
          inverseMobiusTransform zx zy ax ay =
            ((inverseMobiusQuotient zx zy ax ay).re,
             (inverseMobiusQuotient zx zy ax ay).im)) ∧
        (1 ≤ Complex.normSq (inverseMobiusQuotient zx zy ax ay) →
          pairNormSq (inverseMobiusTransform zx zy ax ay) = 0.999 * 0.999)) ∧
      ((1 + (ax * zx + ay * zy)) * (1 + (ax * zx + ay * zy)) +
          (ax * zy - ay * zx) * (ax * zy - ay * zx) < 1e-12 →
        ((1e-12 : ℝ) ≤ Real.sqrt ((zx + ax) * (zx + ax) + (zy + ay) * (zy + ay)) →
          pairNormSq (inverseMobiusTransform zx zy ax ay) = 0.999 * 0.999) ∧
        (Real.sqrt ((zx + ax) * (zx + ax) + (zy + ay) * (zy + ay)) < 1e-12 →
          inverseMobiusTransform zx zy ax ay = (0, 0))) := by
  intro zx zy ax ay
  refine ⟨fun h1 => ⟨fun h2 => ?_, fun h2 => ?_⟩,
          fun h1 => ⟨fun h2 => ?_, fun h2 => ?_⟩,
          fun h1 => ⟨fun h2 => ?_, fun h2 => ?_⟩,
          fun h1 => ⟨fun h2 => ?_, fun h2 => ?_⟩⟩
  · rw [mobiusTransform_eq_clampedDiv, mobiusQuotient_eq_div]
    rw [mobiusQuotient_eq_div] at h2
    exact clampedComplexDiv_exact _ _ _ _ h1 h2
  · rw [mobiusQuotient_eq_div] at h2
    rw [mobiusTransform_eq_clampedDiv]
    exact clampedComplexDiv_clamp _ _ _ _ h1 h2
  · rw [mobiusTransform_eq_clampedDiv]
    exact clampedComplexDiv_degenerate _ _ _ _ h1 h2
  · rw [mobiusTransform_eq_clampedDiv]
    exact clampedComplexDiv_zero _ _ _ _ h1 h2
  · rw [inverseMobiusTransform_eq_clampedDiv, inverseMobiusQuotient_eq_div]
    rw [inverseMobiusQuotient_eq_div] at h2
    exact clampedComplexDiv_exact _ _ _ _ h1 h2
  · rw [inverseMobiusQuotient_eq_div] at h2
    rw [inverseMobiusTransform_eq_clampedDiv]
    exact clampedComplexDiv_clamp _ _ _ _ h1 h2
  · rw [inverseMobiusTransform_eq_clampedDiv]
    exact clampedComplexDiv_degenerate _ _ _ _ h1 h2
  · rw [inverseMobiusTransform_eq_clampedDiv]
    exact clampedComplexDiv_zero _ _ _ _ h1 h2

/-- Concrete instance of `mobius_clamp_characterization`: with `a = 0` the
transform of `z = (1/2, 0)` is the exact quotient `z` itself. -/
theorem mobius_clamp_characterization_witness :
    ((1e-12 : ℝ) ≤ (1 - ((0 : ℝ) * (1 / 2) + 0 * 0)) * (1 - ((0 : ℝ) * (1 / 2) + 0 * 0)) +
        (-((0 : ℝ) * 0 - 0 * (1 / 2))) * (-((0 : ℝ) * 0 - 0 * (1 / 2))) ∧
      Complex.normSq (mobiusQuotient (1 / 2) 0 0 0) < 1) ∧
    mobiusTransform (1 / 2) 0 0 0 =
      ((mobiusQuotient (1 / 2) 0 0 0).re, (mobiusQuotient (1 / 2) 0 0 0).im) := by
  have hns : Complex.normSq (mobiusQuotient (1 / 2) 0 0 0) < 1 := by
    rw [mobiusQuotient_eq_div, complex_div_components, Complex.normSq_mk]
    norm_num
  exact ⟨⟨by norm_num, hns⟩,
    ((mobius_clamp_characterization (1 / 2) 0 0 0).1 (by norm_num)).1 hns⟩

/-- C7 counterexample: at `a = (19999998/19999999, 0)`,
`z = (19999999/20000000, 0)` the true denominator is `1e-7`, so its magnitude
is ≥ `1e-12` and the exact quotient (≈ 2.5e-8) lies strictly inside the
disk — yet the code compares `1e-12` against the SQUARED magnitude
(`1e-14 < 1e-12`), takes the degenerate branch, finds the numerator norm
below `1e-12`, and returns the origin instead of the quotient. -/
theorem mobius_spec_counterexample :
    (1e-12 : ℝ) ≤ Complex.abs
        (1 - star ((⟨19999998 / 19999999, 0⟩ : ℂ)) * ⟨19999999 / 20000000, 0⟩) ∧
    Complex.normSq (mobiusQuotient (19999999 / 20000000) 0 (19999998 / 19999999) 0) < 1 ∧
    mobiusTransform (19999999 / 20000000) 0 (19999998 / 19999999) 0 ≠
      ((mobiusQuotient (19999999 / 20000000) 0 (19999998 / 19999999) 0).re,
       (mobiusQuotient (19999999 / 20000000) 0 (19999998 / 19999999) 0).im) := by
  have hden : (1 - star ((⟨19999998 / 19999999, 0⟩ : ℂ)) * ⟨19999999 / 20000000, 0⟩) =
      (((1 / 10000000 : ℝ)) : ℂ) := by
    apply Complex.ext
    · simp [Complex.mul_re]
      norm_num
    · simp [Complex.mul_im]
  have hq : mobiusQuotient (19999999 / 20000000) 0 (19999998 / 19999999) 0 =
      (⟨1 / 39999998, 0⟩ : ℂ) := by
    rw [mobiusQuotient_eq_div, complex_div_components]
    apply Complex.ext
    · simp only
      norm_num
    · simp only
      norm_num
  refine ⟨?_, ?_, ?_⟩
  · rw [hden, Complex.abs_ofReal]
    rw [abs_of_pos (by norm_num)]
    norm_num
  · rw [hq, Complex.normSq_mk]
    norm_num
  · have hmob : mobiusTransform (19999999 / 20000000) 0 (19999998 / 19999999) 0 = (0, 0) := by
      rw [mobiusTransform_eq_clampedDiv]
      apply clampedComplexDiv_zero
      · norm_num
      · have harg : ((19999999 : ℝ) / 20000000 - 19999998 / 19999999) *
            ((19999999 : ℝ) / 20000000 - 19999998 / 19999999) +
            ((0 : ℝ) - 0) * ((0 : ℝ) - 0) = (1 / 399999980000000) ^ 2 := by
          norm_num
        rw [harg, Real.sqrt_sq (by norm_num)]
        norm_num
    rw [hmob, hq]
    intro hcontra
    have h0 : (0 : ℝ) = 1 / 39999998 := congrArg Prod.fst hcontra
    norm_num at h0

/-! ## Projection round-trips (C4) -/

/-- Componentwise form of the forward Möbius denominator's squared norm. -/
theorem fwd_denom_normSq (zx zy ax ay : ℝ) :
    Complex.normSq (1 - star (⟨ax, ay⟩ : ℂ) * ⟨zx, zy⟩) =
      (1 - (ax * zx + ay * zy)) * (1 - (ax * zx + ay * zy)) +
        (-(ax * zy - ay * zx)) * (-(ax * zy - ay * zx)) := by
  rw [Complex.normSq_apply]
  simp [Complex.mul_re, Complex.mul_im]
  ring

/-- Componentwise form of the inverse Möbius denominator's squared norm. -/
theorem inv_denom_normSq (wx wy ax ay : ℝ) :
    Complex.normSq (1 + star (⟨ax, ay⟩ : ℂ) * ⟨wx, wy⟩) =
      (1 + (ax * wx + ay * wy)) * (1 + (ax * wx + ay * wy)) +
        (ax * wy - ay * wx) * (ax * wy - ay * wx) := by
  rw [Complex.normSq_apply]
  simp [Complex.mul_re, Complex.mul_im]
  ring

/-- The Möbius disk automorphism algebra: `T_a⁻¹ ∘ T_a = id` whenever both
denominators are nonzero. -/
theorem mobius_left_inverse_complex (z a : ℂ) (h1 : 1 - star a * z ≠ 0)
    (h2 : 1 + star a * ((z - a) / (1 - star a * z)) ≠ 0) :
    ((z - a) / (1 - star a * z) + a) / (1 + star a * ((z - a) / (1 - star a * z))) = z := by
  rw [div_eq_iff h2]
  have hq : (z - a) / (1 - star a * z) * (1 - star a * z) = z - a :=
    div_mul_cancel₀ _ h1
  linear_combination hq

/-- C4 (amended): the Euclidean screen round-trip is the identity in exact
real arithmetic whenever `zoom > 0` and `width, height > 0`; the Poincaré
screen round-trip is the identity whenever additionally the data point lies
strictly inside the unit disk, the Möbius image lies strictly inside the unit
disk, and neither the forward (`|1 - āz|²`) nor the inverse (`|1 + āw|²`)
denominator guard falls below `1e-12` (so no radial clamping triggers
anywhere in the composition). -/
theorem projection_roundtrip_exact :
    (∀ (view : EuclideanViewState) (x y width height : ℝ),
      0 < view.zoom → 0 < width → 0 < height →
      unprojectEuclidean (projectEuclidean x y view width height).1
        (projectEuclidean x y view width height).2 view width height = (x, y)) ∧
    (∀ (view : HyperbolicViewState) (zx zy width height : ℝ),
      0 < view.displayZoom → 0 < width → 0 < height →
      zx * zx + zy * zy < 1 →
      1e-12 ≤ Complex.normSq (1 - star (⟨view.ax, view.ay⟩ : ℂ) * ⟨zx, zy⟩) →
      Complex.normSq (mobiusQuotient zx zy view.ax view.ay) < 1 →
      1e-12 ≤ Complex.normSq (1 + star (⟨view.ax, view.ay⟩ : ℂ) *
        mobiusQuotient zx zy view.ax view.ay) →
      unprojectPoincare (projectPoincare zx zy view width height).1
        (projectPoincare zx zy view width height).2 view width height = (zx, zy)) := by
  constructor
  · intro view x y width height hz hw hh
    have hscale : euclideanScale view width height ≠ 0 := by
      have : 0 < euclideanScale view width height :=
        mul_pos (mul_pos (lt_min hw hh) (by norm_num)) hz
      exact ne_of_gt this
    unfold projectEuclidean unprojectEuclidean
    simp only [Prod.mk.injEq]
    constructor
    · field_simp
    · field_simp
      ring
  · intro view zx zy width height hdz hw hh hzin hfwd hq hinv
    set ax := view.ax
    set ay := view.ay
    have hdr : 0 < diskRadius view width height :=
      mul_pos (mul_pos (lt_min hw hh) (by norm_num)) hdz
    have hdrne : diskRadius view width height ≠ 0 := ne_of_gt hdr
    -- the computed Möbius image is the exact quotient
    set q := mobiusQuotient zx zy ax ay with hqdef
    have hmob : mobiusTransform zx zy ax ay = (q.re, q.im) := by
      rw [mobiusTransform_eq_clampedDiv]
      have h1 : (1e-12 : ℝ) ≤ (1 - (ax * zx + ay * zy)) * (1 - (ax * zx + ay * zy)) +
          (-(ax * zy - ay * zx)) * (-(ax * zy - ay * zx)) := by
        rw [← fwd_denom_normSq]
        exact hfwd
      have h2 : Complex.normSq ((⟨zx - ax, zy - ay⟩ : ℂ) /
          ⟨1 - (ax * zx + ay * zy), -(ax * zy - ay * zx)⟩) < 1 := by
        rw [← mobiusQuotient_eq_div]
        exact hq
      rw [clampedComplexDiv_exact _ _ _ _ h1 h2, ← mobiusQuotient_eq_div]
    -- the screen coordinates reduce back to the quotient components
    have hux : ((width / 2 + q.re * diskRadius view width height) - width / 2) /
        diskRadius view width height = q.re := by
      field_simp
    have huy : -((height / 2 - q.im * diskRadius view width height) - height / 2) /
        diskRadius view width height = q.im := by
      field_simp
    have hproj : projectPoincare zx zy view width height =
        (width / 2 + q.re * diskRadius view width height,
         height / 2 - q.im * diskRadius view width height) := by
      unfold projectPoincare
      rw [hmob]
    rw [hproj]
    unfold unprojectPoincare
    simp only
    rw [hux, huy]
    have hrSq : q.re * q.re + q.im * q.im < 1 := by
      have : Complex.normSq q = q.re * q.re + q.im * q.im := Complex.normSq_apply q
      rw [← this]
      exact hq
    rw [if_neg (not_le.2 hrSq)]
    -- the inverse transform takes its exact branch and inverts the quotient
    have hfne : (1 : ℂ) - star (⟨ax, ay⟩ : ℂ) * ⟨zx, zy⟩ ≠ 0 := by
      intro h0
      rw [h0, Complex.normSq_zero] at hfwd
      norm_num at hfwd
    have hine : (1 : ℂ) + star (⟨ax, ay⟩ : ℂ) * q ≠ 0 := by
      intro h0
      rw [h0, Complex.normSq_zero] at hinv
      norm_num at hinv
    have hinvq : inverseMobiusQuotient q.re q.im ax ay = (⟨zx, zy⟩ : ℂ) := by
      unfold inverseMobiusQuotient
      have hqeta : (⟨q.re, q.im⟩ : ℂ) = q := rfl
      rw [hqeta]
      rw [hqdef]
      unfold mobiusQuotient
      exact mobius_left_inverse_complex _ _ hfne (by
        rw [hqdef] at hine
        unfold mobiusQuotient at hine
        exact hine)
    have h1' : (1e-12 : ℝ) ≤ (1 + (ax * q.re + ay * q.im)) * (1 + (ax * q.re + ay * q.im)) +
        (ax * q.im - ay * q.re) * (ax * q.im - ay * q.re) := by
      rw [← inv_denom_normSq]
      have hqeta : (⟨q.re, q.im⟩ : ℂ) = q := rfl
      rw [hqeta]
      exact hinv
    have h2' : Complex.normSq ((⟨q.re + ax, q.im + ay⟩ : ℂ) /
        ⟨1 + (ax * q.re + ay * q.im), ax * q.im - ay * q.re⟩) < 1 := by
      rw [← inverseMobiusQuotient_eq_div, hinvq, Complex.normSq_mk]
      exact hzin
    rw [inverseMobiusTransform_eq_clampedDiv]
    rw [clampedComplexDiv_exact _ _ _ _ h1' h2', ← inverseMobiusQuotient_eq_div, hinvq]

/-- Concrete instance of `projection_roundtrip_exact`: zoom 2 Euclidean view
and the origin point in the default Poincaré view on a 1200×800 canvas. -/
theorem projection_roundtrip_exact_witness :
    ((0 : ℝ) < 2 ∧ (0 : ℝ) < 1200 ∧ (0 : ℝ) < 800 ∧
      unprojectEuclidean (projectEuclidean 3 5 ⟨1, 1, 2⟩ 1200 800).1
        (projectEuclidean 3 5 ⟨1, 1, 2⟩ 1200 800).2 ⟨1, 1, 2⟩ 1200 800 = (3, 5)) ∧
    (((1 : ℝ) / 4) * (1 / 4) + ((1 : ℝ) / 8) * (1 / 8) < 1 ∧
      (1e-12 : ℝ) ≤ Complex.normSq (1 - star ((⟨0, 0⟩ : ℂ)) * ⟨1 / 4, 1 / 8⟩) ∧
      Complex.normSq (mobiusQuotient (1 / 4) (1 / 8) 0 0) < 1 ∧
      unprojectPoincare (projectPoincare (1 / 4) (1 / 8) ⟨0, 0, 1⟩ 1200 800).1
        (projectPoincare (1 / 4) (1 / 8) ⟨0, 0, 1⟩ 1200 800).2 ⟨0, 0, 1⟩ 1200 800 =
        (1 / 4, 1 / 8)) := by
  have hqz : mobiusQuotient (1 / 4) (1 / 8) 0 0 = (⟨1 / 4, 1 / 8⟩ : ℂ) := by
    rw [mobiusQuotient_eq_div, complex_div_components]
    apply Complex.ext
    · simp only
      norm_num
    · simp only
      norm_num
  have hfwd : (1e-12 : ℝ) ≤ Complex.normSq (1 - star ((⟨0, 0⟩ : ℂ)) * ⟨1 / 4, 1 / 8⟩) := by
    rw [fwd_denom_normSq]
    norm_num
  have hq1 : Complex.normSq (mobiusQuotient (1 / 4) (1 / 8) 0 0) < 1 := by
    rw [hqz, Complex.normSq_mk]
    norm_num
  have hinv : (1e-12 : ℝ) ≤ Complex.normSq (1 + star ((⟨0, 0⟩ : ℂ)) *
      mobiusQuotient (1 / 4) (1 / 8) 0 0) := by
    rw [hqz, inv_denom_normSq]
    norm_num
  refine ⟨⟨by norm_num, by norm_num, by norm_num,
    projection_roundtrip_exact.1 ⟨1, 1, 2⟩ 3 5 1200 800 (by norm_num) (by norm_num)
      (by norm_num)⟩,
    ⟨by norm_num, hfwd, hq1, ?_⟩⟩
  exact projection_roundtrip_exact.2 ⟨0, 0, 1⟩ (1 / 4) (1 / 8) 1200 800 (by norm_num)
    (by norm_num) (by norm_num) (by norm_num) hfwd hq1 hinv

/-- C4 counterexample: at the valid view `a = (1 - 1e-8, 0)` (ax² + ay² < 1)
and the valid data point `z = (1 - 5e-7, 0)` (inside the unit disk, radius
above 0.9), the forward Möbius denominator guard trips (|1 - āz|² ≈ 2.6e-13
< 1e-12), the image is clamped to -0.999, and the round trip lands ≈ 1.95e-5
away from `z` — beyond even the relaxed 1e-5 tolerance for radius > 0.9. -/
theorem roundtrip_spec_counterexample :
    ((99999999 : ℝ) / 100000000) * ((99999999 : ℝ) / 100000000) + (0 : ℝ) * 0 < 1 ∧
    ((1999999 : ℝ) / 2000000) * ((1999999 : ℝ) / 2000000) + (0 : ℝ) * 0 < 1 ∧
    (9 : ℝ) / 10 < (1999999 : ℝ) / 2000000 ∧
    1e-5 < |(unprojectPoincare
        (projectPoincare (1999999 / 2000000) 0 ⟨99999999 / 100000000, 0, 1⟩ 1200 800).1
        (projectPoincare (1999999 / 2000000) 0 ⟨99999999 / 100000000, 0, 1⟩ 1200 800).2
        ⟨99999999 / 100000000, 0, 1⟩ 1200 800).1 - 1999999 / 2000000| := by
  have hdr : diskRadius ⟨99999999 / 100000000, 0, 1⟩ 1200 800 = 360 := by
    unfold diskRadius
    norm_num [min_def]
  have hmob : mobiusTransform (1999999 / 2000000) 0 (99999999 / 100000000) 0 =
      (-(999 / 1000), 0) := by
    rw [mobiusTransform_eq_clampedDiv]
    unfold clampedComplexDiv
    rw [if_pos (by norm_num)]
    simp only
    have harg : ((1999999 : ℝ) / 2000000 - 99999999 / 100000000) *
        ((1999999 : ℝ) / 2000000 - 99999999 / 100000000) +
        ((0 : ℝ) - 0) * ((0 : ℝ) - 0) = ((49 : ℝ) / 100000000) ^ 2 := by
      norm_num
    have hns : Real.sqrt (((1999999 : ℝ) / 2000000 - 99999999 / 100000000) *
        ((1999999 : ℝ) / 2000000 - 99999999 / 100000000) +
        ((0 : ℝ) - 0) * ((0 : ℝ) - 0)) = 49 / 100000000 := by
      rw [harg, Real.sqrt_sq (by norm_num)]
    rw [if_neg (by rw [hns]; norm_num)]
    rw [hns]
    norm_num [Prod.ext_iff]
  have hproj : projectPoincare (1999999 / 2000000) 0
      ⟨99999999 / 100000000, 0, 1⟩ 1200 800 = (6009 / 25, 400) := by
    unfold projectPoincare
    rw [hmob, hdr]
    norm_num [Prod.ext_iff]
  have hfin : unprojectPoincare (6009 / 25) 400
      ⟨99999999 / 100000000, 0, 1⟩ 1200 800 = (99999000 / 100000999, 0) := by
    unfold unprojectPoincare
    rw [hdr]
    simp only
    have hdx : ((6009 : ℝ) / 25 - 1200 / 2) / 360 = -(999 / 1000) := by norm_num
    have hdy : -(((400 : ℝ)) - 800 / 2) / 360 = 0 := by norm_num
    rw [hdx, hdy]
    rw [if_neg (by norm_num)]
    rw [inverseMobiusTransform_eq_clampedDiv]
    unfold clampedComplexDiv
    rw [if_neg (by norm_num)]
    simp only
    rw [if_neg (by norm_num)]
    norm_num [Prod.ext_iff]
  refine ⟨by norm_num, by norm_num, by norm_num, ?_⟩
  rw [hproj, hfin]
  refine lt_abs.2 (Or.inr ?_)
  norm_num

/-! ## Euclidean fit-to-data (C8, `impl_reference/euclidean_reference.ts`) -/

/-- Minimum of `f` over a dataset, as the source's `Infinity`-seeded loop
computes it for a nonempty list (the empty case is unreachable behind the
source's `n === 0` guard). -/
def dataFoldMin (f : ℝ × ℝ → ℝ) : List (ℝ × ℝ) → ℝ
  | [] => 0
  | p :: t => t.foldl (fun acc q => min acc (f q)) (f p)

/-- Maximum of `f` over a dataset (same shape as `dataFoldMin`). -/
def dataFoldMax (f : ℝ × ℝ → ℝ) : List (ℝ × ℝ) → ℝ
  | [] => 0
  | p :: t => t.foldl (fun acc q => max acc (f q)) (f p)

/-- `EuclideanReference.fitToData`: bounding box of the positions, zoom
`clamp(2 / dataSize, 0.1, 100)` (the `|| 1` fallback guards a degenerate
axis), centered on the bounding-box midpoint.  `setDataset` installs exactly
this view for a nonempty Euclidean dataset. -/
def fitToData (pts : List (ℝ × ℝ)) : EuclideanViewState :=
  let minX := dataFoldMin Prod.fst pts
  let maxX := dataFoldMax Prod.fst pts
  let minY := dataFoldMin Prod.snd pts
  let maxY := dataFoldMax Prod.snd pts
  let dataWidth := if maxX - minX = 0 then 1 else maxX - minX
  let dataHeight := if maxY - minY = 0 then 1 else maxY - minY
  let dataSize := max dataWidth dataHeight
  let fitZoom := 2 / dataSize
  { centerX := (minX + maxX) / 2
    centerY := (minY + maxY) / 2
    zoom := max 0.1 (min 100 fitZoom) }

theorem foldl_min_le_init (f : ℝ × ℝ → ℝ) :
    ∀ (l : List (ℝ × ℝ)) (a : ℝ), l.foldl (fun acc q => min acc (f q)) a ≤ a := by
  intro l
  induction l with
  | nil => intro a; exact le_refl a
  | cons q t ih =>
      intro a
      exact le_trans (ih (min a (f q))) (min_le_left _ _)

theorem init_le_foldl_max (f : ℝ × ℝ → ℝ) :
    ∀ (l : List (ℝ × ℝ)) (a : ℝ), a ≤ l.foldl (fun acc q => max acc (f q)) a := by
  intro l
  induction l with
  | nil => intro a; exact le_refl a
  | cons q t ih =>
      intro a
      exact le_trans (le_max_left _ _) (ih (max a (f q)))

theorem dataFoldMin_le_dataFoldMax (f : ℝ × ℝ → ℝ) (pts : List (ℝ × ℝ))
    (h : pts ≠ []) : dataFoldMin f pts ≤ dataFoldMax f pts := by
  match pts with
  | [] => exact absurd rfl h
  | p :: t =>
      exact le_trans (foldl_min_le_init f t (f p)) (init_le_foldl_max f t (f p))

/-- C8 (amended): after `setDataset` on a nonempty Euclidean dataset, the
reference view has zoom in [0.1, 100] and centers on the BOUNDING-BOX
MIDPOINT (not the centroid), and — provided the LOWER zoom clamp does not
bind, i.e. `0.1 ≤ 2 / dataSize` — every point of the data bounding box (in
particular its corners) projects inside the canvas with 10% padding.  (The
upper clamp needs no hypothesis: it only shrinks the zoom below the fit
value, which keeps every bounding-box offset within `0.4 * min(w, h)`.) -/
theorem fitToData_view_characterization (pts : List (ℝ × ℝ)) (hne : pts ≠ [])
    (width height : ℝ) (hw : 0 < width) (hh : 0 < height) :
    (0.1 ≤ (fitToData pts).zoom ∧ (fitToData pts).zoom ≤ 100) ∧
    ((fitToData pts).centerX = (dataFoldMin Prod.fst pts + dataFoldMax Prod.fst pts) / 2 ∧
     (fitToData pts).centerY = (dataFoldMin Prod.snd pts + dataFoldMax Prod.snd pts) / 2) ∧
    (0.1 ≤ 2 / max (if dataFoldMax Prod.fst pts - dataFoldMin Prod.fst pts = 0 then 1
          else dataFoldMax Prod.fst pts - dataFoldMin Prod.fst pts)
        (if dataFoldMax Prod.snd pts - dataFoldMin Prod.snd pts = 0 then 1
          else dataFoldMax Prod.snd pts - dataFoldMin Prod.snd pts) →
     ∀ cx cy : ℝ,
       dataFoldMin Prod.fst pts ≤ cx → cx ≤ dataFoldMax Prod.fst pts →
       dataFoldMin Prod.snd pts ≤ cy → cy ≤ dataFoldMax Prod.snd pts →
       0.1 * width ≤ (projectEuclidean cx cy (fitToData pts) width height).1 ∧
       (projectEuclidean cx cy (fitToData pts) width height).1 ≤ 0.9 * width ∧
       0.1 * height ≤ (projectEuclidean cx cy (fitToData pts) width height).2 ∧
       (projectEuclidean cx cy (fitToData pts) width height).2 ≤ 0.9 * height) := by
  set minX := dataFoldMin Prod.fst pts with hminX
  set maxX := dataFoldMax Prod.fst pts with hmaxX
  set minY := dataFoldMin Prod.snd pts with hminY
  set maxY := dataFoldMax Prod.snd pts with hmaxY
  set dW := if maxX - minX = 0 then 1 else maxX - minX with hdW
  set dH := if maxY - minY = 0 then 1 else maxY - minY with hdH
  set dS := max dW dH with hdS
  have hxle : minX ≤ maxX := dataFoldMin_le_dataFoldMax Prod.fst pts hne
  have hyle : minY ≤ maxY := dataFoldMin_le_dataFoldMax Prod.snd pts hne
  have hdWpos : 0 < dW := by
    rw [hdW]
    by_cases h0 : maxX - minX = 0
    · rw [if_pos h0]; norm_num
    · rw [if_neg h0]
      cases lt_or_eq_of_le (sub_nonneg.2 hxle) with
      | inl h => exact h
      | inr h => exact absurd h.symm h0
  have hdHpos : 0 < dH := by
    rw [hdH]
    by_cases h0 : maxY - minY = 0
    · rw [if_pos h0]; norm_num
    · rw [if_neg h0]
      cases lt_or_eq_of_le (sub_nonneg.2 hyle) with
      | inl h => exact h
      | inr h => exact absurd h.symm h0
  have hdSpos : 0 < dS := lt_of_lt_of_le hdWpos (le_max_left _ _)
  have hzoom : (fitToData pts).zoom = max 0.1 (min 100 (2 / dS)) := rfl
  have hcenterX : (fitToData pts).centerX = (minX + maxX) / 2 := rfl
  have hcenterY : (fitToData pts).centerY = (minY + maxY) / 2 := rfl
  refine ⟨⟨le_max_left _ _, ?_⟩, ⟨hcenterX, hcenterY⟩, ?_⟩
  · rw [hzoom]
    have h2 : min 100 (2 / dS) ≤ 100 := min_le_left _ _
    have : max 0.1 (min 100 (2 / dS)) ≤ max 0.1 100 := max_le_max (le_refl _) h2
    exact le_trans this (by norm_num)
  · intro hlo cx cy hcx1 hcx2 hcy1 hcy2
    have hzle : (fitToData pts).zoom ≤ 2 / dS := by
      rw [hzoom, max_eq_right (le_min (by norm_num) hlo)]
      exact min_le_right _ _
    have hzpos : 0 < (fitToData pts).zoom := by
      rw [hzoom]
      exact lt_of_lt_of_le (by norm_num) (le_max_left _ _)
    have hmpos : 0 < min width height := lt_min hw hh
    have hscalele : euclideanScale (fitToData pts) width height ≤
        min width height * 0.4 * (2 / dS) := by
      rw [euclideanScale]
      exact mul_le_mul_of_nonneg_left hzle (by positivity)
    have hscalepos : 0 < euclideanScale (fitToData pts) width height := by
      rw [euclideanScale]
      exact mul_pos (mul_pos hmpos (by norm_num)) hzpos
    -- |cx - center| ≤ (maxX - minX)/2 ≤ dS/2, so the projection offset is
    -- bounded by 0.4 * min width height
    have hWle : maxX - minX ≤ dS := by
      rw [hdS]
      refine le_trans ?_ (le_max_left dW dH)
      rw [hdW]
      by_cases h0 : maxX - minX = 0
      · rw [if_pos h0, h0]; norm_num
      · rw [if_neg h0]
    have hHle : maxY - minY ≤ dS := by
      rw [hdS]
      refine le_trans ?_ (le_max_right dW dH)
      rw [hdH]
      by_cases h0 : maxY - minY = 0
      · rw [if_pos h0, h0]; norm_num
      · rw [if_neg h0]
    have hoffx : |cx - (fitToData pts).centerX| ≤ dS / 2 := by
      rw [hcenterX, abs_le]
      constructor <;> [linarith; linarith]
    have hoffy : |cy - (fitToData pts).centerY| ≤ dS / 2 := by
      rw [hcenterY, abs_le]
      constructor <;> [linarith; linarith]
    have hkey : ∀ off : ℝ, |off| ≤ dS / 2 →
        |off * euclideanScale (fitToData pts) width height| ≤ 0.4 * min width height := by
      intro off hoff
      rw [abs_mul, abs_of_pos hscalepos]
      have h1 : |off| * euclideanScale (fitToData pts) width height ≤
          (dS / 2) * (min width height * 0.4 * (2 / dS)) :=
        mul_le_mul hoff hscalele (le_of_lt hscalepos) (by positivity)
      refine le_trans h1 (le_of_eq ?_)
      field_simp
      ring
    have hbx := hkey _ hoffx
    have hby := hkey _ hoffy
    have hminw : min width height ≤ width := min_le_left _ _
    have hminh : min width height ≤ height := min_le_right _ _
    have habsx := abs_le.1 hbx
    have habsy := abs_le.1 hby
    unfold projectEuclidean
    simp only
    refine ⟨by linarith, by linarith, by linarith, by linarith⟩

/-- Concrete instance of `fitToData_view_characterization`: three points on a
1200×800 canvas, data bounding box `[0,1]²`. -/
theorem fitToData_view_characterization_witness :
    ([((0 : ℝ), (0 : ℝ)), (0, 0), (1, 1)] ≠ ([] : List (ℝ × ℝ)) ∧
      (0 : ℝ) < 1200 ∧ (0 : ℝ) < 800) ∧
    ((0.1 ≤ (fitToData [((0 : ℝ), (0 : ℝ)), (0, 0), (1, 1)]).zoom ∧
      (fitToData [((0 : ℝ), (0 : ℝ)), (0, 0), (1, 1)]).zoom ≤ 100) ∧
     ((fitToData [((0 : ℝ), (0 : ℝ)), (0, 0), (1, 1)]).centerX =
        (dataFoldMin Prod.fst [((0 : ℝ), (0 : ℝ)), (0, 0), (1, 1)] +
          dataFoldMax Prod.fst [((0 : ℝ), (0 : ℝ)), (0, 0), (1, 1)]) / 2 ∧
      (fitToData [((0 : ℝ), (0 : ℝ)), (0, 0), (1, 1)]).centerY =
        (dataFoldMin Prod.snd [((0 : ℝ), (0 : ℝ)), (0, 0), (1, 1)] +
          dataFoldMax Prod.snd [((0 : ℝ), (0 : ℝ)), (0, 0), (1, 1)]) / 2)) := by
  have h := fitToData_view_characterization [((0 : ℝ), (0 : ℝ)), (0, 0), (1, 1)]
    (by simp) 1200 800 (by norm_num) (by norm_num)
  exact ⟨⟨by simp, by norm_num, by norm_num⟩, h.1, h.2.1⟩

/-- C8 counterexample, both halves of the original claim: for the dataset
`[(0,0), (0,0), (1,1)]` the view centers on the bounding-box midpoint
`1/2`, not on the centroid `(0 + 0 + 1) / 3`; and for the wide dataset
`[(0,0), (100,0)]` the lower zoom clamp binds (`2 / dataSize = 0.02`,
clamped up to `0.1`) and the bounding-box corner `(100, 0)` projects to
screen x = 2200 on a 1200×800 canvas — far outside the 10%-padded region
`[120, 1080]` — so the padding property genuinely needs the lower-clamp
hypothesis. -/
theorem fitToData_centroid_counterexample :
    (fitToData [((0 : ℝ), (0 : ℝ)), (0, 0), (1, 1)]).centerX ≠
      (0 + 0 + 1) / 3 ∧
    ¬ (projectEuclidean 100 0 (fitToData [((0 : ℝ), (0 : ℝ)), (100, 0)])
        1200 800).1 ≤ 0.9 * 1200 := by
  constructor
  · have hx : (fitToData [((0 : ℝ), (0 : ℝ)), (0, 0), (1, 1)]).centerX =
        1 / 2 := by
      show (dataFoldMin Prod.fst [((0 : ℝ), (0 : ℝ)), (0, 0), (1, 1)] +
        dataFoldMax Prod.fst [((0 : ℝ), (0 : ℝ)), (0, 0), (1, 1)]) / 2 = 1 / 2
      unfold dataFoldMin dataFoldMax
      norm_num
    rw [hx]
    norm_num
  · have h1 : dataFoldMin Prod.fst [((0 : ℝ), (0 : ℝ)), (100, 0)] = 0 := by
      simp [dataFoldMin, min_def]
    have h2 : dataFoldMax Prod.fst [((0 : ℝ), (0 : ℝ)), (100, 0)] = 100 := by
      simp [dataFoldMax, max_def]
    have h3 : dataFoldMin Prod.snd [((0 : ℝ), (0 : ℝ)), (100, 0)] = 0 := by
      simp [dataFoldMin, min_def]
    have h4 : dataFoldMax Prod.snd [((0 : ℝ), (0 : ℝ)), (100, 0)] = 0 := by
      simp [dataFoldMax, max_def]
    have hf : fitToData [((0 : ℝ), (0 : ℝ)), (100, 0)] = ⟨50, 0, 0.1⟩ := by
      unfold fitToData
      rw [h1, h2, h3, h4]
      simp only
      rw [if_neg (by norm_num : ¬((100 : ℝ) - 0 = 0)),
        if_pos (show (0 : ℝ) - 0 = 0 by norm_num)]
      rw [show max ((100 : ℝ) - 0) 1 = 100 by
        rw [max_eq_left] <;> norm_num]
      norm_num [EuclideanViewState.mk.injEq, max_def, min_def]
    rw [hf]
    unfold projectEuclidean euclideanScale
    simp only
    norm_num [min_def]

/-! ## Point-in-polygon (`core/selection/point_in_polygon.ts`)

Polygons are lists of coordinate pairs (the flat `Float32Array` of the source
read two entries at a time). -/

/-- `isPointOnSegment`: bounding-box prefilter expanded by the tolerance,
degenerate-segment special case (distance to the first endpoint), otherwise
distance to the clamped projection onto the segment. -/
def isPointOnSegment (px py x1 y1 x2 y2 tolerance : ℝ) : Bool :=
  if px < min x1 x2 - tolerance ∨ px > max x1 x2 + tolerance ∨
      py < min y1 y2 - tolerance ∨ py > max y1 y2 + tolerance then false
  else
    let dx := x2 - x1
    let dy := y2 - y1
    let lengthSq := dx * dx + dy * dy
    if lengthSq < tolerance * tolerance then
      decide (Real.sqrt ((px - x1) * (px - x1) + (py - y1) * (py - y1)) ≤ tolerance)
    else
      let t := max 0 (min 1 (((px - x1) * dx + (py - y1) * dy) / lengthSq))
      let projX := x1 + t * dx
      let projY := y1 + t * dy
      decide (Real.sqrt ((px - projX) * (px - projX) + (py - projY) * (py - projY)) ≤
        tolerance)

/-- The edge list `(v_j, v_i)` for `i = 0..n-1`, `j = (i-1) mod n`, exactly
the pairs the source loop `for (i = 0, j = n - 1; i < n; j = i++)` visits. -/
def polygonEdges : List (ℝ × ℝ) → List ((ℝ × ℝ) × (ℝ × ℝ))
  | [] => []
  | p :: t => (((p :: t).getLast (List.cons_ne_nil p t)) :: (p :: t).dropLast).zip (p :: t)

/-- Ray-casting toggle condition for one edge `(v_j, v_i)`: the edge crosses
the horizontal ray and the intersection lies right of the query point. -/
def edgeCrossesRay (px py : ℝ) (e : (ℝ × ℝ) × (ℝ × ℝ)) : Bool :=
  (decide (py < e.2.2) != decide (py < e.1.2)) &&
    decide (px < (e.1.1 - e.2.1) * (py - e.2.2) / (e.1.2 - e.2.2) + e.2.1)

/-- `pointInPolygon`: fewer than 3 vertices is rejected; the source's loop
returns `true` as soon as some edge passes the on-segment test (boundary
counts as inside) and otherwise accumulates the ray-casting parity over all
edges — equivalently, on-any-edge OR the full parity, as modelled here. -/
def pointInPolygon (px py : ℝ) (poly : List (ℝ × ℝ)) : Bool :=
  if poly.length < 3 then false
  else if (polygonEdges poly).any (fun e =>
      isPointOnSegment px py e.2.1 e.2.2 e.1.1 e.1.2 1e-9) then true
  else (polygonEdges poly).foldl
    (fun inside e => if edgeCrossesRay px py e then !inside else inside) false

/-- `lassoSelectBruteForce`: the set of indices of dataset points inside the
polygon. -/
def lassoSelectBruteForce (pts : List (ℝ × ℝ)) (polygon : List (ℝ × ℝ)) :
    Finset ℕ :=
  (Finset.range pts.length).filter
    (fun i => pointInPolygon (pts.getD i (0, 0)).1 (pts.getD i (0, 0)).2 polygon = true)

/-! ## Selection results and the reference lasso

`computeTimeMs` is a difference of two `performance.now()` readings; the
embedding carries the elapsed wall time as an explicit parameter, and clock
monotonicity (`0 ≤ elapsed`) is a hypothesis where a claim speaks about it. -/

/-- Indices-variant selection result (`createIndicesSelectionResult`). -/
structure IndicesSelection where
  indices : Finset ℕ
  computeTimeMs : ℝ

/-- `EuclideanReference.lassoSelect`: unproject the screen polyline into data
space, then brute-force point-in-polygon over the whole dataset. -/
def euclideanLassoSelect (pts : List (ℝ × ℝ)) (view : EuclideanViewState)
    (width height : ℝ) (polyline : List (ℝ × ℝ)) (elapsedMs : ℝ) :
    IndicesSelection :=
  let dataPolyline := polyline.map (fun s => unprojectEuclidean s.1 s.2 view width height)
  { indices := lassoSelectBruteForce pts dataPolyline
    computeTimeMs := elapsedMs }

/-- C9: a polyline with fewer than 3 vertices (fewer than 6 flat
coordinates) yields an empty selection — `pointInPolygon` is false for every
query point, the reference's indices set is empty, `has(i)` fails for every
`i`, and `computeTimeMs ≥ 0` under clock monotonicity. -/
theorem lasso_empty_polygon :
    (∀ (qx qy : ℝ) (poly : List (ℝ × ℝ)), poly.length < 3 →
      pointInPolygon qx qy poly = false) ∧
    (∀ (pts : List (ℝ × ℝ)) (view : EuclideanViewState)
      (width height elapsedMs : ℝ) (polyline : List (ℝ × ℝ)),
      polyline.length < 3 → 0 ≤ elapsedMs →
      (euclideanLassoSelect pts view width height polyline elapsedMs).indices = ∅ ∧
      (∀ i : ℕ,
        i ∉ (euclideanLassoSelect pts view width height polyline elapsedMs).indices) ∧
      0 ≤ (euclideanLassoSelect pts view width height polyline elapsedMs).computeTimeMs) := by
  have hpip : ∀ (qx qy : ℝ) (poly : List (ℝ × ℝ)), poly.length < 3 →
      pointInPolygon qx qy poly = false := by
    intro qx qy poly hlen
    unfold pointInPolygon
    rw [if_pos hlen]
  refine ⟨hpip, ?_⟩
  intro pts view width height elapsedMs polyline hlen hclock
  have hempty : (euclideanLassoSelect pts view width height polyline elapsedMs).indices =
      ∅ := by
    show (lassoSelectBruteForce pts
      (polyline.map (fun s => unprojectEuclidean s.1 s.2 view width height))) = ∅
    unfold lassoSelectBruteForce
    apply Finset.filter_false_of_mem
    intro i _
    rw [hpip _ _ _ (by simpa using hlen)]
    simp
  exact ⟨hempty, fun i => by rw [hempty]; exact Finset.not_mem_empty i, hclock⟩

/-- Concrete instance of `lasso_empty_polygon`: a two-vertex polyline over a
one-point dataset. -/
theorem lasso_empty_polygon_witness :
    (([((0 : ℝ), (0 : ℝ)), (1, 1)] : List (ℝ × ℝ)).length < 3 ∧ (0 : ℝ) ≤ 0) ∧
    (euclideanLassoSelect [((0 : ℝ), (0 : ℝ))] ⟨0, 0, 1⟩ 1200 800
        [((0 : ℝ), (0 : ℝ)), (1, 1)] 0).indices = ∅ := by
  have h := lasso_empty_polygon.2 [((0 : ℝ), (0 : ℝ))] ⟨0, 0, 1⟩ 1200 800 0
    [((0 : ℝ), (0 : ℝ)), (1, 1)] (by simp) (le_refl 0)
  exact ⟨⟨by simp, le_refl 0⟩, h.1⟩

/-! ## Candidate geometry-variant lasso (C3,
`impl_candidate/webgl_candidate.ts` lassoSelect) -/

/-- Geometry-variant selection: data-space polygon, its tight axis-aligned
bounding box, and the compute time. -/
structure GeometrySelection where
  coords : List (ℝ × ℝ)
  xMin : ℝ
  yMin : ℝ
  xMax : ℝ
  yMax : ℝ
  computeTimeMs : ℝ

/-- `HyperbolicWebGLCandidate.lassoSelect`: unproject the polyline into data
space and attach the tight AABB of the data polygon (the same
`Infinity`-seeded min/max loop as elsewhere; the claims under verification
assume at least 3 vertices, so the polygon is nonempty). -/
def hyperbolicLassoSelect (view : HyperbolicViewState) (width height : ℝ)
    (polyline : List (ℝ × ℝ)) (elapsedMs : ℝ) : GeometrySelection :=
  let dataPolyline := polyline.map (fun s => unprojectPoincare s.1 s.2 view width height)
  { coords := dataPolyline
    xMin := dataFoldMin Prod.fst dataPolyline
    yMin := dataFoldMin Prod.snd dataPolyline
    xMax := dataFoldMax Prod.fst dataPolyline
    yMax := dataFoldMax Prod.snd dataPolyline
    computeTimeMs := elapsedMs }

/-- The membership callback the candidate passes to
`createGeometrySelectionResult`: AABB prefilter, then ray-cast. -/
def geometryHas (sel : GeometrySelection) (px py : ℝ) : Bool :=
  if px < sel.xMin ∨ px > sel.xMax ∨ py < sel.yMin ∨ py > sel.yMax then false
  else pointInPolygon px py sel.coords

/-- Modelled from the spec: `createGeometrySelectionResult` (selection-glue
helper referenced by both implementations but not among the provided source
files) produces a geometry-variant selection whose `has(i)` applies the
bounds-and-ray-cast predicate to the data-space position of point `i` —
"Always return the *geometry variant*: polygon, bounds, and
`has(i) = bounds-check ∧ ray-cast(polygon)`". -/
def geometryHasIndex (pts : List (ℝ × ℝ)) (sel : GeometrySelection) (i : ℕ) : Bool :=
  geometryHas sel (pts.getD i (0, 0)).1 (pts.getD i (0, 0)).2

theorem foldl_min_le_mem (f : ℝ × ℝ → ℝ) :
    ∀ (l : List (ℝ × ℝ)) (a : ℝ) (v : ℝ × ℝ), v ∈ l →
      l.foldl (fun acc q => min acc (f q)) a ≤ f v := by
  intro l
  induction l with
  | nil => intro a v hv; exact absurd hv (List.not_mem_nil v)
  | cons q t ih =>
      intro a v hv
      rcases List.mem_cons.1 hv with h | h
      · subst h
        exact le_trans (foldl_min_le_init f t (min a (f v))) (min_le_right _ _)
      · exact ih (min a (f q)) v h

theorem mem_le_foldl_max (f : ℝ × ℝ → ℝ) :
    ∀ (l : List (ℝ × ℝ)) (a : ℝ) (v : ℝ × ℝ), v ∈ l →
      f v ≤ l.foldl (fun acc q => max acc (f q)) a := by
  intro l
  induction l with
  | nil => intro a v hv; exact absurd hv (List.not_mem_nil v)
  | cons q t ih =>
      intro a v hv
      rcases List.mem_cons.1 hv with h | h
      · subst h
        exact le_trans (le_max_right _ _) (init_le_foldl_max f t (max a (f v)))
      · exact ih (max a (f q)) v h

theorem dataFoldMin_le_mem (f : ℝ × ℝ → ℝ) (pts : List (ℝ × ℝ)) (v : ℝ × ℝ)
    (hv : v ∈ pts) : dataFoldMin f pts ≤ f v := by
  match pts with
  | [] => exact absurd hv (List.not_mem_nil v)
  | p :: t =>
      rcases List.mem_cons.1 hv with h | h
      · subst h
        exact foldl_min_le_init f t (f v)
      · exact foldl_min_le_mem f t (f p) v h

theorem mem_le_dataFoldMax (f : ℝ × ℝ → ℝ) (pts : List (ℝ × ℝ)) (v : ℝ × ℝ)
    (hv : v ∈ pts) : f v ≤ dataFoldMax f pts := by
  match pts with
  | [] => exact absurd hv (List.not_mem_nil v)
  | p :: t =>
      rcases List.mem_cons.1 hv with h | h
      · subst h
        exact init_le_foldl_max f t (f v)
      · exact mem_le_foldl_max f t (f p) v h

theorem polygonEdges_mem {poly : List (ℝ × ℝ)} {e : (ℝ × ℝ) × (ℝ × ℝ)}
    (he : e ∈ polygonEdges poly) : e.1 ∈ poly ∧ e.2 ∈ poly := by
  match poly with
  | [] => exact absurd he (List.not_mem_nil e)
  | p :: t =>
      unfold polygonEdges at he
      have h2 := List.of_mem_zip he
      constructor
      · rcases List.mem_cons.1 h2.1 with h | h
        · rw [h]
          exact List.getLast_mem _
        · exact List.dropLast_subset _ h
      · exact h2.2

/-- A point exactly on a segment (convex combination of the endpoints) passes
`isPointOnSegment` for any positive tolerance: the bounding-box prefilter
accepts it, the degenerate case bounds the distance by the segment length,
and the projection case reproduces the point exactly. -/
theorem isPointOnSegment_exact (x1 y1 x2 y2 t tol : ℝ)
    (ht0 : 0 ≤ t) (ht1 : t ≤ 1) (htol : 0 < tol) :
    isPointOnSegment (x1 + t * (x2 - x1)) (y1 + t * (y2 - y1)) x1 y1 x2 y2 tol =
      true := by
  set px := x1 + t * (x2 - x1) with hpx
  set py := y1 + t * (y2 - y1) with hpy
  have hxlo : min x1 x2 ≤ px := by
    rcases min_le_iff.2 (Or.inl (le_refl x1)) with _
    rw [hpx]
    rcases le_total x1 x2 with h | h
    · rw [min_eq_left h]; nlinarith
    · rw [min_eq_right h]; nlinarith
  have hxhi : px ≤ max x1 x2 := by
    rw [hpx]
    rcases le_total x1 x2 with h | h
    · rw [max_eq_right h]; nlinarith
    · rw [max_eq_left h]; nlinarith
  have hylo : min y1 y2 ≤ py := by
    rw [hpy]
    rcases le_total y1 y2 with h | h
    · rw [min_eq_left h]; nlinarith
    · rw [min_eq_right h]; nlinarith
  have hyhi : py ≤ max y1 y2 := by
    rw [hpy]
    rcases le_total y1 y2 with h | h
    · rw [max_eq_right h]; nlinarith
    · rw [max_eq_left h]; nlinarith
  unfold isPointOnSegment
  rw [if_neg (by push_neg; exact ⟨by linarith, by linarith, by linarith, by linarith⟩)]
  simp only
  by_cases hdeg : (x2 - x1) * (x2 - x1) + (y2 - y1) * (y2 - y1) < tol * tol
  · rw [if_pos hdeg]
    have hdist : (px - x1) * (px - x1) + (py - y1) * (py - y1) =
        t ^ 2 * ((x2 - x1) * (x2 - x1) + (y2 - y1) * (y2 - y1)) := by
      rw [hpx, hpy]; ring
    have hLnn : 0 ≤ (x2 - x1) * (x2 - x1) + (y2 - y1) * (y2 - y1) :=
      add_nonneg (mul_self_nonneg _) (mul_self_nonneg _)
    have hsq : Real.sqrt ((px - x1) * (px - x1) + (py - y1) * (py - y1)) ≤ tol := by
      rw [hdist, Real.sqrt_mul (sq_nonneg t), Real.sqrt_sq ht0]
      have h1 : Real.sqrt ((x2 - x1) * (x2 - x1) + (y2 - y1) * (y2 - y1)) < tol := by
        have := Real.sqrt_lt_sqrt hLnn hdeg
        rwa [show tol * tol = tol ^ 2 by ring, Real.sqrt_sq (le_of_lt htol)] at this
      have h2 : t * Real.sqrt ((x2 - x1) * (x2 - x1) + (y2 - y1) * (y2 - y1)) ≤
          Real.sqrt ((x2 - x1) * (x2 - x1) + (y2 - y1) * (y2 - y1)) := by
        nlinarith [Real.sqrt_nonneg ((x2 - x1) * (x2 - x1) + (y2 - y1) * (y2 - y1))]
      linarith
    simp [hsq]
  · rw [if_neg hdeg]
    have hLpos : 0 < (x2 - x1) * (x2 - x1) + (y2 - y1) * (y2 - y1) := by
      have : tol * tol ≤ (x2 - x1) * (x2 - x1) + (y2 - y1) * (y2 - y1) :=
        le_of_not_lt hdeg
      nlinarith
    have hdot : ((px - x1) * (x2 - x1) + (py - y1) * (y2 - y1)) /
        ((x2 - x1) * (x2 - x1) + (y2 - y1) * (y2 - y1)) = t := by
      rw [hpx, hpy]
      rw [div_eq_iff (ne_of_gt hLpos)]
      ring
    have hclamp : max 0 (min 1 (((px - x1) * (x2 - x1) + (py - y1) * (y2 - y1)) /
        ((x2 - x1) * (x2 - x1) + (y2 - y1) * (y2 - y1)))) = t := by
      rw [hdot, min_eq_right ht1, max_eq_right ht0]
    rw [hclamp]
    have hprojx : px - (x1 + t * (x2 - x1)) = 0 := by rw [hpx]; ring
    have hprojy : py - (y1 + t * (y2 - y1)) = 0 := by rw [hpy]; ring
    rw [hprojx, hprojy]
    simp [Real.sqrt_zero, le_of_lt htol]

/-- C3 (amended): the candidate's geometry-variant membership
(`has = AABB-check ∧ ray-cast`) accepts every point lying EXACTLY on the
boundary of the data-space lasso polygon (any point of any edge, for a
polygon with at least 3 vertices).  Points that are merely within the `1e-9`
segment-distance tolerance of the boundary may fall outside the polygon's
tight AABB and are then rejected, so `has` is strictly stronger than the
ray-cast alone (see the counterexample). -/
theorem lasso_geometryHas_exact_boundary
    (view : HyperbolicViewState) (width height elapsedMs : ℝ)
    (polyline : List (ℝ × ℝ)) (hlen : 3 ≤ polyline.length)
    (e : (ℝ × ℝ) × (ℝ × ℝ))
    (he : e ∈ polygonEdges
      (hyperbolicLassoSelect view width height polyline elapsedMs).coords)
    (t : ℝ) (ht0 : 0 ≤ t) (ht1 : t ≤ 1) :
    geometryHas (hyperbolicLassoSelect view width height polyline elapsedMs)
      (e.2.1 + t * (e.1.1 - e.2.1)) (e.2.2 + t * (e.1.2 - e.2.2)) = true := by
  set sel := hyperbolicLassoSelect view width height polyline elapsedMs with hsel
  set px := e.2.1 + t * (e.1.1 - e.2.1) with hpx
  set py := e.2.2 + t * (e.1.2 - e.2.2) with hpy
  have hmem := polygonEdges_mem he
  have hx1 : sel.xMin ≤ e.2.1 := dataFoldMin_le_mem Prod.fst sel.coords e.2 hmem.2
  have hx2 : sel.xMin ≤ e.1.1 := dataFoldMin_le_mem Prod.fst sel.coords e.1 hmem.1
  have hx3 : e.2.1 ≤ sel.xMax := mem_le_dataFoldMax Prod.fst sel.coords e.2 hmem.2
  have hx4 : e.1.1 ≤ sel.xMax := mem_le_dataFoldMax Prod.fst sel.coords e.1 hmem.1
  have hy1 : sel.yMin ≤ e.2.2 := dataFoldMin_le_mem Prod.snd sel.coords e.2 hmem.2
  have hy2 : sel.yMin ≤ e.1.2 := dataFoldMin_le_mem Prod.snd sel.coords e.1 hmem.1
  have hy3 : e.2.2 ≤ sel.yMax := mem_le_dataFoldMax Prod.snd sel.coords e.2 hmem.2
  have hy4 : e.1.2 ≤ sel.yMax := mem_le_dataFoldMax Prod.snd sel.coords e.1 hmem.1
  have hbx1 : sel.xMin ≤ px := by rw [hpx]; nlinarith
  have hbx2 : px ≤ sel.xMax := by rw [hpx]; nlinarith
  have hby1 : sel.yMin ≤ py := by rw [hpy]; nlinarith
  have hby2 : py ≤ sel.yMax := by rw [hpy]; nlinarith
  have hclen : sel.coords.length = polyline.length := List.length_map _ _
  unfold geometryHas
  rw [if_neg (by push_neg; exact ⟨by linarith, by linarith, by linarith, by linarith⟩)]
  unfold pointInPolygon
  rw [if_neg (by rw [hclen]; omega)]
  rw [if_pos]
  apply List.any_eq_true.2
  refine ⟨e, he, ?_⟩
  have := isPointOnSegment_exact e.2.1 e.2.2 e.1.1 e.1.2 t 1e-9 ht0 ht1 (by norm_num)
  rw [hpx, hpy]
  exact this

/-- Value of the data polygon obtained by unprojecting the canonical screen
triangle `[(600,400), (600,220), (780,400)]` at the default view on a
1200×800 canvas: the data triangle `[(0,0), (0,1/2), (1/2,0)]`. -/
theorem inverseMobius_zero_camera (wx wy : ℝ) (hin : wx * wx + wy * wy < 1) :
    inverseMobiusTransform wx wy 0 0 = (wx, wy) := by
  rw [inverseMobiusTransform_eq_clampedDiv]
  unfold clampedComplexDiv
  rw [if_neg (by norm_num : ¬((1 + ((0 : ℝ) * wx + 0 * wy)) * (1 + ((0 : ℝ) * wx + 0 * wy)) +
      ((0 : ℝ) * wy - 0 * wx) * ((0 : ℝ) * wy - 0 * wx) < 1e-12))]
  simp only
  have hrx : ((wx + 0) * (1 + ((0 : ℝ) * wx + 0 * wy)) + (wy + 0) * ((0 : ℝ) * wy - 0 * wx)) /
      ((1 + ((0 : ℝ) * wx + 0 * wy)) * (1 + ((0 : ℝ) * wx + 0 * wy)) +
        ((0 : ℝ) * wy - 0 * wx) * ((0 : ℝ) * wy - 0 * wx)) = wx := by
    norm_num
  have hry : ((wy + 0) * (1 + ((0 : ℝ) * wx + 0 * wy)) - (wx + 0) * ((0 : ℝ) * wy - 0 * wx)) /
      ((1 + ((0 : ℝ) * wx + 0 * wy)) * (1 + ((0 : ℝ) * wx + 0 * wy)) +
        ((0 : ℝ) * wy - 0 * wx) * ((0 : ℝ) * wy - 0 * wx)) = wy := by
    norm_num
  rw [hrx, hry]
  rw [if_neg (not_le.2 hin)]

/-- `mobiusTransform` at the identity camera is the identity inside the
disk. -/
theorem mobius_zero_camera (zx zy : ℝ) (hin : zx * zx + zy * zy < 1) :
    mobiusTransform zx zy 0 0 = (zx, zy) := by
  rw [mobiusTransform_eq_clampedDiv]
  unfold clampedComplexDiv
  rw [if_neg (by norm_num : ¬((1 - ((0 : ℝ) * zx + 0 * zy)) * (1 - ((0 : ℝ) * zx + 0 * zy)) +
      (-((0 : ℝ) * zy - 0 * zx)) * (-((0 : ℝ) * zy - 0 * zx)) < 1e-12))]
  simp only
  have hrx : ((zx - 0) * (1 - ((0 : ℝ) * zx + 0 * zy)) + (zy - 0) * (-((0 : ℝ) * zy - 0 * zx))) /
      ((1 - ((0 : ℝ) * zx + 0 * zy)) * (1 - ((0 : ℝ) * zx + 0 * zy)) +
        (-((0 : ℝ) * zy - 0 * zx)) * (-((0 : ℝ) * zy - 0 * zx))) = zx := by
    norm_num
  have hry : ((zy - 0) * (1 - ((0 : ℝ) * zx + 0 * zy)) - (zx - 0) * (-((0 : ℝ) * zy - 0 * zx))) /
      ((1 - ((0 : ℝ) * zx + 0 * zy)) * (1 - ((0 : ℝ) * zx + 0 * zy)) +
        (-((0 : ℝ) * zy - 0 * zx)) * (-((0 : ℝ) * zy - 0 * zx))) = zy := by
    norm_num
  rw [hrx, hry]
  rw [if_neg (not_le.2 hin)]

/-- `unprojectPoincare` takes its in-disk branch when the disk coordinates
lie strictly inside the unit circle. -/
theorem unprojectPoincare_inside (sx sy : ℝ) (view : HyperbolicViewState) (w h : ℝ)
    (hin : ((sx - w / 2) / diskRadius view w h) * ((sx - w / 2) / diskRadius view w h) +
      (-(sy - h / 2) / diskRadius view w h) * (-(sy - h / 2) / diskRadius view w h) < 1) :
    unprojectPoincare sx sy view w h =
      inverseMobiusTransform ((sx - w / 2) / diskRadius view w h)
        (-(sy - h / 2) / diskRadius view w h) view.ax view.ay := by
  unfold unprojectPoincare
  rw [if_neg (not_le.2 hin)]

theorem diskRadius_default_canvas : diskRadius ⟨0, 0, 1⟩ 1200 800 = 360 := by
  unfold diskRadius
  norm_num [min_def]

theorem triangle_unproject_eval :
    ([((600 : ℝ), (400 : ℝ)), (600, 220), (780, 400)] : List (ℝ × ℝ)).map
      (fun s => unprojectPoincare s.1 s.2 ⟨0, 0, 1⟩ 1200 800) =
      [(0, 0), (0, 1 / 2), (1 / 2, 0)] := by
  have hax : (⟨0, 0, 1⟩ : HyperbolicViewState).ax = 0 := rfl
  have hay : (⟨0, 0, 1⟩ : HyperbolicViewState).ay = 0 := rfl
  have h1 : unprojectPoincare 600 400 ⟨0, 0, 1⟩ 1200 800 = ((0 : ℝ), (0 : ℝ)) := by
    rw [unprojectPoincare_inside _ _ _ _ _ (by rw [diskRadius_default_canvas]; norm_num)]
    rw [diskRadius_default_canvas, hax, hay]
    rw [show ((600 : ℝ) - 1200 / 2) / 360 = 0 by norm_num,
        show (-((400 : ℝ) - 800 / 2)) / 360 = 0 by norm_num]
    exact inverseMobius_zero_camera 0 0 (by norm_num)
  have h2 : unprojectPoincare 600 220 ⟨0, 0, 1⟩ 1200 800 = ((0 : ℝ), (1 / 2 : ℝ)) := by
    rw [unprojectPoincare_inside _ _ _ _ _ (by rw [diskRadius_default_canvas]; norm_num)]
    rw [diskRadius_default_canvas, hax, hay]
    rw [show ((600 : ℝ) - 1200 / 2) / 360 = 0 by norm_num,
        show (-((220 : ℝ) - 800 / 2)) / 360 = 1 / 2 by norm_num]
    exact inverseMobius_zero_camera 0 (1 / 2) (by norm_num)
  have h3 : unprojectPoincare 780 400 ⟨0, 0, 1⟩ 1200 800 = ((1 / 2 : ℝ), (0 : ℝ)) := by
    rw [unprojectPoincare_inside _ _ _ _ _ (by rw [diskRadius_default_canvas]; norm_num)]
    rw [diskRadius_default_canvas, hax, hay]
    rw [show ((780 : ℝ) - 1200 / 2) / 360 = 1 / 2 by norm_num,
        show (-((400 : ℝ) - 800 / 2)) / 360 = 0 by norm_num]
    exact inverseMobius_zero_camera (1 / 2) 0 (by norm_num)
  simp only [List.map]
  rw [h1, h2, h3]

/-- Concrete instance of `lasso_geometryHas_exact_boundary`: the midpoint of
the left edge of the canonical data triangle is accepted. -/
theorem lasso_geometryHas_exact_boundary_witness :
    (3 ≤ ([((600 : ℝ), (400 : ℝ)), (600, 220), (780, 400)] : List (ℝ × ℝ)).length ∧
      ((0, 0), ((0 : ℝ), (1 / 2 : ℝ))) ∈ polygonEdges
        (hyperbolicLassoSelect ⟨0, 0, 1⟩ 1200 800
          [((600 : ℝ), (400 : ℝ)), (600, 220), (780, 400)] 0).coords ∧
      (0 : ℝ) ≤ 1 / 2 ∧ (1 / 2 : ℝ) ≤ 1) ∧
    geometryHas (hyperbolicLassoSelect ⟨0, 0, 1⟩ 1200 800
        [((600 : ℝ), (400 : ℝ)), (600, 220), (780, 400)] 0)
      ((0 : ℝ) + 1 / 2 * (0 - 0)) ((1 / 2 : ℝ) + 1 / 2 * (0 - 1 / 2)) = true := by
  have hcoords : (hyperbolicLassoSelect ⟨0, 0, 1⟩ 1200 800
      [((600 : ℝ), (400 : ℝ)), (600, 220), (780, 400)] 0).coords =
      [(0, 0), (0, 1 / 2), (1 / 2, 0)] := triangle_unproject_eval
  have hedge : (((0 : ℝ), (0 : ℝ)), ((0 : ℝ), (1 / 2 : ℝ))) ∈ polygonEdges
      (hyperbolicLassoSelect ⟨0, 0, 1⟩ 1200 800
        [((600 : ℝ), (400 : ℝ)), (600, 220), (780, 400)] 0).coords := by
    rw [hcoords]
    show _ ∈ polygonEdges [((0 : ℝ), (0 : ℝ)), (0, 1 / 2), (1 / 2, 0)]
    unfold polygonEdges
    simp
  refine ⟨⟨by simp, hedge, by norm_num, by norm_num⟩, ?_⟩
  exact lasso_geometryHas_exact_boundary ⟨0, 0, 1⟩ 1200 800 0
    [((600 : ℝ), (400 : ℝ)), (600, 220), (780, 400)] (by simp)
    (((0 : ℝ), (0 : ℝ)), ((0 : ℝ), (1 / 2 : ℝ))) hedge (1 / 2) (by norm_num) (by norm_num)

/-- C3 counterexample: the dataset point `(-1e-10, 1/4)` lies within the
`1e-9` tolerance of the data triangle's left edge, so the spec's
inside-or-on predicate (`pointInPolygon`) accepts it — but it falls outside
the polygon's tight AABB (`x < xMin = 0`), so the geometry-variant
`has(0)` rejects it. -/
theorem lasso_tolerance_counterexample :
    pointInPolygon (-(1 / 10000000000)) (1 / 4)
      (hyperbolicLassoSelect ⟨0, 0, 1⟩ 1200 800
        [((600 : ℝ), (400 : ℝ)), (600, 220), (780, 400)] 0).coords = true ∧
    geometryHasIndex [(-(1 / 10000000000), 1 / 4)]
      (hyperbolicLassoSelect ⟨0, 0, 1⟩ 1200 800
        [((600 : ℝ), (400 : ℝ)), (600, 220), (780, 400)] 0) 0 = false := by
  have hcoords : (hyperbolicLassoSelect ⟨0, 0, 1⟩ 1200 800
      [((600 : ℝ), (400 : ℝ)), (600, 220), (780, 400)] 0).coords =
      [(0, 0), (0, 1 / 2), (1 / 2, 0)] := triangle_unproject_eval
  constructor
  · rw [hcoords]
    unfold pointInPolygon
    rw [if_neg (by simp)]
    rw [if_pos]
    apply List.any_eq_true.2
    refine ⟨(((0 : ℝ), (0 : ℝ)), ((0 : ℝ), (1 / 2 : ℝ))), ?_, ?_⟩
    · unfold polygonEdges
      simp
    · show isPointOnSegment (-(1 / 10000000000)) (1 / 4) 0 (1 / 2) 0 0 1e-9 = true
      unfold isPointOnSegment
      rw [if_neg (by push_neg; norm_num [min_def, max_def])]
      rw [if_neg (by norm_num)]
      simp only
      have ht : max 0 (min 1 (((-(1 / 10000000000) - (0 : ℝ)) * ((0 : ℝ) - 0) +
          ((1 / 4 : ℝ) - 1 / 2) * ((0 : ℝ) - 1 / 2)) /
          (((0 : ℝ) - 0) * ((0 : ℝ) - 0) + ((0 : ℝ) - 1 / 2) * ((0 : ℝ) - 1 / 2)))) =
          (1 / 2 : ℝ) := by
        norm_num
      rw [ht]
      have harg : (-(1 / 10000000000) - ((0 : ℝ) + 1 / 2 * ((0 : ℝ) - 0))) *
          (-(1 / 10000000000) - ((0 : ℝ) + 1 / 2 * ((0 : ℝ) - 0))) +
          ((1 / 4 : ℝ) - ((1 / 2 : ℝ) + 1 / 2 * ((0 : ℝ) - 1 / 2))) *
          ((1 / 4 : ℝ) - ((1 / 2 : ℝ) + 1 / 2 * ((0 : ℝ) - 1 / 2))) =
          ((1 : ℝ) / 10000000000) ^ 2 := by
        norm_num
      rw [harg, Real.sqrt_sq (by norm_num)]
      norm_num
  · unfold geometryHasIndex geometryHas
    have hxmin : (hyperbolicLassoSelect ⟨0, 0, 1⟩ 1200 800
        [((600 : ℝ), (400 : ℝ)), (600, 220), (780, 400)] 0).xMin = 0 := by
      show dataFoldMin Prod.fst (([((600 : ℝ), (400 : ℝ)), (600, 220), (780, 400)] :
        List (ℝ × ℝ)).map (fun s => unprojectPoincare s.1 s.2 ⟨0, 0, 1⟩ 1200 800)) = 0
      rw [triangle_unproject_eval]
      unfold dataFoldMin
      norm_num [min_def]
    rw [if_pos]
    rw [hxmin]
    simp only [List.getD]
    norm_num

/-! ## Uniform grid spatial index (`impl_candidate/spatial_index.ts`)

The grid is built once from the data positions: bounds (degenerate axes
expanded), cell counts split by aspect ratio and clamped to [8, 2048], a
per-cell counting pass, prefix sums (`offsets`), and a cursor-driven fill of
the packed `ids` array.  `Math.floor` becomes `Int.floor`, `Math.round`
becomes `round` (both are `⌊x + 1/2⌋` on the nonnegative values that occur),
and `clampInt`'s `v | 0` truncation is the identity on the integer values it
receives. -/

/-- Data-space bounds. -/
structure Bounds2D where
  minX : ℝ
  minY : ℝ
  maxX : ℝ
  maxY : ℝ

/-- `clampInt` on integers. -/
def clampInt (v lo hi : ℤ) : ℤ :=
  if v < lo then lo else if hi < v then hi else v

/-- `computeBounds`: min/max over the positions (zeros for an empty list,
matching the `isFinite` fallback), then degenerate axes expanded by 1. -/
def computeBounds (pts : List (ℝ × ℝ)) : Bounds2D :=
  match pts with
  | [] => ⟨0, 0, 0, 0⟩
  | _ :: _ =>
    let minX := dataFoldMin Prod.fst pts
    let maxX := dataFoldMax Prod.fst pts
    let minY := dataFoldMin Prod.snd pts
    let maxY := dataFoldMax Prod.snd pts
    { minX := minX
      minY := minY
      maxX := if |maxX - minX| < 1e-9 then minX + 1 else maxX
      maxY := if |maxY - minY| < 1e-9 then minY + 1 else maxY }

/-- `clamp(Math.ceil(n / 64), 64, 1e6)` — the total cell budget. -/
def gridTotalCells (n : ℕ) : ℕ := max 64 (min 1000000 ((n + 63) / 64))

/-- Cells along the x axis: `clampInt(round(sqrt(totalCells * aspect)), 8, 2048)`. -/
def gridCellsX (pts : List (ℝ × ℝ)) : ℕ :=
  let b := computeBounds pts
  let aspect := (b.maxX - b.minX) / (b.maxY - b.minY)
  (clampInt (round (Real.sqrt ((gridTotalCells pts.length : ℝ) * aspect))) 8 2048).toNat

/-- Cells along the y axis: `clampInt(round(totalCells / cellsX), 8, 2048)`. -/
def gridCellsY (pts : List (ℝ × ℝ)) : ℕ :=
  (clampInt (round ((gridTotalCells pts.length : ℝ) / (gridCellsX pts : ℝ))) 8 2048).toNat

/-- Cell edge lengths `span / cells`. -/
def gridCellSizeX (pts : List (ℝ × ℝ)) : ℝ :=
  ((computeBounds pts).maxX - (computeBounds pts).minX) / (gridCellsX pts : ℝ)

def gridCellSizeY (pts : List (ℝ × ℝ)) : ℝ :=
  ((computeBounds pts).maxY - (computeBounds pts).minY) / (gridCellsY pts : ℝ)

/-- Clamped x cell index of an x coordinate — the shared formula
`clampInt(floor((x - minX) / cellSizeX), 0, cellsX - 1)` used both by the
constructor and by `forEachInAABB`. -/
def cellClampX (pts : List (ℝ × ℝ)) (x : ℝ) : ℕ :=
  (clampInt ⌊(x - (computeBounds pts).minX) / gridCellSizeX pts⌋ 0
    ((gridCellsX pts : ℤ) - 1)).toNat

def cellClampY (pts : List (ℝ × ℝ)) (y : ℝ) : ℕ :=
  (clampInt ⌊(y - (computeBounds pts).minY) / gridCellSizeY pts⌋ 0
    ((gridCellsY pts : ℤ) - 1)).toNat

/-- Linear cell index `cy * cellsX + cx` of a point. -/
def gridCellOf (pts : List (ℝ × ℝ)) (p : ℝ × ℝ) : ℕ :=
  cellClampY pts p.2 * gridCellsX pts + cellClampX pts p.1

/-- Per-cell population — the result of the source's first counting pass. -/
def gridCounts (pts : List (ℝ × ℝ)) (c : ℕ) : ℕ :=
  (List.range pts.length).countP (fun i => gridCellOf pts (pts.getD i (0, 0)) == c)

/-- Prefix sums of the counts — the `offsets` array. -/
def gridOffsets (pts : List (ℝ × ℝ)) (c : ℕ) : ℕ :=
  ∑ k ∈ Finset.range c, gridCounts pts k

/-- One step of the cursor-driven fill loop: write point `i` at the cursor
position of its cell and advance that cursor. -/
def gridFillStep (pts : List (ℝ × ℝ)) (st : (ℕ → ℕ) × (ℕ → ℕ)) (i : ℕ) :
    (ℕ → ℕ) × (ℕ → ℕ) :=
  let c := gridCellOf pts (pts.getD i (0, 0))
  let dst := st.1 c
  (Function.update st.1 c (dst + 1), Function.update st.2 dst i)

/-- The fill loop: cursors start at the offsets, the `ids` array starts
zeroed. -/
def gridFill (pts : List (ℝ × ℝ)) : (ℕ → ℕ) × (ℕ → ℕ) :=
  (List.range pts.length).foldl (gridFillStep pts) (gridOffsets pts, fun _ => 0)

/-- The packed `ids` array. -/
def gridIds (pts : List (ℝ × ℝ)) : ℕ → ℕ := (gridFill pts).2

/-- The prefix of the point indices on cell `c` after the first `m` fill
steps. -/
def bucketPrefix (pts : List (ℝ × ℝ)) (m c : ℕ) : List ℕ :=
  (List.range m).filter (fun i => gridCellOf pts (pts.getD i (0, 0)) == c)

theorem bucketPrefix_length (pts : List (ℝ × ℝ)) (m c : ℕ) :
    (bucketPrefix pts m c).length =
      (List.range m).countP (fun i => gridCellOf pts (pts.getD i (0, 0)) == c) :=
  (List.countP_eq_length_filter _ _).symm

theorem gridCounts_eq_bucket_length (pts : List (ℝ × ℝ)) (c : ℕ) :
    gridCounts pts c = (bucketPrefix pts pts.length c).length :=
  (bucketPrefix_length pts pts.length c).symm

theorem bucketPrefix_succ (pts : List (ℝ × ℝ)) (m c : ℕ) :
    bucketPrefix pts (m + 1) c =
      if gridCellOf pts (pts.getD m (0, 0)) = c then bucketPrefix pts m c ++ [m]
      else bucketPrefix pts m c := by
  unfold bucketPrefix
  rw [List.range_succ, List.filter_append]
  by_cases h : gridCellOf pts (pts.getD m (0, 0)) = c
  · rw [if_pos h]
    congr 1
    simp only [List.filter_cons, List.filter_nil, beq_iff_eq]
    rw [if_pos h]
  · rw [if_neg h]
    simp only [List.filter_cons, List.filter_nil, beq_iff_eq]
    rw [if_neg h, List.append_nil]

theorem bucketPrefix_mono_length (pts : List (ℝ × ℝ)) (m c : ℕ) :
    (bucketPrefix pts m c).length ≤ (bucketPrefix pts (m + 1) c).length := by
  rw [bucketPrefix_succ]
  by_cases h : gridCellOf pts (pts.getD m (0, 0)) = c
  · rw [if_pos h, List.length_append]
    omega
  · rw [if_neg h]

theorem bucketPrefix_length_mono (pts : List (ℝ × ℝ)) (c : ℕ) :
    ∀ {m m' : ℕ}, m ≤ m' →
      (bucketPrefix pts m c).length ≤ (bucketPrefix pts m' c).length := by
  intro m m' h
  induction m' with
  | zero =>
      have : m = 0 := Nat.le_zero.1 h
      subst this
      exact le_refl _
  | succ k ih =>
      rcases Nat.lt_or_ge m (k + 1) with h2 | h2
      · exact le_trans (ih (Nat.lt_succ_iff.1 h2)) (bucketPrefix_mono_length pts k c)
      · have : m = k + 1 := le_antisymm h h2
        subst this
        exact le_refl _

theorem bucketPrefix_le_counts (pts : List (ℝ × ℝ)) (m c : ℕ)
    (hm : m ≤ pts.length) :
    (bucketPrefix pts m c).length ≤ gridCounts pts c := by
  rw [gridCounts_eq_bucket_length]
  exact bucketPrefix_length_mono pts c hm

theorem gridOffsets_succ (pts : List (ℝ × ℝ)) (c : ℕ) :
    gridOffsets pts (c + 1) = gridOffsets pts c + gridCounts pts c :=
  Finset.sum_range_succ _ c

theorem gridOffsets_mono (pts : List (ℝ × ℝ)) {c c' : ℕ} (h : c ≤ c') :
    gridOffsets pts c ≤ gridOffsets pts c' := by
  unfold gridOffsets
  exact Finset.sum_le_sum_of_subset (Finset.range_subset.2 h)

/-- Slots of distinct cells never collide: the slot `offsets c + k` with
`k < counts c` determines `c`. -/
theorem grid_slot_ne (pts : List (ℝ × ℝ)) {c c' k k' : ℕ}
    (hk : k < gridCounts pts c) (hk' : k' < gridCounts pts c') (hne : c ≠ c') :
    gridOffsets pts c + k ≠ gridOffsets pts c' + k' := by
  rcases Nat.lt_or_ge c c' with h | h
  · have h1 : gridOffsets pts c + k < gridOffsets pts (c + 1) := by
      rw [gridOffsets_succ]; omega
    have h2 : gridOffsets pts (c + 1) ≤ gridOffsets pts c' := gridOffsets_mono pts h
    omega
  · have hcc : c' < c := lt_of_le_of_ne h (Ne.symm hne)
    have h1 : gridOffsets pts c' + k' < gridOffsets pts (c' + 1) := by
      rw [gridOffsets_succ]; omega
    have h2 : gridOffsets pts (c' + 1) ≤ gridOffsets pts c := gridOffsets_mono pts hcc
    omega

/-- Fill state after the first `m` loop iterations. -/
def gridFillPrefix (pts : List (ℝ × ℝ)) (m : ℕ) : (ℕ → ℕ) × (ℕ → ℕ) :=
  (List.range m).foldl (gridFillStep pts) (gridOffsets pts, fun _ => 0)

/-- Counting-sort invariant: after `m` fill steps each cursor sits at its
offset plus the number of already-placed points of its cell, and each cell's
slot range holds exactly the already-placed points of that cell in index
order. -/
theorem gridFillPrefix_spec (pts : List (ℝ × ℝ)) :
    ∀ m, m ≤ pts.length →
      (∀ c, (gridFillPrefix pts m).1 c =
        gridOffsets pts c + (bucketPrefix pts m c).length) ∧
      (∀ c k, k < (bucketPrefix pts m c).length →
        (gridFillPrefix pts m).2 (gridOffsets pts c + k) =
          (bucketPrefix pts m c).getD k 0) := by
  intro m
  induction m with
  | zero =>
      intro _
      constructor
      · intro c
        show gridOffsets pts c = gridOffsets pts c + (bucketPrefix pts 0 c).length
        unfold bucketPrefix
        simp
      · intro c k hk
        unfold bucketPrefix at hk
        simp at hk
  | succ m ih =>
      intro hm
      obtain ⟨ihc, iha⟩ := ih (Nat.le_of_succ_le hm)
      have hstep : gridFillPrefix pts (m + 1) =
          gridFillStep pts (gridFillPrefix pts m) m := by
        unfold gridFillPrefix
        rw [List.range_succ, List.foldl_append, List.foldl_cons, List.foldl_nil]
      set c0 := gridCellOf pts (pts.getD m (0, 0)) with hc0
      have hdst : (gridFillPrefix pts m).1 c0 =
          gridOffsets pts c0 + (bucketPrefix pts m c0).length := ihc c0
      have hsucc0 : (bucketPrefix pts (m + 1) c0).length =
          (bucketPrefix pts m c0).length + 1 := by
        rw [bucketPrefix_succ, if_pos rfl, List.length_append]
        rfl
      have hlt0 : (bucketPrefix pts m c0).length < gridCounts pts c0 := by
        have h1 : (bucketPrefix pts (m + 1) c0).length ≤ gridCounts pts c0 :=
          bucketPrefix_le_counts pts (m + 1) c0 hm

        omega
      constructor
      · intro c
        rw [hstep]
        unfold gridFillStep
        simp only
        by_cases hc : c = c0
        · rw [hc, Function.update_same, hdst, hsucc0]
          omega
        · rw [Function.update_noteq hc, ihc c, bucketPrefix_succ,
            if_neg (fun h => hc h.symm)]
      · intro c k hk
        rw [hstep]
        unfold gridFillStep
        simp only
        by_cases hc : c = c0
        · rw [hc] at hk ⊢
          rw [hsucc0] at hk
          rcases Nat.lt_or_ge k (bucketPrefix pts m c0).length with hk2 | hk2
          · have hne : gridOffsets pts c0 + k ≠ (gridFillPrefix pts m).1 c0 := by
              rw [hdst]
              omega
            rw [Function.update_noteq hne, iha c0 k hk2, bucketPrefix_succ, if_pos rfl]
            rw [List.getD_append _ _ _ _ hk2]
          · have hkeq : k = (bucketPrefix pts m c0).length := by omega
            subst hkeq
            rw [← hdst, Function.update_same, bucketPrefix_succ, if_pos rfl]
            rw [List.getD_append_right _ _ _ _ (le_refl _)]
            simp
        · have hlen : (bucketPrefix pts (m + 1) c).length =
              (bucketPrefix pts m c).length := by
            rw [bucketPrefix_succ, if_neg (fun h => hc h.symm)]
          rw [hlen] at hk
          have hne : gridOffsets pts c + k ≠ (gridFillPrefix pts m).1 c0 := by
            rw [hdst]
            exact grid_slot_ne pts
              (lt_of_lt_of_le hk (bucketPrefix_le_counts pts m c
                (Nat.le_of_succ_le hm))) hlt0 hc
          rw [Function.update_noteq hne, iha c k hk, bucketPrefix_succ,
            if_neg (fun h => hc h.symm)]

/-- The packed `ids` array holds, for each cell, exactly the indices of the
points of that cell in increasing order. -/
theorem gridIds_segment (pts : List (ℝ × ℝ)) (c k : ℕ) (hk : k < gridCounts pts c) :
    gridIds pts (gridOffsets pts c + k) = (bucketPrefix pts pts.length c).getD k 0 := by
  have h := (gridFillPrefix_spec pts pts.length (le_refl _)).2 c k
    (by rw [← gridCounts_eq_bucket_length]; exact hk)
  exact h

/-- List form of `gridIds_segment`: the slice of `ids` between
`offsets c` and `offsets (c+1)` is the cell's bucket. -/
theorem gridIds_segment_list (pts : List (ℝ × ℝ)) (c : ℕ) :
    (List.range (gridCounts pts c)).map (fun k => gridIds pts (gridOffsets pts c + k)) =
      bucketPrefix pts pts.length c := by
  apply List.ext_getElem
  · rw [List.length_map, List.length_range, gridCounts_eq_bucket_length]
  · intro i h1 h2
    rw [List.getElem_map, List.getElem_range]
    rw [List.length_map, List.length_range] at h1
    rw [gridIds_segment pts c i h1]
    exact List.getD_eq_getElem _ _ h2

/-! ### The `forEachInAABB` traversal -/

/-- The id slice of a single cell, `ids[offsets[c] .. offsets[c+1])`. -/
def cellSlice (pts : List (ℝ × ℝ)) (c : ℕ) : List ℕ :=
  (List.range (gridCounts pts c)).map (fun k => gridIds pts (gridOffsets pts c + k))

theorem cellSlice_eq_bucket (pts : List (ℝ × ℝ)) (c : ℕ) :
    cellSlice pts c = bucketPrefix pts pts.length c :=
  gridIds_segment_list pts c

theorem mem_cellSlice (pts : List (ℝ × ℝ)) (c i : ℕ) :
    i ∈ cellSlice pts c ↔
      i < pts.length ∧ gridCellOf pts (pts.getD i (0, 0)) = c := by
  rw [cellSlice_eq_bucket]
  unfold bucketPrefix
  rw [List.mem_filter, List.mem_range]
  simp [beq_iff_eq]

theorem cellSlice_nodup (pts : List (ℝ × ℝ)) (c : ℕ) :
    (cellSlice pts c).Nodup := by
  rw [cellSlice_eq_bucket]
  exact (List.nodup_range _).filter _

/-- The id sequence visited by `forEachInAABB`: the query box is expanded by
`eps = 1e-12`, converted to a clamped cell rectangle, and the cells are
walked in row-major order, each contributing its `ids` slice. -/
def forEachVisited (pts : List (ℝ × ℝ)) (minXq minYq maxXq maxYq : ℝ) : List ℕ :=
  let cx0 := cellClampX pts (minXq - 1e-12)
  let cy0 := cellClampY pts (minYq - 1e-12)
  let cx1 := cellClampX pts (maxXq + 1e-12)
  let cy1 := cellClampY pts (maxYq + 1e-12)
  (List.range' cy0 (cy1 + 1 - cy0)).flatMap (fun cy =>
    (List.range' cx0 (cx1 + 1 - cx0)).flatMap (fun cx =>
      cellSlice pts (cy * gridCellsX pts + cx)))

theorem clampInt_le_hi {v lo hi : ℤ} (h : lo ≤ hi) : clampInt v lo hi ≤ hi := by
  unfold clampInt
  split_ifs <;> omega

theorem lo_le_clampInt {v lo hi : ℤ} (h : lo ≤ hi) : lo ≤ clampInt v lo hi := by
  unfold clampInt
  split_ifs <;> omega

theorem clampInt_mono {v v' lo hi : ℤ} (hlh : lo ≤ hi) (h : v ≤ v') :
    clampInt v lo hi ≤ clampInt v' lo hi := by
  unfold clampInt
  split_ifs <;> omega

theorem gridCellsX_ge (pts : List (ℝ × ℝ)) : 8 ≤ gridCellsX pts := by
  unfold gridCellsX
  show 8 ≤ (clampInt (round (Real.sqrt ((gridTotalCells pts.length : ℝ) *
    (((computeBounds pts).maxX - (computeBounds pts).minX) /
      ((computeBounds pts).maxY - (computeBounds pts).minY))))) 8 2048).toNat
  have h := @lo_le_clampInt (round (Real.sqrt ((gridTotalCells pts.length : ℝ) *
    (((computeBounds pts).maxX - (computeBounds pts).minX) /
      ((computeBounds pts).maxY - (computeBounds pts).minY))))) 8 2048 (by norm_num)
  omega

theorem gridCellsY_ge (pts : List (ℝ × ℝ)) : 8 ≤ gridCellsY pts := by
  unfold gridCellsY
  have h := @lo_le_clampInt (round ((gridTotalCells pts.length : ℝ) /
    (gridCellsX pts : ℝ))) 8 2048 (by norm_num)
  omega

theorem cellClampX_lt (pts : List (ℝ × ℝ)) (x : ℝ) :
    cellClampX pts x < gridCellsX pts := by
  unfold cellClampX
  have hge := gridCellsX_ge pts
  have hle := @clampInt_le_hi
    ⌊(x - (computeBounds pts).minX) / gridCellSizeX pts⌋
    0 ((gridCellsX pts : ℤ) - 1) (by omega)
  omega

theorem cellClampY_lt (pts : List (ℝ × ℝ)) (y : ℝ) :
    cellClampY pts y < gridCellsY pts := by
  unfold cellClampY
  have hge := gridCellsY_ge pts
  have hle := @clampInt_le_hi
    ⌊(y - (computeBounds pts).minY) / gridCellSizeY pts⌋
    0 ((gridCellsY pts : ℤ) - 1) (by omega)
  omega

/-- Decomposition `cy * W + cx` with `cx, cx' < W` determines both parts. -/
theorem cell_decomp_unique {W a a' b b' : ℕ} (hW : 0 < W) (hb : b < W) (hb' : b' < W)
    (h : a * W + b = a' * W + b') : a = a' ∧ b = b' := by
  have h1 : (W * a + b) / W = a := by
    rw [Nat.mul_add_div hW, Nat.div_eq_of_lt hb, Nat.add_zero]
  have h2 : (W * a' + b') / W = a' := by
    rw [Nat.mul_add_div hW, Nat.div_eq_of_lt hb', Nat.add_zero]
  have hcomm : W * a + b = W * a' + b' := by
    rw [Nat.mul_comm W a, Nat.mul_comm W a']
    exact h
  have ha : a = a' := by rw [← h1, hcomm, h2]
  refine ⟨ha, ?_⟩
  subst ha
  exact Nat.add_left_cancel h

/-- Membership in the traversal: exactly the points whose cell lies in the
queried clamped rectangle. -/
theorem mem_forEachVisited (pts : List (ℝ × ℝ)) (qx0 qy0 qx1 qy1 : ℝ) (i : ℕ) :
    i ∈ forEachVisited pts qx0 qy0 qx1 qy1 ↔
      i < pts.length ∧
      cellClampX pts (qx0 - 1e-12) ≤ cellClampX pts (pts.getD i (0, 0)).1 ∧
      cellClampX pts (pts.getD i (0, 0)).1 ≤ cellClampX pts (qx1 + 1e-12) ∧
      cellClampY pts (qy0 - 1e-12) ≤ cellClampY pts (pts.getD i (0, 0)).2 ∧
      cellClampY pts (pts.getD i (0, 0)).2 ≤ cellClampY pts (qy1 + 1e-12) := by
  have hWpos : 0 < gridCellsX pts :=
    lt_of_lt_of_le (by norm_num) (gridCellsX_ge pts)
  unfold forEachVisited
  simp only
  constructor
  · intro h
    obtain ⟨cy, hcy, h2⟩ := List.mem_flatMap.1 h
    obtain ⟨cx, hcx, h3⟩ := List.mem_flatMap.1 h2
    obtain ⟨hi, hcell⟩ := (mem_cellSlice pts _ i).1 h3
    obtain ⟨jy, hjy, hcyeq⟩ := List.mem_range'.1 hcy
    obtain ⟨jx, hjx, hcxeq⟩ := List.mem_range'.1 hcx
    have hcxlt : cx < gridCellsX pts := by
      have h1 := cellClampX_lt pts (qx1 + 1e-12)
      omega
    unfold gridCellOf at hcell
    have hdec := cell_decomp_unique hWpos (cellClampX_lt pts (pts.getD i (0, 0)).1)
      hcxlt hcell
    refine ⟨hi, ?_, ?_, ?_, ?_⟩ <;> omega
  · rintro ⟨hi, h1, h2, h3, h4⟩
    refine List.mem_flatMap.2 ⟨cellClampY pts (pts.getD i (0, 0)).2, ?_, ?_⟩
    · exact List.mem_range'.mpr
        ⟨cellClampY pts (pts.getD i (0, 0)).2 - cellClampY pts (qy0 - 1e-12),
          by omega, by omega⟩
    · refine List.mem_flatMap.2 ⟨cellClampX pts (pts.getD i (0, 0)).1, ?_, ?_⟩
      · exact List.mem_range'.mpr
          ⟨cellClampX pts (pts.getD i (0, 0)).1 - cellClampX pts (qx0 - 1e-12),
            by omega, by omega⟩
      · exact (mem_cellSlice pts _ i).2 ⟨hi, rfl⟩

/-- The traversal never visits an id twice: per-cell slices are duplicate
free and distinct cells of the rectangle contribute disjoint slices. -/
theorem forEachVisited_nodup (pts : List (ℝ × ℝ)) (qx0 qy0 qx1 qy1 : ℝ) :
    (forEachVisited pts qx0 qy0 qx1 qy1).Nodup := by
  have hWpos : 0 < gridCellsX pts :=
    lt_of_lt_of_le (by norm_num) (gridCellsX_ge pts)
  unfold forEachVisited
  simp only
  rw [List.nodup_flatMap]
  constructor
  · intro cy _
    rw [List.nodup_flatMap]
    refine ⟨fun cx _ => cellSlice_nodup pts _, ?_⟩
    refine (List.pairwise_lt_range' _ _ 1 (by norm_num)).imp ?_
    intro cx cx' hlt
    intro a ha ha'
    obtain ⟨_, hc1⟩ := (mem_cellSlice pts _ a).1 ha
    obtain ⟨_, hc2⟩ := (mem_cellSlice pts _ a).1 ha'
    rw [hc1] at hc2
    omega
  · refine (List.pairwise_lt_range' _ _ 1 (by norm_num)).imp ?_
    intro cy cy' hlt
    intro a ha ha'
    obtain ⟨cx, hcx, hs⟩ := List.mem_flatMap.1 ha
    obtain ⟨cx', hcx', hs'⟩ := List.mem_flatMap.1 ha'
    obtain ⟨_, hc1⟩ := (mem_cellSlice pts _ a).1 hs
    obtain ⟨_, hc2⟩ := (mem_cellSlice pts _ a).1 hs'
    obtain ⟨jx, hjx, hcxeq⟩ := List.mem_range'.1 hcx
    obtain ⟨jx', hjx', hcxeq'⟩ := List.mem_range'.1 hcx'
    have hcxlt : cx < gridCellsX pts := by
      have h1 := cellClampX_lt pts (qx1 + 1e-12)
      omega
    have hcxlt' : cx' < gridCellsX pts := by
      have h1 := cellClampX_lt pts (qx1 + 1e-12)
      omega
    have heq : cy * gridCellsX pts + cx = cy' * gridCellsX pts + cx' := by
      rw [← hc1, ← hc2]
    have hdec := cell_decomp_unique hWpos hcxlt hcxlt' heq
    omega

theorem gridCellSizeX_pos (pts : List (ℝ × ℝ)) (hne : pts ≠ []) :
    0 < gridCellSizeX pts := by
  have hW : 0 < (gridCellsX pts : ℝ) := by
    have := gridCellsX_ge pts
    positivity
  apply div_pos _ hW
  match pts with
  | p :: t =>
    show 0 < (computeBounds (p :: t)).maxX - (computeBounds (p :: t)).minX
    unfold computeBounds
    simp only
    by_cases hdeg : |dataFoldMax Prod.fst (p :: t) - dataFoldMin Prod.fst (p :: t)| < 1e-9
    · rw [if_pos hdeg]
      norm_num
    · rw [if_neg hdeg]
      have hle := dataFoldMin_le_dataFoldMax Prod.fst (p :: t) (List.cons_ne_nil p t)
      rw [abs_of_nonneg (by linarith)] at hdeg
      linarith

theorem gridCellSizeY_pos (pts : List (ℝ × ℝ)) (hne : pts ≠ []) :
    0 < gridCellSizeY pts := by
  have hW : 0 < (gridCellsY pts : ℝ) := by
    have := gridCellsY_ge pts
    positivity
  apply div_pos _ hW
  match pts with
  | p :: t =>
    show 0 < (computeBounds (p :: t)).maxY - (computeBounds (p :: t)).minY
    unfold computeBounds
    simp only
    by_cases hdeg : |dataFoldMax Prod.snd (p :: t) - dataFoldMin Prod.snd (p :: t)| < 1e-9
    · rw [if_pos hdeg]
      norm_num
    · rw [if_neg hdeg]
      have hle := dataFoldMin_le_dataFoldMax Prod.snd (p :: t) (List.cons_ne_nil p t)
      rw [abs_of_nonneg (by linarith)] at hdeg
      linarith

theorem cellClampX_mono (pts : List (ℝ × ℝ)) (hne : pts ≠ []) {x x' : ℝ}
    (h : x ≤ x') : cellClampX pts x ≤ cellClampX pts x' := by
  have hcs := gridCellSizeX_pos pts hne
  have hge := gridCellsX_ge pts
  unfold cellClampX
  apply Int.toNat_le_toNat
  apply clampInt_mono (by omega)
  apply Int.floor_mono
  rw [div_le_div_iff_of_pos_right hcs]
  linarith

theorem cellClampY_mono (pts : List (ℝ × ℝ)) (hne : pts ≠ []) {y y' : ℝ}
    (h : y ≤ y') : cellClampY pts y ≤ cellClampY pts y' := by
  have hcs := gridCellSizeY_pos pts hne
  have hge := gridCellsY_ge pts
  unfold cellClampY
  apply Int.toNat_le_toNat
  apply clampInt_mono (by omega)
  apply Int.floor_mono
  rw [div_le_div_iff_of_pos_right hcs]
  linarith

/-- Coverage: any point of the (unexpanded) query box is visited. -/
theorem forEachVisited_coverage (pts : List (ℝ × ℝ)) (hne : pts ≠ [])
    (qx0 qy0 qx1 qy1 : ℝ) (i : ℕ) (hi : i < pts.length)
    (hx0 : qx0 ≤ (pts.getD i (0, 0)).1) (hx1 : (pts.getD i (0, 0)).1 ≤ qx1)
    (hy0 : qy0 ≤ (pts.getD i (0, 0)).2) (hy1 : (pts.getD i (0, 0)).2 ≤ qy1) :
    i ∈ forEachVisited pts qx0 qy0 qx1 qy1 := by
  refine (mem_forEachVisited pts qx0 qy0 qx1 qy1 i).2 ⟨hi, ?_, ?_, ?_, ?_⟩
  · exact cellClampX_mono pts hne (by linarith)
  · exact cellClampX_mono pts hne (by linarith)
  · exact cellClampY_mono pts hne (by linarith)
  · exact cellClampY_mono pts hne (by linarith)

/-! ## Async selection count (C6, `WebGLRendererBase.countSelection`)

The source walks the cell rectangle of the eps-expanded selection bounds —
the same clamped-range computation as `forEachInAABB` — prefilters each
visited point by the tight bounds, and runs `pointInPolygon`; that per-point
test is exactly the geometry selection's membership callback
(`geometryHas`).  The cooperative yield / cancellation / progress plumbing
does not change the count when no cancellation occurs and is not modelled. -/

def countSelection (pts : List (ℝ × ℝ)) (sel : GeometrySelection) : ℕ :=
  if sel.coords.length < 3 then 0
  else (forEachVisited pts sel.xMin sel.yMin sel.xMax sel.yMax).countP
    (fun i => geometryHas sel (pts.getD i (0, 0)).1 (pts.getD i (0, 0)).2)

theorem geometryHas_bounds {sel : GeometrySelection} {px py : ℝ}
    (h : geometryHas sel px py = true) :
    sel.xMin ≤ px ∧ px ≤ sel.xMax ∧ sel.yMin ≤ py ∧ py ≤ sel.yMax := by
  unfold geometryHas at h
  by_cases hb : px < sel.xMin ∨ px > sel.xMax ∨ py < sel.yMin ∨ py > sel.yMax
  · rw [if_pos hb] at h
    exact absurd h (by simp)
  · push_neg at hb
    exact ⟨hb.1, hb.2.1, hb.2.2.1, hb.2.2.2⟩

/-- C6: for every geometry-variant selection with at least 3 polygon
vertices, `countSelection` (no cancellation) returns exactly the number of
dataset points whose `has(i)` is true: the grid assigns each point to exactly
one cell, the traversed rectangle covers every point inside the selection
bounds, and no point is counted twice. -/
theorem countSelection_exact (pts : List (ℝ × ℝ)) (hne : pts ≠ [])
    (sel : GeometrySelection) (hlen : 3 ≤ sel.coords.length) :
    countSelection pts sel =
      ((List.range pts.length).filter (fun i => geometryHasIndex pts sel i)).length := by
  unfold countSelection
  rw [if_neg (by omega)]
  rw [List.countP_eq_length_filter]
  have hnodup1 : ((forEachVisited pts sel.xMin sel.yMin sel.xMax sel.yMax).filter
      (fun i => geometryHas sel (pts.getD i (0, 0)).1 (pts.getD i (0, 0)).2)).Nodup :=
    (forEachVisited_nodup pts _ _ _ _).filter _
  have hnodup2 : ((List.range pts.length).filter
      (fun i => geometryHasIndex pts sel i)).Nodup :=
    (List.nodup_range _).filter _
  have hmem : ∀ i : ℕ,
      (i ∈ (forEachVisited pts sel.xMin sel.yMin sel.xMax sel.yMax).filter
        (fun i => geometryHas sel (pts.getD i (0, 0)).1 (pts.getD i (0, 0)).2)) ↔
      (i ∈ (List.range pts.length).filter (fun i => geometryHasIndex pts sel i)) := by
    intro i
    rw [List.mem_filter, List.mem_filter, List.mem_range]
    unfold geometryHasIndex
    constructor
    · rintro ⟨hv, hp⟩
      exact ⟨((mem_forEachVisited pts _ _ _ _ i).1 hv).1, hp⟩
    · rintro ⟨hi, hp⟩
      refine ⟨?_, hp⟩
      obtain ⟨h1, h2, h3, h4⟩ := geometryHas_bounds hp
      exact forEachVisited_coverage pts hne _ _ _ _ i hi h1 h2 h3 h4
  rw [← List.toFinset_card_of_nodup hnodup1, ← List.toFinset_card_of_nodup hnodup2]
  congr 1
  apply Finset.ext
  intro i
  rw [List.mem_toFinset, List.mem_toFinset]
  exact hmem i

/-- Concrete instance of `countSelection_exact`: one data point against the
canonical data triangle. -/
theorem countSelection_exact_witness :
    ([((1 / 4 : ℝ), (1 / 4 : ℝ))] ≠ ([] : List (ℝ × ℝ)) ∧
      3 ≤ (hyperbolicLassoSelect ⟨0, 0, 1⟩ 1200 800
        [((600 : ℝ), (400 : ℝ)), (600, 220), (780, 400)] 0).coords.length) ∧
    countSelection [((1 / 4 : ℝ), (1 / 4 : ℝ))]
        (hyperbolicLassoSelect ⟨0, 0, 1⟩ 1200 800
          [((600 : ℝ), (400 : ℝ)), (600, 220), (780, 400)] 0) =
      ((List.range 1).filter (fun i => geometryHasIndex [((1 / 4 : ℝ), (1 / 4 : ℝ))]
        (hyperbolicLassoSelect ⟨0, 0, 1⟩ 1200 800
          [((600 : ℝ), (400 : ℝ)), (600, 220), (780, 400)] 0) i)).length := by
  have hlen : 3 ≤ (hyperbolicLassoSelect ⟨0, 0, 1⟩ 1200 800
      [((600 : ℝ), (400 : ℝ)), (600, 220), (780, 400)] 0).coords.length := by
    show 3 ≤ (([((600 : ℝ), (400 : ℝ)), (600, 220), (780, 400)] : List (ℝ × ℝ)).map
      (fun s => unprojectPoincare s.1 s.2 ⟨0, 0, 1⟩ 1200 800)).length
    rw [List.length_map]
    simp
  exact ⟨⟨by simp, hlen⟩,
    countSelection_exact [((1 / 4 : ℝ), (1 / 4 : ℝ))] (by simp) _ hlen⟩

/-! ## Hit testing (C1)

`HyperbolicReference.hitTest` brute-forces all points: it projects each
point, skips those outside the displayed disk, and keeps the strictly
closest projection within `pointRadius + 5` pixels of the cursor.
`HyperbolicWebGLCandidate.hitTest` first rejects cursors farther than
`diskRadius + pointRadius + 5` from the canvas center, unprojects the
cursor to data space, derives a conservative data-space query radius from
five fixed-point iterations of the Möbius derivative bound, and then walks
the spatial index over the query square, keeping the closest projection
with an explicit `distSq < best || (distSq == best && i < bestIndex)`
tie-break.  The candidate's inlined per-point math (`numX/numY/denomX/...`,
the two clamp branches, and the `centerX + wx * diskRadius` screen map) is
literally `mobiusTransform` followed by the screen map, i.e.
`projectPoincare`, which is reused here. -/

/-- `conservativeDataRadiusForScreenRadius`: `K = screenRadiusPx /
(diskRadius * C)` with `C = max(1e-12, 1 - |a|²)`, `D0 = |1 - conj(a) z0|`,
five fixed-point iterations of `r ← K * (D0 + |a| * r)²` starting from
`r = K * D0²`, a `1.001` slack factor, and a final clamp to `[0, 1.999]`.
The `Number.isFinite` guards on `D0` and `r` are identically true in real
arithmetic and drop out. -/
def conservativeDataRadius (ax ay zx zy screenRadiusPx dR : ℝ) : ℝ :=
  let a2 := ax * ax + ay * ay
  let aMag := Real.sqrt a2
  let C := max 1e-12 (1 - a2)
  if ¬ 1e-9 < dR ∨ ¬ 0 < screenRadiusPx then 0
  else
    let denomX0 := 1 - (ax * zx + ay * zy)
    let denomY0 := -(ax * zy - ay * zx)
    let D0 := Real.sqrt (denomX0 * denomX0 + denomY0 * denomY0)
    if D0 < 1e-12 then 2
    else
      let K := screenRadiusPx / (dR * C)
      let r0 := K * D0 * D0
      let r1 := K * (D0 + aMag * r0) * (D0 + aMag * r0)
      let r2 := K * (D0 + aMag * r1) * (D0 + aMag * r1)
      let r3 := K * (D0 + aMag * r2) * (D0 + aMag * r2)
      let r4 := K * (D0 + aMag * r3) * (D0 + aMag * r3)
      let r5 := K * (D0 + aMag * r4) * (D0 + aMag * r4)
      min 1.999 (max 0 (r5 * 1.001))

/-- Squared screen distance from the cursor `(sx, sy)` to the projection of
point `i`. -/
def hitScreenDistSq (pts : List (ℝ × ℝ)) (view : HyperbolicViewState)
    (width height sx sy : ℝ) (i : ℕ) : ℝ :=
  let screen := projectPoincare (pts.getD i (0, 0)).1 (pts.getD i (0, 0)).2
    view width height
  (screen.1 - sx) * (screen.1 - sx) + (screen.2 - sy) * (screen.2 - sy)

/-- Point `i` qualifies for the hit test: its projection lies inside the
displayed disk (the render culling both loops reproduce) and its squared
screen distance to the cursor is within `(pointRadius + 5)²`. -/
def hitEligible (pts : List (ℝ × ℝ)) (view : HyperbolicViewState)
    (width height sx sy pointRadius : ℝ) (i : ℕ) : Prop :=
  let screen := projectPoincare (pts.getD i (0, 0)).1 (pts.getD i (0, 0)).2
    view width height
  let dR := diskRadius view width height
  (screen.1 - width / 2) * (screen.1 - width / 2) +
      (screen.2 - height / 2) * (screen.2 - height / 2) ≤ dR * dR ∧
    hitScreenDistSq pts view width height sx sy i ≤
      (pointRadius + 5) * (pointRadius + 5)

/-- One iteration of the reference hit-test loop.  `none` is the initial
`bestIndex = -1, bestDistSq = Infinity` state; the acceptance test
`distSq < bestDistSq && distSq <= maxDistSq` is vacuously strict against
infinity in the `none` state. -/
def refHitStep (pts : List (ℝ × ℝ)) (view : HyperbolicViewState)
    (width height sx sy maxDistSq : ℝ) (st : Option (ℕ × ℝ)) (i : ℕ) :
    Option (ℕ × ℝ) :=
  let p := pts.getD i (0, 0)
  let screen := projectPoincare p.1 p.2 view width height
  let dR := diskRadius view width height
  let dxDisk := screen.1 - width / 2
  let dyDisk := screen.2 - height / 2
  if dR * dR < dxDisk * dxDisk + dyDisk * dyDisk then st
  else
    let dx := screen.1 - sx
    let dy := screen.2 - sy
    let distSq := dx * dx + dy * dy
    match st with
    | none => if distSq ≤ maxDistSq then some (i, distSq) else none
    | some (bi, bd) =>
      if distSq < bd ∧ distSq ≤ maxDistSq then some (i, distSq)
      else some (bi, bd)

/-- `HyperbolicReference.hitTest`: brute force over all indices in
ascending order; returns the best index (the `HitResult` packaging around
it is not modelled). -/
def hyperbolicReferenceHitTest (pts : List (ℝ × ℝ))
    (view : HyperbolicViewState) (width height sx sy pointRadius : ℝ) :
    Option ℕ :=
  ((List.range pts.length).foldl
    (refHitStep pts view width height sx sy
      ((pointRadius + 5) * (pointRadius + 5))) none).map Prod.fst

/-- One callback invocation of the candidate hit test (the body passed to
`forEachInAABB`): identical projection and disk culling, acceptance
`distSq <= maxDistSq` with the explicit lowest-index tie-break. -/
def candHitStep (pts : List (ℝ × ℝ)) (view : HyperbolicViewState)
    (width height sx sy maxDistSq : ℝ) (st : Option (ℕ × ℝ)) (i : ℕ) :
    Option (ℕ × ℝ) :=
  let p := pts.getD i (0, 0)
  let screen := projectPoincare p.1 p.2 view width height
  let dR := diskRadius view width height
  let dxDisk := screen.1 - width / 2
  let dyDisk := screen.2 - height / 2
  if dR * dR < dxDisk * dxDisk + dyDisk * dyDisk then st
  else
    let dx := screen.1 - sx
    let dy := screen.2 - sy
    let distSq := dx * dx + dy * dy
    if distSq ≤ maxDistSq then
      match st with
      | none => some (i, distSq)
      | some (bi, bd) =>
        if distSq < bd ∨ (distSq = bd ∧ i < bi) then some (i, distSq)
        else some (bi, bd)
    else st

/-- The id sequence the candidate hit test hands to its callback: the
spatial index queried over the square of the conservative radius around the
unprojected cursor. -/
def candidateQueryList (pts : List (ℝ × ℝ)) (view : HyperbolicViewState)
    (width height sx sy pointRadius : ℝ) : List ℕ :=
  let dataPt := unprojectPoincare sx sy view width height
  let queryRadius := conservativeDataRadius view.ax view.ay dataPt.1 dataPt.2
    (pointRadius + 5) (diskRadius view width height)
  forEachVisited pts (dataPt.1 - queryRadius) (dataPt.2 - queryRadius)
    (dataPt.1 + queryRadius) (dataPt.2 + queryRadius)

/-- `HyperbolicWebGLCandidate.hitTest`: the far-cursor fast path, then the
grid walk with the candidate acceptance logic. -/
def hyperbolicCandidateHitTest (pts : List (ℝ × ℝ))
    (view : HyperbolicViewState) (width height sx sy pointRadius : ℝ) :
    Option ℕ :=
  let dR := diskRadius view width height
  let maxDistPx := pointRadius + 5
  let maxDistSq := maxDistPx * maxDistPx
  let dxCur := sx - width / 2
  let dyCur := sy - height / 2
  let maxCursorR := dR + maxDistPx
  if maxCursorR * maxCursorR < dxCur * dxCur + dyCur * dyCur then none
  else
    ((candidateQueryList pts view width height sx sy pointRadius).foldl
      (candHitStep pts view width height sx sy maxDistSq) none).map Prod.fst

/-- Abstract form of the reference loop body: accept a qualifying index
whose key is strictly below the incumbent's. -/
def selStepStrict (q : ℕ → Prop) (f : ℕ → ℝ) (st : Option (ℕ × ℝ)) (i : ℕ) :
    Option (ℕ × ℝ) :=
  match st with
  | none => if q i then some (i, f i) else none
  | some (bi, bd) =>
    if q i ∧ f i < bd then some (i, f i) else some (bi, bd)

/-- Abstract form of the candidate loop body: accept a qualifying index on
a strictly smaller key or on an equal key with a smaller index. -/
def selStepTie (q : ℕ → Prop) (f : ℕ → ℝ) (st : Option (ℕ × ℝ)) (i : ℕ) :
    Option (ℕ × ℝ) :=
  match st with
  | none => if q i then some (i, f i) else none
  | some (bi, bd) =>
    if q i ∧ (f i < bd ∨ (f i = bd ∧ i < bi)) then some (i, f i)
    else some (bi, bd)

/-- `r` is the state a correct selection pass over `L` ends in: `none` iff
no traversed index qualifies, otherwise the qualifying index of `L` with
the lexicographically least `(key, index)` pair. -/
def IsHitMin (q : ℕ → Prop) (f : ℕ → ℝ) (L : List ℕ) (r : Option (ℕ × ℝ)) :
    Prop :=
  match r with
  | none => ∀ i ∈ L, ¬ q i
  | some (bi, bd) => bi ∈ L ∧ q bi ∧ bd = f bi ∧
      ∀ j ∈ L, q j → f bi < f j ∨ (f bi = f j ∧ bi ≤ j)

theorem selStepStrict_min (q : ℕ → Prop) (f : ℕ → ℝ) (L : List ℕ) (a : ℕ)
    (ha : ∀ b ∈ L, b < a) (st : Option (ℕ × ℝ)) (hst : IsHitMin q f L st) :
    IsHitMin q f (L ++ [a]) (selStepStrict q f st a) := by
  cases st with
  | none =>
    simp only [selStepStrict]
    by_cases hq : q a
    · rw [if_pos hq]
      refine ⟨by simp, hq, rfl, ?_⟩
      intro j hj hqj
      rcases List.mem_append.1 hj with hj | hj
      · exact absurd hqj (hst j hj)
      · right
        rw [List.mem_singleton.1 hj]
        exact ⟨rfl, le_refl a⟩
    · rw [if_neg hq]
      intro i hi
      rcases List.mem_append.1 hi with hi | hi
      · exact hst i hi
      · rw [List.mem_singleton.1 hi]
        exact hq
  | some b =>
    obtain ⟨bi, bd⟩ := b
    simp only [selStepStrict]
    obtain ⟨hbiL, hqbi, hbd, hbest⟩ := hst
    by_cases hc : q a ∧ f a < bd
    · rw [if_pos hc]
      refine ⟨by simp, hc.1, rfl, ?_⟩
      intro j hj hqj
      rcases List.mem_append.1 hj with hj | hj
      · rcases hbest j hj hqj with h | h
        · left
          rw [hbd] at hc
          linarith [hc.2, h]
        · left
          rw [hbd] at hc
          linarith [hc.2, h.1]
      · right
        rw [List.mem_singleton.1 hj]
        exact ⟨rfl, le_refl a⟩
    · rw [if_neg hc]
      refine ⟨List.mem_append_left _ hbiL, hqbi, hbd, ?_⟩
      intro j hj hqj
      rcases List.mem_append.1 hj with hj | hj
      · exact hbest j hj hqj
      · rw [List.mem_singleton.1 hj]
        rw [List.mem_singleton.1 hj] at hqj
        have hnlt : ¬ f a < bd := fun hlt => hc ⟨hqj, hlt⟩
        rw [hbd] at hnlt
        rcases lt_or_eq_of_le (not_lt.1 hnlt) with h | h
        · exact Or.inl h
        · exact Or.inr ⟨h, le_of_lt (ha bi hbiL)⟩

theorem selStepTie_min (q : ℕ → Prop) (f : ℕ → ℝ) (L : List ℕ) (a : ℕ)
    (st : Option (ℕ × ℝ)) (hst : IsHitMin q f L st) :
    IsHitMin q f (L ++ [a]) (selStepTie q f st a) := by
  cases st with
  | none =>
    simp only [selStepTie]
    by_cases hq : q a
    · rw [if_pos hq]
      refine ⟨by simp, hq, rfl, ?_⟩
      intro j hj hqj
      rcases List.mem_append.1 hj with hj | hj
      · exact absurd hqj (hst j hj)
      · right
        rw [List.mem_singleton.1 hj]
        exact ⟨rfl, le_refl a⟩
    · rw [if_neg hq]
      intro i hi
      rcases List.mem_append.1 hi with hi | hi
      · exact hst i hi
      · rw [List.mem_singleton.1 hi]
        exact hq
  | some b =>
    obtain ⟨bi, bd⟩ := b
    simp only [selStepTie]
    obtain ⟨hbiL, hqbi, hbd, hbest⟩ := hst
    by_cases hc : q a ∧ (f a < bd ∨ (f a = bd ∧ a < bi))
    · rw [if_pos hc]
      refine ⟨by simp, hc.1, rfl, ?_⟩
      intro j hj hqj
      rcases List.mem_append.1 hj with hj | hj
      · rw [hbd] at hc
        rcases hc.2 with hlt | ⟨heq, hia⟩
        · rcases hbest j hj hqj with h | h
          · exact Or.inl (lt_trans hlt h)
          · exact Or.inl (lt_of_lt_of_le hlt (le_of_eq h.1))
        · rcases hbest j hj hqj with h | h
          · exact Or.inl (lt_of_le_of_lt (le_of_eq heq) h)
          · exact Or.inr ⟨heq.trans h.1, le_of_lt (lt_of_lt_of_le hia h.2)⟩
      · right
        rw [List.mem_singleton.1 hj]
        exact ⟨rfl, le_refl a⟩
    · rw [if_neg hc]
      refine ⟨List.mem_append_left _ hbiL, hqbi, hbd, ?_⟩
      intro j hj hqj
      rcases List.mem_append.1 hj with hj | hj
      · exact hbest j hj hqj
      · rw [List.mem_singleton.1 hj]
        rw [List.mem_singleton.1 hj] at hqj
        have hna : ¬ (f a < bd ∨ (f a = bd ∧ a < bi)) := fun h => hc ⟨hqj, h⟩
        push_neg at hna
        rw [hbd] at hna
        rcases lt_or_eq_of_le hna.1 with h | h
        · exact Or.inl h
        · exact Or.inr ⟨h, hna.2 h.symm⟩

/-- Folding the strict-acceptance step over a strictly increasing index
list from the empty state lands in the correct selection state. -/
theorem foldl_selStepStrict_min (q : ℕ → Prop) (f : ℕ → ℝ) (L : List ℕ)
    (hL : L.Pairwise (· < ·)) :
    IsHitMin q f L (L.foldl (selStepStrict q f) none) := by
  induction L using List.reverseRecOn with
  | nil =>
    intro i hi
    exact absurd hi (List.not_mem_nil i)
  | append_singleton L a ih =>
    rw [List.foldl_append]
    obtain ⟨h1, _, h3⟩ := List.pairwise_append.1 hL
    exact selStepStrict_min q f L a
      (fun b hb => h3 b hb a (List.mem_singleton_self a)) _ (ih h1)

/-- Folding the tie-breaking step over an arbitrary index list from the
empty state lands in the correct selection state. -/
theorem foldl_selStepTie_min (q : ℕ → Prop) (f : ℕ → ℝ) (L : List ℕ) :
    IsHitMin q f L (L.foldl (selStepTie q f) none) := by
  induction L using List.reverseRecOn with
  | nil =>
    intro i hi
    exact absurd hi (List.not_mem_nil i)
  | append_singleton L a ih =>
    rw [List.foldl_append]
    exact selStepTie_min q f L a _ ih

/-- Two correct selection states over lists with the same qualifying
members are equal. -/
theorem IsHitMin_unique (q : ℕ → Prop) (f : ℕ → ℝ) (L1 L2 : List ℕ)
    (h12 : ∀ i, i ∈ L1 ∧ q i ↔ i ∈ L2 ∧ q i) (r1 r2 : Option (ℕ × ℝ))
    (h1 : IsHitMin q f L1 r1) (h2 : IsHitMin q f L2 r2) : r1 = r2 := by
  cases r1 with
  | none =>
    cases r2 with
    | none => rfl
    | some b =>
      obtain ⟨bi, bd⟩ := b
      obtain ⟨hbiL, hqbi, _, _⟩ := h2
      exact absurd hqbi (h1 bi ((h12 bi).2 ⟨hbiL, hqbi⟩).1)
  | some b =>
    obtain ⟨bi, bd⟩ := b
    cases r2 with
    | none =>
      obtain ⟨hbiL, hqbi, _, _⟩ := h1
      exact absurd hqbi (h2 bi ((h12 bi).1 ⟨hbiL, hqbi⟩).1)
    | some b' =>
      obtain ⟨bi', bd'⟩ := b'
      obtain ⟨hbiL, hqbi, hbd, hbest⟩ := h1
      obtain ⟨hbiL', hqbi', hbd', hbest'⟩ := h2
      have hm : bi ∈ L2 := ((h12 bi).1 ⟨hbiL, hqbi⟩).1
      have hm' : bi' ∈ L1 := ((h12 bi').2 ⟨hbiL', hqbi'⟩).1
      have c1 := hbest bi' hm' hqbi'
      have c2 := hbest' bi hm hqbi
      have hfeq : f bi = f bi' := by
        rcases c1 with h | h
        · rcases c2 with h' | h'
          · linarith
          · linarith [h'.1]
        · exact h.1
      have hieq : bi = bi' := by
        rcases c1 with h | h
        · rw [hfeq] at h
          exact absurd h (lt_irrefl _)
        · rcases c2 with h' | h'
          · rw [hfeq] at h'
            exact absurd h' (lt_irrefl _)
          · exact le_antisymm h.2 h'.2
      rw [hieq, hbd, hbd', hfeq]

/-- The reference loop body is the strict-acceptance step for the
hit-eligibility predicate and squared-screen-distance key. -/
theorem refHitStep_eq_selStepStrict (pts : List (ℝ × ℝ))
    (view : HyperbolicViewState) (width height sx sy pr : ℝ)
    (st : Option (ℕ × ℝ)) (i : ℕ) :
    refHitStep pts view width height sx sy ((pr + 5) * (pr + 5)) st i =
      selStepStrict (hitEligible pts view width height sx sy pr)
        (hitScreenDistSq pts view width height sx sy) st i := by
  unfold refHitStep
  simp only
  set s := projectPoincare (pts.getD i (0, 0)).1 (pts.getD i (0, 0)).2
    view width height with hs
  set dR := diskRadius view width height with hdR
  have hE : hitEligible pts view width height sx sy pr i ↔
      ((s.1 - width / 2) * (s.1 - width / 2) +
        (s.2 - height / 2) * (s.2 - height / 2) ≤ dR * dR ∧
       (s.1 - sx) * (s.1 - sx) + (s.2 - sy) * (s.2 - sy) ≤
        (pr + 5) * (pr + 5)) := by
    unfold hitEligible hitScreenDistSq
    rw [← hs, ← hdR]
  have hF : hitScreenDistSq pts view width height sx sy i =
      (s.1 - sx) * (s.1 - sx) + (s.2 - sy) * (s.2 - sy) := by
    unfold hitScreenDistSq
    rw [← hs]
  by_cases h1 : dR * dR < (s.1 - width / 2) * (s.1 - width / 2) +
      (s.2 - height / 2) * (s.2 - height / 2)
  · rw [if_pos h1]
    have hne : ¬ hitEligible pts view width height sx sy pr i :=
      fun h => absurd (hE.1 h).1 (not_le.2 h1)
    cases st with
    | none => simp only [selStepStrict]; rw [if_neg hne]
    | some b =>
      obtain ⟨bi, bd⟩ := b
      simp only [selStepStrict]
      rw [if_neg (fun hc => hne hc.1)]
  · rw [if_neg h1]
    cases st with
    | none =>
      simp only [selStepStrict]
      by_cases h2 : (s.1 - sx) * (s.1 - sx) + (s.2 - sy) * (s.2 - sy) ≤
          (pr + 5) * (pr + 5)
      · rw [if_pos h2, if_pos (hE.2 ⟨not_lt.1 h1, h2⟩), hF]
      · rw [if_neg h2, if_neg (fun h => absurd (hE.1 h).2 h2)]
    | some b =>
      obtain ⟨bi, bd⟩ := b
      simp only [selStepStrict]
      by_cases h2 : (s.1 - sx) * (s.1 - sx) + (s.2 - sy) * (s.2 - sy) ≤
          (pr + 5) * (pr + 5)
      · by_cases h3 : (s.1 - sx) * (s.1 - sx) + (s.2 - sy) * (s.2 - sy) < bd
        · rw [if_pos ⟨h3, h2⟩,
            if_pos ⟨hE.2 ⟨not_lt.1 h1, h2⟩, by rw [hF]; exact h3⟩, hF]
        · rw [if_neg (fun hc => h3 hc.1),
            if_neg (fun hc => h3 (by rw [← hF]; exact hc.2))]
      · rw [if_neg (fun hc => h2 hc.2),
          if_neg (fun hc => absurd (hE.1 hc.1).2 h2)]

/-- The candidate callback body is the tie-breaking step for the same
predicate and key. -/
theorem candHitStep_eq_selStepTie (pts : List (ℝ × ℝ))
    (view : HyperbolicViewState) (width height sx sy pr : ℝ)
    (st : Option (ℕ × ℝ)) (i : ℕ) :
    candHitStep pts view width height sx sy ((pr + 5) * (pr + 5)) st i =
      selStepTie (hitEligible pts view width height sx sy pr)
        (hitScreenDistSq pts view width height sx sy) st i := by
  unfold candHitStep
  simp only
  set s := projectPoincare (pts.getD i (0, 0)).1 (pts.getD i (0, 0)).2
    view width height with hs
  set dR := diskRadius view width height with hdR
  have hE : hitEligible pts view width height sx sy pr i ↔
      ((s.1 - width / 2) * (s.1 - width / 2) +
        (s.2 - height / 2) * (s.2 - height / 2) ≤ dR * dR ∧
       (s.1 - sx) * (s.1 - sx) + (s.2 - sy) * (s.2 - sy) ≤
        (pr + 5) * (pr + 5)) := by
    unfold hitEligible hitScreenDistSq
    rw [← hs, ← hdR]
  have hF : hitScreenDistSq pts view width height sx sy i =
      (s.1 - sx) * (s.1 - sx) + (s.2 - sy) * (s.2 - sy) := by
    unfold hitScreenDistSq
    rw [← hs]
  by_cases h1 : dR * dR < (s.1 - width / 2) * (s.1 - width / 2) +
      (s.2 - height / 2) * (s.2 - height / 2)
  · rw [if_pos h1]
    have hne : ¬ hitEligible pts view width height sx sy pr i :=
      fun h => absurd (hE.1 h).1 (not_le.2 h1)
    cases st with
    | none => simp only [selStepTie]; rw [if_neg hne]
    | some b =>
      obtain ⟨bi, bd⟩ := b
      simp only [selStepTie]
      rw [if_neg (fun hc => hne hc.1)]
  · rw [if_neg h1]
    cases st with
    | none =>
      simp only [selStepTie]
      by_cases h2 : (s.1 - sx) * (s.1 - sx) + (s.2 - sy) * (s.2 - sy) ≤
          (pr + 5) * (pr + 5)
      · rw [if_pos h2, if_pos (hE.2 ⟨not_lt.1 h1, h2⟩), hF]
      · rw [if_neg h2, if_neg (fun h => absurd (hE.1 h).2 h2)]
    | some b =>
      obtain ⟨bi, bd⟩ := b
      simp only [selStepTie]
      by_cases h2 : (s.1 - sx) * (s.1 - sx) + (s.2 - sy) * (s.2 - sy) ≤
          (pr + 5) * (pr + 5)
      · rw [if_pos h2]
        by_cases h3 : (s.1 - sx) * (s.1 - sx) + (s.2 - sy) * (s.2 - sy) < bd ∨
            ((s.1 - sx) * (s.1 - sx) + (s.2 - sy) * (s.2 - sy) = bd ∧ i < bi)
        · have hcond : hitEligible pts view width height sx sy pr i ∧
              (hitScreenDistSq pts view width height sx sy i < bd ∨
                (hitScreenDistSq pts view width height sx sy i = bd ∧
                  i < bi)) := by
            refine ⟨hE.2 ⟨not_lt.1 h1, h2⟩, ?_⟩
            rw [hF]
            exact h3
          rw [if_pos h3, if_pos hcond, hF]
        · have hcond : ¬ (hitEligible pts view width height sx sy pr i ∧
              (hitScreenDistSq pts view width height sx sy i < bd ∨
                (hitScreenDistSq pts view width height sx sy i = bd ∧
                  i < bi))) := by
            intro hc
            apply h3
            rw [← hF]
            exact hc.2
          rw [if_neg h3, if_neg hcond]
      · rw [if_neg h2,
          if_neg (fun hc => absurd (hE.1 hc.1).2 h2)]

set_option maxHeartbeats 1000000 in
/-- Plane geometry behind the candidate's far-cursor fast path: a point
within radius `R` of the center is farther than `m` from any cursor whose
squared center distance exceeds `(R + m)²`. -/
theorem far_point_far (u1 u2 v1 v2 R m : ℝ) (hR : 0 ≤ R) (hm : 0 ≤ m)
    (hu : u1 * u1 + u2 * u2 ≤ R * R)
    (hv : (R + m) * (R + m) < v1 * v1 + v2 * v2) :
    m * m < (u1 - v1) * (u1 - v1) + (u2 - v2) * (u2 - v2) := by
  by_contra hcon
  push_neg at hcon
  have hs0 : 0 ≤ u1 * u1 + u2 * u2 :=
    add_nonneg (mul_self_nonneg _) (mul_self_nonneg _)
  have hcs : (u1 * v1 + u2 * v2) * (u1 * v1 + u2 * v2) ≤
      (u1 * u1 + u2 * u2) * (v1 * v1 + v2 * v2) := by
    nlinarith [sq_nonneg (u1 * v2 - u2 * v1)]
  have hcon' : (u1 * u1 + u2 * u2) - 2 * (u1 * v1 + u2 * v2) +
      (v1 * v1 + v2 * v2) ≤ m * m := by nlinarith [hcon]
  have hA : 0 ≤ (u1 * u1 + u2 * u2) + (v1 * v1 + v2 * v2) - m * m := by
    nlinarith [hv, mul_nonneg hR hm, mul_self_nonneg R, hs0]
  have h2p : (u1 * u1 + u2 * u2) + (v1 * v1 + v2 * v2) - m * m ≤
      2 * (u1 * v1 + u2 * v2) := by linarith [hcon']
  have hsq : ((u1 * u1 + u2 * u2) + (v1 * v1 + v2 * v2) - m * m) *
      ((u1 * u1 + u2 * u2) + (v1 * v1 + v2 * v2) - m * m) ≤
      4 * ((u1 * u1 + u2 * u2) * (v1 * v1 + v2 * v2)) := by
    nlinarith [mul_self_le_mul_self hA h2p, hcs]
  have hkey : ((v1 * v1 + v2 * v2) - (u1 * u1 + u2 * u2) - m * m) *
      ((v1 * v1 + v2 * v2) - (u1 * u1 + u2 * u2) - m * m) ≤
      4 * (m * m) * (u1 * u1 + u2 * u2) := by nlinarith [hsq]
  have hmR : 0 ≤ 2 * m * R := by positivity
  have hR2 : 4 * (m * m) * (u1 * u1 + u2 * u2) ≤ 4 * (m * m) * (R * R) := by
    nlinarith [hu, mul_self_nonneg m]
  have hfin : (v1 * v1 + v2 * v2) - (u1 * u1 + u2 * u2) - m * m ≤
      2 * m * R := by
    nlinarith [hkey, hR2, hmR]
  nlinarith [hfin, hu, hv]

/-- Fast-path soundness: when the cursor is farther than
`diskRadius + pointRadius + 5` from the canvas center, no point is
hit-eligible. -/
theorem hitEligible_far (pts : List (ℝ × ℝ)) (view : HyperbolicViewState)
    (width height sx sy pr : ℝ) (hpr : 0 ≤ pr)
    (hdr : 0 ≤ diskRadius view width height)
    (hfar : (diskRadius view width height + (pr + 5)) *
        (diskRadius view width height + (pr + 5)) <
      (sx - width / 2) * (sx - width / 2) +
        (sy - height / 2) * (sy - height / 2)) :
    ∀ i, ¬ hitEligible pts view width height sx sy pr i := by
  intro i hel
  unfold hitEligible hitScreenDistSq at hel
  obtain ⟨h1, h2⟩ := hel
  set s := projectPoincare (pts.getD i (0, 0)).1 (pts.getD i (0, 0)).2
    view width height with hs
  have h2' : (s.1 - sx) * (s.1 - sx) + (s.2 - sy) * (s.2 - sy) ≤
      (pr + 5) * (pr + 5) := h2
  have hkey := far_point_far (s.1 - width / 2) (s.2 - height / 2)
    (sx - width / 2) (sy - height / 2) (diskRadius view width height)
    (pr + 5) hdr (by linarith) h1 hfar
  nlinarith [hkey, h2']

/-- C1 (amended): the reference `hitTest` returns exactly the
lowest-index minimizer of the squared screen distance among the
hit-eligible points (projection inside the displayed disk, distance within
`pointRadius + 5`), and `null` exactly when no point is eligible; and the
grid-accelerated candidate `hitTest` returns the same index as the
reference PROVIDED the conservative spatial-index query covers every
hit-eligible index.  The coverage hypothesis is not a theorem: the
conservative radius can measure the Möbius stretch at the cursor and still
miss the grid row of an eligible point
(`hitTest_grid_counterexample`). -/
theorem hitTest_argmin_grid_equivalence
    (pts : List (ℝ × ℝ)) (view : HyperbolicViewState)
    (width height sx sy pr : ℝ) (hpr : 0 ≤ pr)
    (hdr : 0 ≤ diskRadius view width height)
    (hcov : ∀ i, i < pts.length →
      hitEligible pts view width height sx sy pr i →
      i ∈ candidateQueryList pts view width height sx sy pr) :
    (∀ i : ℕ,
      hyperbolicReferenceHitTest pts view width height sx sy pr = some i ↔
        i < pts.length ∧ hitEligible pts view width height sx sy pr i ∧
          ∀ j, j < pts.length →
            hitEligible pts view width height sx sy pr j →
            hitScreenDistSq pts view width height sx sy i <
                hitScreenDistSq pts view width height sx sy j ∨
              (hitScreenDistSq pts view width height sx sy i =
                  hitScreenDistSq pts view width height sx sy j ∧ i ≤ j)) ∧
    (hyperbolicReferenceHitTest pts view width height sx sy pr = none ↔
      ∀ i, i < pts.length →
        ¬ hitEligible pts view width height sx sy pr i) ∧
    hyperbolicCandidateHitTest pts view width height sx sy pr =
      hyperbolicReferenceHitTest pts view width height sx sy pr := by
  set q := hitEligible pts view width height sx sy pr with hq
  set f := hitScreenDistSq pts view width height sx sy with hf
  have hfun : refHitStep pts view width height sx sy
      ((pr + 5) * (pr + 5)) = selStepStrict q f :=
    funext fun st => funext fun i =>
      refHitStep_eq_selStepStrict pts view width height sx sy pr st i
  have hminR : IsHitMin q f (List.range pts.length)
      ((List.range pts.length).foldl (selStepStrict q f) none) :=
    foldl_selStepStrict_min q f _ (List.pairwise_lt_range _)
  have hrefEq : hyperbolicReferenceHitTest pts view width height sx sy pr =
      ((List.range pts.length).foldl (selStepStrict q f) none).map
        Prod.fst := by
    unfold hyperbolicReferenceHitTest
    rw [hfun]
  have hA : ∀ i : ℕ,
      hyperbolicReferenceHitTest pts view width height sx sy pr = some i ↔
        i < pts.length ∧ q i ∧ ∀ j, j < pts.length → q j →
          f i < f j ∨ (f i = f j ∧ i ≤ j) := by
    intro i
    rw [hrefEq]
    rcases hres : (List.range pts.length).foldl (selStepStrict q f) none
      with _ | ⟨bi, bd⟩
    · rw [hres] at hminR
      simp only [Option.map_none']
      constructor
      · intro h
        exact absurd h (by simp)
      · rintro ⟨hi, hqi, _⟩
        exact absurd hqi (hminR i (List.mem_range.2 hi))
    · rw [hres] at hminR
      obtain ⟨hbiL, hqbi, _, hbest⟩ := hminR
      simp only [Option.map_some']
      constructor
      · intro h
        have hbi : bi = i := Option.some.inj h
        subst hbi
        refine ⟨List.mem_range.1 hbiL, hqbi, ?_⟩
        intro j hj hqj
        exact hbest j (List.mem_range.2 hj) hqj
      · rintro ⟨hi, hqi, hbesti⟩
        have c1 := hbest i (List.mem_range.2 hi) hqi
        have c2 := hbesti bi (List.mem_range.1 hbiL) hqbi
        have hbii : bi = i := by
          rcases c1 with h | h
          · rcases c2 with h' | h'
            · have : False := by linarith
              exact this.elim
            · have : False := by linarith [h'.1]
              exact this.elim
          · rcases c2 with h' | h'
            · have : False := by linarith [h.1]
              exact this.elim
            · exact le_antisymm h.2 h'.2
        rw [hbii]
  have hB : hyperbolicReferenceHitTest pts view width height sx sy pr =
      none ↔ ∀ i, i < pts.length → ¬ q i := by
    rw [hrefEq]
    rcases hres : (List.range pts.length).foldl (selStepStrict q f) none
      with _ | ⟨bi, bd⟩
    · rw [hres] at hminR
      simp only [Option.map_none']
      exact ⟨fun _ i hi => hminR i (List.mem_range.2 hi), fun _ => trivial⟩
    · rw [hres] at hminR
      obtain ⟨hbiL, hqbi, _, _⟩ := hminR
      simp only [Option.map_some']
      constructor
      · intro h
        exact absurd h (by simp)
      · intro hall
        exact absurd hqbi (hall bi (List.mem_range.1 hbiL))
  refine ⟨hA, hB, ?_⟩
  unfold hyperbolicCandidateHitTest
  simp only
  by_cases hfar : (diskRadius view width height + (pr + 5)) *
      (diskRadius view width height + (pr + 5)) <
      (sx - width / 2) * (sx - width / 2) +
        (sy - height / 2) * (sy - height / 2)
  · rw [if_pos hfar]
    have hnone := hitEligible_far pts view width height sx sy pr hpr hdr hfar
    symm
    rw [hB]
    exact fun i _ => hnone i
  · rw [if_neg hfar]
    have hfunT : candHitStep pts view width height sx sy
        ((pr + 5) * (pr + 5)) = selStepTie q f :=
      funext fun st => funext fun i =>
        candHitStep_eq_selStepTie pts view width height sx sy pr st i
    rw [hfunT]
    have hminC := foldl_selStepTie_min q f
      (candidateQueryList pts view width height sx sy pr)
    have hsets : ∀ i,
        (i ∈ candidateQueryList pts view width height sx sy pr ∧ q i) ↔
        (i ∈ List.range pts.length ∧ q i) := by
      intro i
      constructor
      · rintro ⟨hi, hqi⟩
        refine ⟨List.mem_range.2 ?_, hqi⟩
        unfold candidateQueryList at hi
        exact ((mem_forEachVisited pts _ _ _ _ i).1 hi).1
      · rintro ⟨hi, hqi⟩
        exact ⟨hcov i (List.mem_range.1 hi) hqi, hqi⟩
    have heq := IsHitMin_unique q f
      (candidateQueryList pts view width height sx sy pr)
      (List.range pts.length) hsets _ _ hminC hminR
    rw [heq, ← hrefEq]

theorem conservativeDataRadius_nonneg (ax ay zx zy srp dR : ℝ) :
    0 ≤ conservativeDataRadius ax ay zx zy srp dR := by
  unfold conservativeDataRadius
  simp only
  split_ifs
  · exact le_refl 0
  · norm_num
  · exact le_min (by norm_num) (le_max_left 0 _)

theorem unproject_center_default :
    unprojectPoincare 600 400 ⟨0, 0, 1⟩ 1200 800 = ((0 : ℝ), (0 : ℝ)) := by
  rw [unprojectPoincare_inside _ _ _ _ _
    (by rw [diskRadius_default_canvas]; norm_num)]
  rw [diskRadius_default_canvas,
    show (⟨0, 0, 1⟩ : HyperbolicViewState).ax = 0 from rfl,
    show (⟨0, 0, 1⟩ : HyperbolicViewState).ay = 0 from rfl,
    show ((600 : ℝ) - 1200 / 2) / 360 = 0 by norm_num,
    show (-((400 : ℝ) - 800 / 2)) / 360 = 0 by norm_num]
  exact inverseMobius_zero_camera 0 0 (by norm_num)

/-- Concrete instance of `hitTest_argmin_grid_equivalence`: the identity
camera over a single data point at the origin, cursor at the canvas
center.  The coverage hypothesis holds because the origin lies inside its
own query square. -/
theorem hitTest_argmin_grid_equivalence_witness :
    ((0 : ℝ) ≤ 3 ∧ (0 : ℝ) ≤ diskRadius ⟨0, 0, 1⟩ 1200 800 ∧
      (∀ i, i < ([((0 : ℝ), (0 : ℝ))] : List (ℝ × ℝ)).length →
        hitEligible [((0 : ℝ), (0 : ℝ))] ⟨0, 0, 1⟩ 1200 800 600 400 3 i →
        i ∈ candidateQueryList [((0 : ℝ), (0 : ℝ))] ⟨0, 0, 1⟩
          1200 800 600 400 3)) ∧
    ((∀ i : ℕ,
      hyperbolicReferenceHitTest [((0 : ℝ), (0 : ℝ))] ⟨0, 0, 1⟩
          1200 800 600 400 3 = some i ↔
        i < ([((0 : ℝ), (0 : ℝ))] : List (ℝ × ℝ)).length ∧
          hitEligible [((0 : ℝ), (0 : ℝ))] ⟨0, 0, 1⟩ 1200 800 600 400 3 i ∧
          ∀ j, j < ([((0 : ℝ), (0 : ℝ))] : List (ℝ × ℝ)).length →
            hitEligible [((0 : ℝ), (0 : ℝ))] ⟨0, 0, 1⟩ 1200 800
              600 400 3 j →
            hitScreenDistSq [((0 : ℝ), (0 : ℝ))] ⟨0, 0, 1⟩ 1200 800
                600 400 i <
              hitScreenDistSq [((0 : ℝ), (0 : ℝ))] ⟨0, 0, 1⟩ 1200 800
                600 400 j ∨
              (hitScreenDistSq [((0 : ℝ), (0 : ℝ))] ⟨0, 0, 1⟩ 1200 800
                  600 400 i =
                hitScreenDistSq [((0 : ℝ), (0 : ℝ))] ⟨0, 0, 1⟩ 1200 800
                  600 400 j ∧ i ≤ j)) ∧
    (hyperbolicReferenceHitTest [((0 : ℝ), (0 : ℝ))] ⟨0, 0, 1⟩
        1200 800 600 400 3 = none ↔
      ∀ i, i < ([((0 : ℝ), (0 : ℝ))] : List (ℝ × ℝ)).length →
        ¬ hitEligible [((0 : ℝ), (0 : ℝ))] ⟨0, 0, 1⟩ 1200 800
          600 400 3 i) ∧
    hyperbolicCandidateHitTest [((0 : ℝ), (0 : ℝ))] ⟨0, 0, 1⟩
        1200 800 600 400 3 =
      hyperbolicReferenceHitTest [((0 : ℝ), (0 : ℝ))] ⟨0, 0, 1⟩
        1200 800 600 400 3) := by
  have h1 : (0 : ℝ) ≤ 3 := by norm_num
  have h2 : (0 : ℝ) ≤ diskRadius ⟨0, 0, 1⟩ 1200 800 := by
    rw [diskRadius_default_canvas]
    norm_num
  have h3 : ∀ i, i < ([((0 : ℝ), (0 : ℝ))] : List (ℝ × ℝ)).length →
      hitEligible [((0 : ℝ), (0 : ℝ))] ⟨0, 0, 1⟩ 1200 800 600 400 3 i →
      i ∈ candidateQueryList [((0 : ℝ), (0 : ℝ))] ⟨0, 0, 1⟩
        1200 800 600 400 3 := by
    intro i hi _
    have hi0 : i = 0 := by
      simp only [List.length_singleton] at hi
      omega
    subst hi0
    unfold candidateQueryList
    rw [unproject_center_default]
    simp only
    rw [diskRadius_default_canvas]
    have hQ : 0 ≤ conservativeDataRadius 0 0 0 0 (3 + 5) 360 :=
      conservativeDataRadius_nonneg 0 0 0 0 (3 + 5) 360
    refine forEachVisited_coverage _ (by simp) _ _ _ _ 0 (by simp)
      ?_ ?_ ?_ ?_ <;> simp <;> linarith
  exact ⟨⟨h1, h2, h3⟩,
    hitTest_argmin_grid_equivalence [((0 : ℝ), (0 : ℝ))] ⟨0, 0, 1⟩
      1200 800 600 400 3 h1 h2 h3⟩

/-! ### Concrete evaluation helpers for the hit-test counterexample -/

/-- Evaluation helper: `mobiusTransform` in its exact branch, with the two
quotient components supplied as closed values. -/
theorem mobius_eval (zx zy ax ay rx ry : ℝ)
    (hd : ¬ ((1 - (ax * zx + ay * zy)) * (1 - (ax * zx + ay * zy)) +
        (-(ax * zy - ay * zx)) * (-(ax * zy - ay * zx)) < 1e-12))
    (hrx : ((zx - ax) * (1 - (ax * zx + ay * zy)) +
        (zy - ay) * (-(ax * zy - ay * zx))) /
        ((1 - (ax * zx + ay * zy)) * (1 - (ax * zx + ay * zy)) +
         (-(ax * zy - ay * zx)) * (-(ax * zy - ay * zx))) = rx)
    (hry : ((zy - ay) * (1 - (ax * zx + ay * zy)) -
        (zx - ax) * (-(ax * zy - ay * zx))) /
        ((1 - (ax * zx + ay * zy)) * (1 - (ax * zx + ay * zy)) +
         (-(ax * zy - ay * zx)) * (-(ax * zy - ay * zx))) = ry)
    (hin : ¬ (1 ≤ rx * rx + ry * ry)) :
    mobiusTransform zx zy ax ay = (rx, ry) := by
  rw [mobiusTransform_eq_clampedDiv]
  unfold clampedComplexDiv
  rw [if_neg hd]
  simp only
  rw [hrx, hry, if_neg hin]

/-- Evaluation helper: `inverseMobiusTransform` in its exact branch. -/
theorem inverse_mobius_eval (wx wy ax ay rx ry : ℝ)
    (hd : ¬ ((1 + (ax * wx + ay * wy)) * (1 + (ax * wx + ay * wy)) +
        (ax * wy - ay * wx) * (ax * wy - ay * wx) < 1e-12))
    (hrx : ((wx + ax) * (1 + (ax * wx + ay * wy)) +
        (wy + ay) * (ax * wy - ay * wx)) /
        ((1 + (ax * wx + ay * wy)) * (1 + (ax * wx + ay * wy)) +
         (ax * wy - ay * wx) * (ax * wy - ay * wx)) = rx)
    (hry : ((wy + ay) * (1 + (ax * wx + ay * wy)) -
        (wx + ax) * (ax * wy - ay * wx)) /
        ((1 + (ax * wx + ay * wy)) * (1 + (ax * wx + ay * wy)) +
         (ax * wy - ay * wx) * (ax * wy - ay * wx)) = ry)
    (hin : ¬ (1 ≤ rx * rx + ry * ry)) :
    inverseMobiusTransform wx wy ax ay = (rx, ry) := by
  rw [inverseMobiusTransform_eq_clampedDiv]
  unfold clampedComplexDiv
  rw [if_neg hd]
  simp only
  rw [hrx, hry, if_neg hin]

theorem cex_diskR : diskRadius ⟨99/100, 0, 1/2⟩ 1200 800 = 180 := by
  unfold diskRadius
  norm_num [min_def]

/-- Screen position of the counterexample's nearest point
`(-1/100, -9999/10000)` under the camera `a = (99/100, 0)`. -/
theorem cex_proj0 :
    projectPoincare (-1/100) (-9999/10000) ⟨99/100, 0, 1/2⟩ 1200 800 =
      ((839934838098600/1999801999801 : ℝ),
       (803502441720400/1999801999801 : ℝ)) := by
  have hm : mobiusTransform (-1/100) (-9999/10000) (99/100) 0 =
      ((-1999702009900/1999801999801 : ℝ),
       (-19898010000/1999801999801 : ℝ)) := by
    apply mobius_eval <;> norm_num
  unfold projectPoincare
  simp only
  rw [hm, cex_diskR]
  norm_num [Prod.ext_iff]

/-- Screen position of the counterexample's runner-up point
`(0, -998/1000)`. -/
theorem cex_proj1 :
    projectPoincare 0 (-998/1000) ⟨99/100, 0, 1/2⟩ 1200 800 =
      ((2075055498600/4940458801 : ℝ), (1985120610400/4940458801 : ℝ)) := by
  have hm : mobiusTransform 0 (-998/1000) (99/100) 0 =
      ((-4940109900/4940458801 : ℝ), (-49650500/4940458801 : ℝ)) := by
    apply mobius_eval <;> norm_num
  unfold projectPoincare
  simp only
  rw [hm, cex_diskR]
  norm_num [Prod.ext_iff]

/-- The counterexample's cursor is the exact projection of
`z0 = (0, 9995/10000)`; unprojection recovers `z0` exactly. -/
theorem cex_unproj :
    unprojectPoincare (33250009698600/79164805801)
      (31522713960400/79164805801) ⟨99/100, 0, 1/2⟩ 1200 800 =
      ((0 : ℝ), (9995/10000 : ℝ)) := by
  rw [unprojectPoincare_inside _ _ _ _ _
    (by rw [cex_diskR]; norm_num)]
  rw [cex_diskR,
    show (⟨99/100, 0, 1/2⟩ : HyperbolicViewState).ax = 99/100 from rfl,
    show (⟨99/100, 0, 1/2⟩ : HyperbolicViewState).ay = 0 from rfl,
    show ((33250009698600/79164805801 : ℝ) - 1200 / 2) / 180 =
      -79160409900/79164805801 by norm_num,
    show (-((31522713960400/79164805801 : ℝ) - 800 / 2)) / 180 =
      795602000/79164805801 by norm_num]
  apply inverse_mobius_eval <;> norm_num

/-- When both guards pass and already the zeroth fixed-point iterate
clears the cap (with the `1.001` slack), the conservative radius is
exactly its cap `1.999`: the iterates only grow. -/
theorem conservativeDataRadius_cap (ax ay zx zy srp dR : ℝ)
    (hdr : 1e-9 < dR) (hsrp : 0 < srp)
    (hD : ¬ Real.sqrt ((1 - (ax * zx + ay * zy)) * (1 - (ax * zx + ay * zy)) +
        (-(ax * zy - ay * zx)) * (-(ax * zy - ay * zx))) < 1e-12)
    (hbig : 1.999 ≤ srp / (dR * max 1e-12 (1 - (ax * ax + ay * ay))) *
        ((1 - (ax * zx + ay * zy)) * (1 - (ax * zx + ay * zy)) +
         (-(ax * zy - ay * zx)) * (-(ax * zy - ay * zx))) * 1.001) :
    conservativeDataRadius ax ay zx zy srp dR = 1.999 := by
  unfold conservativeDataRadius
  simp only
  rw [if_neg (by push_neg; exact ⟨hdr, hsrp⟩), if_neg hD]
  set S := (1 - (ax * zx + ay * zy)) * (1 - (ax * zx + ay * zy)) +
      (-(ax * zy - ay * zx)) * (-(ax * zy - ay * zx)) with hS
  set K := srp / (dR * max 1e-12 (1 - (ax * ax + ay * ay))) with hK
  set D0 := Real.sqrt S with hD0
  set A := Real.sqrt (ax * ax + ay * ay) with hA
  have hS0 : 0 ≤ S := add_nonneg (mul_self_nonneg _) (mul_self_nonneg _)
  have hDD : D0 * D0 = S := Real.mul_self_sqrt hS0
  have hD0n : 0 ≤ D0 := Real.sqrt_nonneg _
  have hAn : 0 ≤ A := Real.sqrt_nonneg _
  have hKpos : 0 < K := by
    apply div_pos hsrp
    apply mul_pos (lt_trans (by norm_num) hdr)
    exact lt_of_lt_of_le (by norm_num) (le_max_left _ _)
  have step : ∀ r : ℝ, 0 ≤ r →
      K * S ≤ K * (D0 + A * r) * (D0 + A * r) ∧
      0 ≤ K * (D0 + A * r) * (D0 + A * r) := by
    intro r hr
    have hsq : D0 * D0 ≤ (D0 + A * r) * (D0 + A * r) := by
      nlinarith [hD0n, hAn, hr, mul_nonneg hAn hr]
    constructor
    · calc K * S = K * (D0 * D0) := by rw [hDD]
        _ ≤ K * ((D0 + A * r) * (D0 + A * r)) :=
          mul_le_mul_of_nonneg_left hsq (le_of_lt hKpos)
        _ = K * (D0 + A * r) * (D0 + A * r) := by ring
    · have := mul_nonneg (le_of_lt hKpos) (mul_self_nonneg (D0 + A * r))
      calc (0 : ℝ) ≤ K * ((D0 + A * r) * (D0 + A * r)) := this
        _ = K * (D0 + A * r) * (D0 + A * r) := by ring
  have h0n : 0 ≤ K * D0 * D0 := by
    have := mul_nonneg (le_of_lt hKpos) (mul_self_nonneg D0)
    calc (0 : ℝ) ≤ K * (D0 * D0) := this
      _ = K * D0 * D0 := by ring
  have h0b : K * S ≤ K * D0 * D0 := by
    rw [mul_assoc, hDD]
  obtain ⟨h1b, h1n⟩ := step (K * D0 * D0) h0n
  obtain ⟨h2b, h2n⟩ := step _ h1n
  obtain ⟨h3b, h3n⟩ := step _ h2n
  obtain ⟨h4b, h4n⟩ := step _ h3n
  obtain ⟨h5b, h5n⟩ := step _ h4n
  apply min_eq_left
  refine le_trans ?_ (le_max_right 0 _)
  calc (1.999 : ℝ) ≤ K * S * 1.001 := hbig
    _ ≤ _ := mul_le_mul_of_nonneg_right h5b (by norm_num)

/-- The counterexample's conservative query radius is the full cap
`1.999`: near the disk rim the Möbius stretch estimate explodes. -/
theorem cex_queryRadius :
    conservativeDataRadius (99/100) 0 0 (9995/10000) (3 + 5) 180 =
      1.999 := by
  apply conservativeDataRadius_cap
  · norm_num
  · norm_num
  · rw [not_lt]
    calc (1e-12 : ℝ) ≤ 1 := by norm_num
      _ = Real.sqrt 1 := Real.sqrt_one.symm
      _ ≤ _ := Real.sqrt_le_sqrt (by norm_num)
  · rw [show max (1e-12 : ℝ)
        (1 - (99/100 * (99/100) + 0 * 0)) = 199/10000 by
      rw [max_eq_right] <;> norm_num]
    norm_num

theorem cex_bounds :
    computeBounds [((-1/100 : ℝ), -9999/10000), (0, -998/1000)] =
      ⟨-1/100, -9999/10000, 0, -998/1000⟩ := by
  have hminX : dataFoldMin Prod.fst
      [((-1/100 : ℝ), -9999/10000), (0, -998/1000)] = -1/100 := by
    simp [dataFoldMin, min_def]
  have hmaxX : dataFoldMax Prod.fst
      [((-1/100 : ℝ), -9999/10000), (0, -998/1000)] = 0 := by
    simp [dataFoldMax, max_def]
  have hminY : dataFoldMin Prod.snd
      [((-1/100 : ℝ), -9999/10000), (0, -998/1000)] = -9999/10000 := by
    simp [dataFoldMin, min_def]
    norm_num
  have hmaxY : dataFoldMax Prod.snd
      [((-1/100 : ℝ), -9999/10000), (0, -998/1000)] = -998/1000 := by
    simp [dataFoldMax, max_def]
    norm_num
  simp only [computeBounds, hminX, hmaxX, hminY, hmaxY]
  have h1 : ¬ |(0 : ℝ) - -1/100| < 1e-9 := by
    rw [show (0 : ℝ) - -1/100 = 1/100 by norm_num,
      abs_of_nonneg (by norm_num : (0 : ℝ) ≤ 1/100)]
    norm_num
  have h2 : ¬ |(-998/1000 : ℝ) - -9999/10000| < 1e-9 := by
    rw [show (-998/1000 : ℝ) - -9999/10000 = 19/10000 by norm_num,
      abs_of_nonneg (by norm_num : (0 : ℝ) ≤ 19/10000)]
    norm_num
  rw [if_neg h1, if_neg h2]

theorem cex_cellsX :
    gridCellsX [((-1/100 : ℝ), -9999/10000), (0, -998/1000)] = 18 := by
  unfold gridCellsX
  rw [cex_bounds]
  simp only
  rw [show gridTotalCells ([((-1/100 : ℝ), -9999/10000), (0, -998/1000)] :
      List (ℝ × ℝ)).length = 64 from rfl]
  rw [show ((64 : ℕ) : ℝ) * ((0 - (-1/100)) / (-998/1000 - (-9999/10000))) =
      6400/19 by push_cast; norm_num]
  have h175 : (17.5 : ℝ) ≤ Real.sqrt (6400/19) := by
    rw [show (17.5 : ℝ) = Real.sqrt 306.25 by
      rw [show (306.25 : ℝ) = 17.5 ^ 2 by norm_num,
        Real.sqrt_sq (by norm_num)]]
    exact Real.sqrt_le_sqrt (by norm_num)
  have h185 : Real.sqrt (6400/19 : ℝ) < 18.5 := by
    rw [show (18.5 : ℝ) = Real.sqrt 342.25 by
      rw [show (342.25 : ℝ) = 18.5 ^ 2 by norm_num,
        Real.sqrt_sq (by norm_num)]]
    exact Real.sqrt_lt_sqrt (by norm_num) (by norm_num)
  have hround : round (Real.sqrt (6400/19 : ℝ)) = 18 := by
    rw [round_eq, Int.floor_eq_iff]
    push_cast
    constructor <;> linarith
  rw [hround]
  decide

theorem cex_cellsY :
    gridCellsY [((-1/100 : ℝ), -9999/10000), (0, -998/1000)] = 8 := by
  unfold gridCellsY
  rw [cex_cellsX,
    show gridTotalCells ([((-1/100 : ℝ), -9999/10000), (0, -998/1000)] :
      List (ℝ × ℝ)).length = 64 from rfl]
  have hround : round (((64 : ℕ) : ℝ) / ((18 : ℕ) : ℝ)) = 4 := by
    rw [round_eq, Int.floor_eq_iff]
    push_cast
    constructor <;> norm_num
  rw [hround]
  decide

theorem cex_csY :
    gridCellSizeY [((-1/100 : ℝ), -9999/10000), (0, -998/1000)] =
      19/80000 := by
  unfold gridCellSizeY
  rw [cex_bounds, cex_cellsY]
  push_cast
  norm_num

theorem cex_row_p0 :
    cellClampY [((-1/100 : ℝ), -9999/10000), (0, -998/1000)]
      (-9999/10000) = 0 := by
  unfold cellClampY
  rw [cex_bounds, cex_csY, cex_cellsY]
  simp only
  rw [show ((-9999/10000 : ℝ) - -9999/10000) / (19/80000) = 0 by norm_num,
    Int.floor_zero]
  decide

theorem cex_row_query :
    cellClampY [((-1/100 : ℝ), -9999/10000), (0, -998/1000)]
      (9995/10000 - 1.999 - 1e-12) = 1 := by
  unfold cellClampY
  rw [cex_bounds, cex_csY, cex_cellsY]
  simp only
  have hfloor : ⌊((9995/10000 : ℝ) - 1.999 - 1e-12 - -9999/10000) /
      (19/80000)⌋ = 1 := by
    rw [Int.floor_eq_iff]
    push_cast
    constructor <;> norm_num
  rw [hfloor]
  decide

/-- A selection pass over a list whose only members below index 2 reduce
to the single qualifying index 1 ends at index 1. -/
theorem isHitMin_singleton_conclusion (q : ℕ → Prop) (f : ℕ → ℝ)
    (L : List ℕ) (r : Option (ℕ × ℝ)) (hr : IsHitMin q f L r)
    (h1L : 1 ∈ L) (hq1 : q 1) (h0L : 0 ∉ L) (hjlt : ∀ j ∈ L, j < 2) :
    r.map Prod.fst = some 1 := by
  cases r with
  | none => exact absurd hq1 (hr 1 h1L)
  | some b =>
    obtain ⟨bi, bd⟩ := b
    obtain ⟨hbiL, -, -, -⟩ := hr
    have hbi1 : bi = 1 := by
      have h2 := hjlt bi hbiL
      have h0 : bi ≠ 0 := fun h => h0L (h ▸ hbiL)
      omega
    rw [hbi1]
    rfl

/-- C1 counterexample: under the camera `a = (99/100, 0)`,
`displayZoom = 1/2`, canvas 1200×800, `pointRadius = 3`, with the cursor
at the exact projection of `z0 = (0, 9995/10000)`, the dataset
`[(-1/100, -9999/10000), (0, -998/1000)]` makes the reference hit test
return index 0 (screen distance ≈ 3.60 px; index 1 is ≈ 3.62 px away)
while the grid-accelerated candidate returns index 1: the conservative
query radius caps at 1.999, the query square therefore starts at data
`y = 0.9995 - 1.999 = -0.9995`, which lands in grid row 1 of the 18×8
grid — and point 0 at `y = -0.9999` lives in row 0, so the spatial index
never visits it. -/
theorem hitTest_grid_counterexample :
    hyperbolicReferenceHitTest
        [((-1/100 : ℝ), -9999/10000), (0, -998/1000)] ⟨99/100, 0, 1/2⟩
        1200 800 (33250009698600/79164805801) (31522713960400/79164805801)
        3 = some 0 ∧
    hyperbolicCandidateHitTest
        [((-1/100 : ℝ), -9999/10000), (0, -998/1000)] ⟨99/100, 0, 1/2⟩
        1200 800 (33250009698600/79164805801) (31522713960400/79164805801)
        3 = some 1 := by
  have hg0 : ([((-1/100 : ℝ), -9999/10000), (0, -998/1000)] :
      List (ℝ × ℝ)).getD 0 (0, 0) = ((-1/100 : ℝ), -9999/10000) := rfl
  have hg1 : ([((-1/100 : ℝ), -9999/10000), (0, -998/1000)] :
      List (ℝ × ℝ)).getD 1 (0, 0) = ((0 : ℝ), -998/1000) := rfl
  constructor
  · -- Reference: brute force keeps index 0 (strictly smaller distance).
    unfold hyperbolicReferenceHitTest
    rw [show List.range ([((-1/100 : ℝ), -9999/10000), (0, -998/1000)] :
        List (ℝ × ℝ)).length = [0, 1] from rfl]
    simp only [List.foldl_cons, List.foldl_nil]
    have hstep0 : refHitStep
        [((-1/100 : ℝ), -9999/10000), (0, -998/1000)] ⟨99/100, 0, 1/2⟩
        1200 800 (33250009698600/79164805801) (31522713960400/79164805801)
        ((3 + 5) * (3 + 5)) none 0 =
        some (0, 2051735598154425600000000/158313936954697605645601) := by
      unfold refHitStep
      rw [hg0]
      simp only
      rw [cex_proj0, cex_diskR]
      rw [if_neg (by norm_num)]
      simp only
      rw [if_pos (by norm_num)]
      norm_num [Prod.ext_iff]
    have hstep1 : refHitStep
        [((-1/100 : ℝ), -9999/10000), (0, -998/1000)] ⟨99/100, 0, 1/2⟩
        1200 800 (33250009698600/79164805801) (31522713960400/79164805801)
        ((3 + 5) * (3 + 5))
        (some (0, 2051735598154425600000000/158313936954697605645601)) 1 =
        some (0, 2051735598154425600000000/158313936954697605645601) := by
      unfold refHitStep
      rw [hg1]
      simp only
      rw [cex_proj1, cex_diskR]
      rw [if_neg (by norm_num)]
      simp only
      rw [if_neg (fun hc => absurd hc.1 (by norm_num))]
    rw [hstep0, hstep1]
    rfl
  · -- Candidate: the grid query only ever visits index 1.
    unfold hyperbolicCandidateHitTest
    simp only
    rw [if_neg (by rw [cex_diskR]; norm_num)]
    have hfunT : candHitStep
        [((-1/100 : ℝ), -9999/10000), (0, -998/1000)] ⟨99/100, 0, 1/2⟩
        1200 800 (33250009698600/79164805801) (31522713960400/79164805801)
        ((3 + 5) * (3 + 5)) =
        selStepTie
          (hitEligible [((-1/100 : ℝ), -9999/10000), (0, -998/1000)]
            ⟨99/100, 0, 1/2⟩ 1200 800 (33250009698600/79164805801)
            (31522713960400/79164805801) 3)
          (hitScreenDistSq [((-1/100 : ℝ), -9999/10000), (0, -998/1000)]
            ⟨99/100, 0, 1/2⟩ 1200 800 (33250009698600/79164805801)
            (31522713960400/79164805801)) :=
      funext fun st => funext fun i => candHitStep_eq_selStepTie _ _ _ _ _ _
        3 st i
    rw [hfunT]
    have hCQ : candidateQueryList
        [((-1/100 : ℝ), -9999/10000), (0, -998/1000)] ⟨99/100, 0, 1/2⟩
        1200 800 (33250009698600/79164805801) (31522713960400/79164805801)
        3 =
        forEachVisited [((-1/100 : ℝ), -9999/10000), (0, -998/1000)]
          (0 - 1.999) (9995/10000 - 1.999) (0 + 1.999)
          (9995/10000 + 1.999) := by
      unfold candidateQueryList
      rw [cex_unproj]
      simp only
      rw [cex_diskR, cex_queryRadius]
    have h1L : (1 : ℕ) ∈ candidateQueryList
        [((-1/100 : ℝ), -9999/10000), (0, -998/1000)] ⟨99/100, 0, 1/2⟩
        1200 800 (33250009698600/79164805801) (31522713960400/79164805801)
        3 := by
      rw [hCQ]
      refine forEachVisited_coverage _ (by simp) _ _ _ _ 1 (by simp)
        ?_ ?_ ?_ ?_ <;> rw [hg1] <;> norm_num
    have h0L : (0 : ℕ) ∉ candidateQueryList
        [((-1/100 : ℝ), -9999/10000), (0, -998/1000)] ⟨99/100, 0, 1/2⟩
        1200 800 (33250009698600/79164805801) (31522713960400/79164805801)
        3 := by
      rw [hCQ]
      intro hmem
      obtain ⟨-, -, -, hy, -⟩ := (mem_forEachVisited _ _ _ _ _ 0).1 hmem
      rw [hg0] at hy
      simp only at hy
      rw [cex_row_query, cex_row_p0] at hy
      omega
    have hjlt : ∀ j ∈ candidateQueryList
        [((-1/100 : ℝ), -9999/10000), (0, -998/1000)] ⟨99/100, 0, 1/2⟩
        1200 800 (33250009698600/79164805801) (31522713960400/79164805801)
        3, j < 2 := by
      intro j hj
      rw [hCQ] at hj
      exact ((mem_forEachVisited _ _ _ _ _ j).1 hj).1
    have hq1 : hitEligible [((-1/100 : ℝ), -9999/10000), (0, -998/1000)]
        ⟨99/100, 0, 1/2⟩ 1200 800 (33250009698600/79164805801)
        (31522713960400/79164805801) 3 1 := by
      unfold hitEligible hitScreenDistSq
      rw [hg1]
      simp only
      rw [cex_proj1, cex_diskR]
      constructor <;> norm_num
    have hmin := foldl_selStepTie_min
      (hitEligible [((-1/100 : ℝ), -9999/10000), (0, -998/1000)]
        ⟨99/100, 0, 1/2⟩ 1200 800 (33250009698600/79164805801)
        (31522713960400/79164805801) 3)
      (hitScreenDistSq [((-1/100 : ℝ), -9999/10000), (0, -998/1000)]
        ⟨99/100, 0, 1/2⟩ 1200 800 (33250009698600/79164805801)
        (31522713960400/79164805801))
      (candidateQueryList
        [((-1/100 : ℝ), -9999/10000), (0, -998/1000)] ⟨99/100, 0, 1/2⟩
        1200 800 (33250009698600/79164805801) (31522713960400/79164805801)
        3)
    exact isHitMin_singleton_conclusion _ _ _ _ hmin h1L hq1 h0L hjlt

end VizLab

end

namespace VizLab

/-! ## `BitsetNumberSet` (C10, `src/unnamed/part_002`)

Integer-valued doubles are modelled as `ℤ`; JavaScript's `value | 0`
(ToInt32) is two's-complement wrapping into `[-2^31, 2^31)`.  Words of the
backing `Uint32Array` are naturals below `2^32`, the array itself a
function from word index (entries past `ceil(capacity / 32)` stay zero and
are never read in range).  `Number.isFinite` in `has` has no counterpart
for integer-valued inputs.  `1 << b` (an Int32 shift in JS) denotes the
same bit pattern as the natural `1 <<< b` for `b ≤ 31`, `i >>> 5` is
`i / 32`, and `i & 31` is `i % 32` for the in-range (nonnegative) `i` that
reach them. -/

/-- JavaScript ToInt32 (`value | 0`) on an integer-valued double. -/
def toInt32 (z : ℤ) : ℤ := (z + 2 ^ 31) % 2 ^ 32 - 2 ^ 31

structure BitsetNumberSet where
  capacity : ℕ
  bits : ℕ → ℕ
  size : ℕ

/-- The constructor: `n = Math.max(0, capacity | 0)`, zeroed words. -/
def mkBitset (capacity : ℤ) : BitsetNumberSet :=
  { capacity := (max 0 (toInt32 capacity)).toNat
    bits := fun _ => 0
    size := 0 }

/-- `has(value)`: ToInt32, range check, word/mask lookup. -/
def bitsetHas (s : BitsetNumberSet) (value : ℤ) : Bool :=
  let v := toInt32 value
  if v < 0 ∨ (s.capacity : ℤ) ≤ v then false
  else decide (s.bits (v.toNat / 32) &&& (1 <<< (v.toNat % 32)) ≠ 0)

/-- `add(value)`: ToInt32 (without a finiteness check), range check, set
the bit and bump `_size` if it was clear. -/
def bitsetAdd (s : BitsetNumberSet) (value : ℤ) : BitsetNumberSet :=
  let v := toInt32 value
  if v < 0 ∨ (s.capacity : ℤ) ≤ v then s
  else
    let w := v.toNat / 32
    let mask := 1 <<< (v.toNat % 32)
    let before := s.bits w
    if before &&& mask = 0 then
      { s with bits := Function.update s.bits w (before ||| mask),
               size := s.size + 1 }
    else s

/-- `delete(value)`: clear the bit (`before & ~mask`, with `~mask` the
32-bit complement `mask ^^^ (2^32 - 1)`), decrement `_size`, report
whether anything was removed. -/
def bitsetDelete (s : BitsetNumberSet) (value : ℤ) :
    BitsetNumberSet × Bool :=
  let v := toInt32 value
  if v < 0 ∨ (s.capacity : ℤ) ≤ v then (s, false)
  else
    let w := v.toNat / 32
    let mask := 1 <<< (v.toNat % 32)
    let before := s.bits w
    if before &&& mask ≠ 0 then
      let cleared := before &&& (mask ^^^ (2 ^ 32 - 1))
      let t : BitsetNumberSet :=
        { s with bits := Function.update s.bits w cleared,
                 size := s.size - 1 }
      (t, true)
    else (s, false)

/-- `clear()`. -/
def bitsetClear (s : BitsetNumberSet) : BitsetNumberSet :=
  { s with bits := fun _ => 0, size := 0 }

/-- One word's set-bit extraction loop of `values()`: `lsb = word & -word`
with the two's-complement negation `2^32 - word` of a nonzero 32-bit
`word`, and `31 - Math.clz32(lsb)` is `log2 lsb` for the one-bit `lsb`.
The loop clears one bit per round, so 32 rounds of fuel cover any 32-bit
word. -/
def wordBits : ℕ → ℕ → List ℕ
  | 0, _ => []
  | fuel + 1, word =>
    if word = 0 then []
    else
      let lsb := word &&& (2 ^ 32 - word)
      Nat.log2 lsb :: wordBits fuel (word ^^^ lsb)

/-- The word count `Math.ceil(n / 32)` of the backing array. -/
def bitsetWords (s : BitsetNumberSet) : ℕ := (s.capacity + 31) / 32

/-- `values()`: walk the words, extract set bits lowest-first, offset by
`base = w << 5`, and keep only indices below `capacity`. -/
def bitsetValues (s : BitsetNumberSet) : List ℕ :=
  (List.range (bitsetWords s)).flatMap (fun w =>
    ((wordBits 32 (s.bits w)).map (fun bit => 32 * w + bit)).filter
      (fun idx => decide (idx < s.capacity)))

/-- Membership of index `i` as the bit array stores it. -/
def bitsetMem (s : BitsetNumberSet) (i : ℕ) : Bool :=
  (s.bits (i / 32)).testBit (i % 32)

inductive BitsetOp where
  | add : ℤ → BitsetOp
  | del : ℤ → BitsetOp
  | clear : BitsetOp

def bitsetApply (s : BitsetNumberSet) : BitsetOp → BitsetNumberSet
  | BitsetOp.add v => bitsetAdd s v
  | BitsetOp.del v => (bitsetDelete s v).1
  | BitsetOp.clear => bitsetClear s

/-- Any add/delete/clear sequence from a fresh set. -/
def bitsetRun (c : ℤ) (ops : List BitsetOp) : BitsetNumberSet :=
  ops.foldl bitsetApply (mkBitset c)

/-- The data-structure invariant: 32-bit words, every stored bit is an
in-range index, and `_size` counts the stored bits. -/
def BitsetInv (s : BitsetNumberSet) : Prop :=
  (∀ w, s.bits w < 2 ^ 32) ∧
  (∀ w b, b < 32 → (s.bits w).testBit b = true → 32 * w + b < s.capacity) ∧
  s.size = ((List.range s.capacity).filter (fun i => bitsetMem s i)).length

theorem shiftLeft_one (b : ℕ) : 1 <<< b = 2 ^ b := by
  rw [Nat.shiftLeft_eq, one_mul]

theorem and_two_pow_eq_zero_iff (x k : ℕ) :
    x &&& 2 ^ k = 0 ↔ x.testBit k = false := by
  constructor
  · intro h
    by_contra hb
    rw [Bool.not_eq_false] at hb
    have htrue : (x &&& 2 ^ k).testBit k = true := by
      rw [Nat.testBit_land, hb, Nat.testBit_two_pow_self]
      rfl
    rw [h, Nat.zero_testBit] at htrue
    exact absurd htrue (by simp)
  · intro h
    apply Nat.eq_of_testBit_eq
    intro j
    rw [Nat.testBit_land, Nat.zero_testBit]
    by_cases hj : j = k
    · subst hj
      rw [h]
      rfl
    · rw [Nat.testBit_two_pow_of_ne (Ne.symm hj)]
      exact Bool.and_false _

theorem testBit_or_two_pow (x k j : ℕ) :
    (x ||| 2 ^ k).testBit j = (x.testBit j || decide (j = k)) := by
  rw [Nat.testBit_lor]
  by_cases h : j = k
  · subst h
    rw [Nat.testBit_two_pow_self]
    simp
  · rw [Nat.testBit_two_pow_of_ne (Ne.symm h)]
    simp [h]

theorem testBit_and_not_two_pow (x k j : ℕ) (hk : k < 32)
    (hx : x < 2 ^ 32) :
    (x &&& (2 ^ k ^^^ (2 ^ 32 - 1))).testBit j =
      (x.testBit j && ! decide (j = k)) := by
  rw [Nat.testBit_land, Nat.testBit_xor, Nat.testBit_two_pow_sub_one]
  by_cases hj32 : j < 32
  · by_cases h : j = k
    · subst h
      rw [Nat.testBit_two_pow_self]
      simp [hj32]
    · rw [Nat.testBit_two_pow_of_ne (Ne.symm h)]
      simp [h, hj32]
  · rw [Nat.testBit_lt_two_pow
      (lt_of_lt_of_le hx (Nat.pow_le_pow_right (by norm_num) (by omega)))]
    simp

/-- Flipping one in-range index from false to true grows the filtered
range by exactly one. -/
theorem filter_length_flip_true (n v : ℕ) (P Q : ℕ → Bool) (hv : v < n)
    (hPv : P v = false) (hQv : Q v = true)
    (hagree : ∀ j, j ≠ v → Q j = P j) :
    ((List.range n).filter Q).length =
      ((List.range n).filter P).length + 1 := by
  have h1 : ((List.range n).filter Q).toFinset =
      insert v ((List.range n).filter P).toFinset := by
    apply Finset.ext
    intro a
    simp only [List.mem_toFinset, List.mem_filter, List.mem_range,
      Finset.mem_insert]
    constructor
    · rintro ⟨ha, hQa⟩
      by_cases h : a = v
      · exact Or.inl h
      · refine Or.inr ⟨ha, ?_⟩
        rw [← hagree a h]
        exact hQa
    · rintro (h | ⟨ha, hPa⟩)
      · subst h
        exact ⟨hv, hQv⟩
      · refine ⟨ha, ?_⟩
        by_cases h : a = v
        · subst h
          rw [hPa] at hPv
          exact absurd hPv (by simp)
        · rw [hagree a h]
          exact hPa
  have hnd1 : ((List.range n).filter Q).Nodup := (List.nodup_range n).filter _
  have hnd2 : ((List.range n).filter P).Nodup := (List.nodup_range n).filter _
  have hvnot : v ∉ ((List.range n).filter P).toFinset := by
    simp only [List.mem_toFinset, List.mem_filter]
    rintro ⟨-, hPa⟩
    rw [hPv] at hPa
    exact absurd hPa (by simp)
  rw [← List.toFinset_card_of_nodup hnd1, ← List.toFinset_card_of_nodup hnd2,
    h1, Finset.card_insert_of_not_mem hvnot]

theorem bitsetInv_mk (c : ℤ) : BitsetInv (mkBitset c) := by
  refine ⟨fun w => by norm_num [mkBitset], ?_, ?_⟩
  · intro w b _ hb
    rw [show (mkBitset c).bits w = 0 from rfl, Nat.zero_testBit] at hb
    exact absurd hb (by simp)
  · have hnil : (List.range (mkBitset c).capacity).filter
        (fun i => bitsetMem (mkBitset c) i) = [] := by
      rw [List.filter_eq_nil_iff]
      intro a _
      unfold bitsetMem
      rw [show (mkBitset c).bits (a / 32) = 0 from rfl, Nat.zero_testBit]
      simp
    rw [hnil]
    rfl

theorem bitsetInv_add (s : BitsetNumberSet) (v : ℤ) (hs : BitsetInv s) :
    BitsetInv (bitsetAdd s v) := by
  obtain ⟨hw, hcap, hsize⟩ := hs
  unfold bitsetAdd
  simp only
  by_cases h1 : toInt32 v < 0 ∨ (s.capacity : ℤ) ≤ toInt32 v
  · rw [if_pos h1]
    exact ⟨hw, hcap, hsize⟩
  · rw [if_neg h1]
    push_neg at h1
    obtain ⟨hge, hlt⟩ := h1
    have hicap : (toInt32 v).toNat < s.capacity := by omega
    set i := (toInt32 v).toNat with hidef
    have hb32 : i % 32 < 32 := Nat.mod_lt _ (by norm_num)
    have hdecomp : 32 * (i / 32) + i % 32 = i := by omega
    by_cases h2 : s.bits (i / 32) &&& 1 <<< (i % 32) = 0
    · rw [if_pos h2]
      rw [shiftLeft_one] at h2
      have hbit : (s.bits (i / 32)).testBit (i % 32) = false :=
        (and_two_pow_eq_zero_iff _ _).1 h2
      refine ⟨?_, ?_, ?_⟩
      · intro w'
        simp only
        rw [Function.update_apply]
        split_ifs with h
        · rw [shiftLeft_one]
          exact Nat.or_lt_two_pow (hw _)
            (Nat.pow_lt_pow_right (by norm_num) hb32)
        · exact hw _
      · intro w' b hb' hbit'
        simp only [Function.update_apply] at hbit'
        by_cases h : w' = i / 32
        · rw [if_pos h, shiftLeft_one, testBit_or_two_pow] at hbit'
          rcases Bool.or_eq_true_iff.1 hbit' with hb2 | hb2
          · exact hcap w' b hb' (h ▸ hb2)
          · have hbeq : b = i % 32 := of_decide_eq_true hb2
            rw [h, hbeq, hdecomp]
            exact hicap
        · rw [if_neg h] at hbit'
          exact hcap w' b hb' hbit'
      · simp only
        have hflip := filter_length_flip_true s.capacity i
          (fun j => bitsetMem s j)
          (fun j => bitsetMem { s with
            bits := Function.update s.bits (i / 32)
              (s.bits (i / 32) ||| 1 <<< (i % 32)),
            size := s.size + 1 } j)
          hicap hbit ?_ ?_
        · rw [hflip, hsize]
        · show (Function.update s.bits (i / 32)
              (s.bits (i / 32) ||| 1 <<< (i % 32)) (i / 32)).testBit
            (i % 32) = true
          rw [Function.update_apply, if_pos rfl, shiftLeft_one,
            testBit_or_two_pow]
          simp
        · intro j hj
          show (Function.update s.bits (i / 32)
              (s.bits (i / 32) ||| 1 <<< (i % 32)) (j / 32)).testBit
            (j % 32) = (s.bits (j / 32)).testBit (j % 32)
          rw [Function.update_apply]
          split_ifs with h
          · rw [shiftLeft_one, testBit_or_two_pow, h]
            have hne : ¬ j % 32 = i % 32 := by
              intro heq
              apply hj
              omega
            simp [hne]
          · rfl
    · rw [if_neg h2]
      exact ⟨hw, hcap, hsize⟩

theorem bitsetInv_delete (s : BitsetNumberSet) (v : ℤ) (hs : BitsetInv s) :
    BitsetInv (bitsetDelete s v).1 := by
  obtain ⟨hw, hcap, hsize⟩ := hs
  unfold bitsetDelete
  simp only
  by_cases h1 : toInt32 v < 0 ∨ (s.capacity : ℤ) ≤ toInt32 v
  · rw [if_pos h1]
    exact ⟨hw, hcap, hsize⟩
  · rw [if_neg h1]
    push_neg at h1
    obtain ⟨hge, hlt⟩ := h1
    have hicap : (toInt32 v).toNat < s.capacity := by omega
    set i := (toInt32 v).toNat with hidef
    have hb32 : i % 32 < 32 := Nat.mod_lt _ (by norm_num)
    have hdecomp : 32 * (i / 32) + i % 32 = i := by omega
    by_cases h2 : s.bits (i / 32) &&& 1 <<< (i % 32) ≠ 0
    · rw [if_pos h2]
      rw [shiftLeft_one] at h2
      have hbit : (s.bits (i / 32)).testBit (i % 32) = true := by
        by_contra hb
        rw [Bool.not_eq_true] at hb
        exact h2 ((and_two_pow_eq_zero_iff _ _).2 hb)
      refine ⟨?_, ?_, ?_⟩
      · intro w'
        simp only
        rw [Function.update_apply]
        split_ifs with h
        · exact lt_of_le_of_lt Nat.and_le_left (hw _)
        · exact hw _
      · intro w' b hb' hbit'
        simp only [Function.update_apply] at hbit'
        by_cases h : w' = i / 32
        · rw [if_pos h, shiftLeft_one,
            testBit_and_not_two_pow _ _ _ hb32 (hw _)] at hbit'
          exact hcap w' b hb' (h ▸ (Bool.and_eq_true_iff.1 hbit').1)
        · rw [if_neg h] at hbit'
          exact hcap w' b hb' hbit'
      · simp only
        have hflip := filter_length_flip_true s.capacity i
          (fun j => bitsetMem { s with
            bits := Function.update s.bits (i / 32)
              (s.bits (i / 32) &&& (1 <<< (i % 32) ^^^ (2 ^ 32 - 1))),
            size := s.size - 1 } j)
          (fun j => bitsetMem s j)
          hicap ?_ ?_ ?_
        · omega
        · show (Function.update s.bits (i / 32)
              (s.bits (i / 32) &&& (1 <<< (i % 32) ^^^ (2 ^ 32 - 1)))
              (i / 32)).testBit (i % 32) = false
          rw [Function.update_apply, if_pos rfl, shiftLeft_one,
            testBit_and_not_two_pow _ _ _ hb32 (hw _)]
          simp
        · exact hbit
        · intro j hj
          show (s.bits (j / 32)).testBit (j % 32) =
            (Function.update s.bits (i / 32)
              (s.bits (i / 32) &&& (1 <<< (i % 32) ^^^ (2 ^ 32 - 1)))
              (j / 32)).testBit (j % 32)
          rw [Function.update_apply]
          split_ifs with h
          · rw [shiftLeft_one,
              testBit_and_not_two_pow _ _ _ hb32 (hw _), h]
            have hne : ¬ j % 32 = i % 32 := by
              intro heq
              apply hj
              omega
            simp [hne]
          · rfl
    · rw [if_neg h2]
      exact ⟨hw, hcap, hsize⟩

theorem bitsetInv_clear (s : BitsetNumberSet) : BitsetInv (bitsetClear s) := by
  refine ⟨fun w => by norm_num [bitsetClear], ?_, ?_⟩
  · intro w b _ hb
    rw [show (bitsetClear s).bits w = 0 from rfl, Nat.zero_testBit] at hb
    exact absurd hb (by simp)
  · have hnil : (List.range (bitsetClear s).capacity).filter
        (fun i => bitsetMem (bitsetClear s) i) = [] := by
      rw [List.filter_eq_nil_iff]
      intro a _
      unfold bitsetMem
      rw [show (bitsetClear s).bits (a / 32) = 0 from rfl, Nat.zero_testBit]
      simp
    rw [hnil]
    rfl

/-- Subtraction from the all-ones word is bitwise complement. -/
theorem testBit_ones_sub (s A j : ℕ) (hA : A < 2 ^ s) (hj : j < s) :
    ((2 ^ s - 1) - A).testBit j = ! A.testBit j := by
  induction s generalizing A j with
  | zero => omega
  | succ s ih =>
    have h2 : (2 : ℕ) ^ (s + 1) = 2 * 2 ^ s := by
      rw [pow_succ]
      ring
    have hpos : 1 ≤ (2 : ℕ) ^ s := Nat.one_le_two_pow
    have hA2 : A / 2 < 2 ^ s := by omega
    have hkey : (2 ^ (s + 1) - 1) - A =
        2 * ((2 ^ s - 1) - A / 2) + (1 - A % 2) := by omega
    cases j with
    | zero =>
      rw [Nat.testBit_zero, Nat.testBit_zero, hkey]
      rcases Nat.mod_two_eq_zero_or_one A with h | h <;> rw [h] <;>
        simp <;> omega
    | succ j =>
      rw [Nat.testBit_succ, Nat.testBit_succ, hkey,
        show (2 * ((2 ^ s - 1) - A / 2) + (1 - A % 2)) / 2 =
          (2 ^ s - 1) - A / 2 by omega]
      exact ih (A / 2) j hA2 (by omega)

theorem exists_testBit_of_ne_zero {W : ℕ} (hW : W ≠ 0) :
    ∃ j, W.testBit j = true := by
  by_contra h
  push_neg at h
  apply hW
  apply Nat.eq_of_testBit_eq
  intro i
  rw [Nat.zero_testBit]
  rw [← Bool.not_eq_true]
  exact h i

/-- Doubling commutes with bitwise and. -/
theorem two_mul_and (a b : ℕ) : (2 * a) &&& (2 * b) = 2 * (a &&& b) := by
  apply Nat.eq_of_testBit_eq
  intro j
  rw [Nat.testBit_land]
  cases j with
  | zero =>
    rw [Nat.testBit_zero, Nat.testBit_zero, Nat.testBit_zero,
      show 2 * a % 2 = 0 by omega, show 2 * b % 2 = 0 by omega,
      show 2 * (a &&& b) % 2 = 0 by omega]
    rfl
  | succ j =>
    rw [Nat.testBit_succ, Nat.testBit_succ, Nat.testBit_succ,
      show 2 * a / 2 = a by omega, show 2 * b / 2 = b by omega,
      show 2 * (a &&& b) / 2 = a &&& b by omega, Nat.testBit_land]

/-- `word & -word` for an odd word: just the unit bit. -/
theorem odd_and_two_pow_sub (t W : ℕ) (ht : 0 < t) (hW : W < 2 ^ t)
    (hodd : W % 2 = 1) : W &&& (2 ^ t - W) = 1 := by
  have h2t : (2 : ℕ) ^ t % 2 = 0 := by
    obtain ⟨t', rfl⟩ : ∃ t', t = t' + 1 := ⟨t - 1, by omega⟩
    rw [pow_succ]
    omega
  apply Nat.eq_of_testBit_eq
  intro j
  rw [Nat.testBit_land]
  cases j with
  | zero =>
    rw [Nat.testBit_zero, Nat.testBit_zero, Nat.testBit_zero, hodd,
      show (2 ^ t - W) % 2 = 1 by omega]
    rfl
  | succ j =>
    have h1 : Nat.testBit 1 (j + 1) = false := by
      rw [show (1 : ℕ) = 2 ^ 0 from rfl]
      exact Nat.testBit_two_pow_of_ne (by omega)
    rw [h1]
    by_cases hj : j + 1 < t
    · have hcompl : (2 ^ t - W).testBit (j + 1) = ! W.testBit (j + 1) := by
        rw [show 2 ^ t - W = (2 ^ t - 1) - (W - 1) by omega,
          testBit_ones_sub t (W - 1) (j + 1) (by omega) hj,
          Nat.testBit_succ, Nat.testBit_succ, show (W - 1) / 2 = W / 2 by omega]
      rw [hcompl]
      exact Bool.and_not_self _
    · rw [Nat.testBit_lt_two_pow
        (lt_of_lt_of_le hW (Nat.pow_le_pow_right (by norm_num) (by omega)))]
      exact Bool.false_and _

/-- The two's-complement lowest-set-bit trick: `word & (2^t - word)` is the
power of two at the word's least significant set bit. -/
theorem and_neg_eq_two_pow (k : ℕ) : ∀ (t W : ℕ), 0 < W → W < 2 ^ t →
    W.testBit k = true → (∀ j, j < k → W.testBit j = false) →
    W &&& (2 ^ t - W) = 2 ^ k := by
  induction k with
  | zero =>
    intro t W hW hlt hk _
    have ht : 0 < t := by
      rcases Nat.eq_zero_or_pos t with h | h
      · subst h
        simp at hlt
        omega
      · exact h
    have hodd : W % 2 = 1 := by
      rw [Nat.testBit_zero] at hk
      exact of_decide_eq_true hk
    rw [odd_and_two_pow_sub t W ht hlt hodd]
    rfl
  | succ k ih =>
    intro t W hW hlt hk hmin
    have heven : W % 2 = 0 := by
      have h0 := hmin 0 (Nat.succ_pos k)
      rw [Nat.testBit_zero] at h0
      rcases Nat.mod_two_eq_zero_or_one W with h | h
      · exact h
      · rw [h] at h0
        exact absurd h0 (by simp)
    have ht : 0 < t := by
      rcases Nat.eq_zero_or_pos t with h | h
      · subst h
        simp at hlt
        omega
      · exact h
    have h2t : (2 : ℕ) ^ t = 2 * 2 ^ (t - 1) := by
      obtain ⟨t', rfl⟩ : ∃ t', t = t' + 1 := ⟨t - 1, by omega⟩
      rw [pow_succ, Nat.add_sub_cancel]
      ring
    have hV : 0 < W / 2 := by omega
    have hVlt : W / 2 < 2 ^ (t - 1) := by omega
    have hVk : (W / 2).testBit k = true := by
      rw [← Nat.testBit_succ]
      exact hk
    have hVmin : ∀ j, j < k → (W / 2).testBit j = false := by
      intro j hj
      rw [← Nat.testBit_succ]
      exact hmin (j + 1) (by omega)
    have hrec := ih (t - 1) (W / 2) hV hVlt hVk hVmin
    calc W &&& (2 ^ t - W)
        = (2 * (W / 2)) &&& (2 * (2 ^ (t - 1) - W / 2)) := by
          rw [show 2 * (W / 2) = W by omega,
            show 2 * (2 ^ (t - 1) - W / 2) = 2 ^ t - W by omega]
      _ = 2 * ((W / 2) &&& (2 ^ (t - 1) - W / 2)) := two_mul_and _ _
      _ = 2 * 2 ^ k := by rw [hrec]
      _ = 2 ^ (k + 1) := by ring

/-- Splitting off a predicate's least witness from a filtered range. -/
theorem filter_range_eq_cons (n k : ℕ) (P Q : ℕ → Bool) (hk : k < n)
    (hPk : P k = true) (hmin : ∀ j, j < k → P j = false)
    (hQk : Q k = false) (hagree : ∀ j, j ≠ k → Q j = P j) :
    (List.range n).filter P = k :: (List.range n).filter Q := by
  obtain ⟨m, rfl⟩ : ∃ m, n = (k + 1) + m := ⟨n - (k + 1), by omega⟩
  rw [List.range_add, List.filter_append, List.filter_append,
    List.range_succ, List.filter_append, List.filter_append]
  have h1 : (List.range k).filter P = [] := by
    rw [List.filter_eq_nil_iff]
    intro a ha
    rw [hmin a (List.mem_range.1 ha)]
    simp
  have h2 : (List.range k).filter Q = [] := by
    rw [List.filter_eq_nil_iff]
    intro a ha
    have halt := List.mem_range.1 ha
    rw [hagree a (by omega), hmin a halt]
    simp
  have h3 : [k].filter P = [k] := by
    simp [hPk]
  have h4 : [k].filter Q = [] := by
    simp [hQk]
  have h5 : ((List.range m).map (fun x => k + 1 + x)).filter Q =
      ((List.range m).map (fun x => k + 1 + x)).filter P := by
    apply List.filter_congr
    intro a ha
    obtain ⟨x, -, rfl⟩ := List.mem_map.1 ha
    exact hagree _ (by omega)
  rw [h1, h2, h3, h4, h5]
  simp

/-- The extraction loop of `values()` yields exactly the set bits of a
32-bit word, in increasing order, given fuel for the bits not yet ruled
out. -/
theorem wordBits_spec (fuel : ℕ) : ∀ (c W : ℕ), W < 2 ^ 32 →
    (∀ j, W.testBit j = true → c ≤ j) → 32 - c ≤ fuel →
    wordBits fuel W = (List.range 32).filter (fun b => W.testBit b) := by
  induction fuel with
  | zero =>
    intro c W hW hbits hfuel
    have hW0 : W = 0 := by
      apply Nat.eq_of_testBit_eq
      intro i
      rw [Nat.zero_testBit]
      by_cases h : W.testBit i = true
      · have hci := hbits i h
        have hlt : W < 2 ^ i := lt_of_lt_of_le hW
          (Nat.pow_le_pow_right (by norm_num) (by omega))
        rw [Nat.testBit_lt_two_pow hlt] at h
        exact absurd h (by simp)
      · rw [← Bool.not_eq_true]
        exact h
    subst hW0
    rw [wordBits]
    symm
    rw [List.filter_eq_nil_iff]
    intro a _
    rw [Nat.zero_testBit]
    simp
  | succ fuel ih =>
    intro c W hW hbits hfuel
    by_cases hW0 : W = 0
    · subst hW0
      rw [wordBits, if_pos rfl]
      symm
      rw [List.filter_eq_nil_iff]
      intro a _
      rw [Nat.zero_testBit]
      simp
    · have hex : ∃ j, W.testBit j = true := exists_testBit_of_ne_zero hW0
      have hk : W.testBit (Nat.find hex) = true := Nat.find_spec hex
      have hmin : ∀ j, j < Nat.find hex → W.testBit j = false := by
        intro j hj
        have := Nat.find_min hex hj
        rw [← Bool.not_eq_true]
        exact this
      have hk32 : Nat.find hex < 32 := by
        by_contra h
        push_neg at h
        have hlt : W < 2 ^ Nat.find hex := lt_of_lt_of_le hW
          (Nat.pow_le_pow_right (by norm_num) h)
        rw [Nat.testBit_lt_two_pow hlt] at hk
        exact absurd hk (by simp)
      have hlsb : W &&& (2 ^ 32 - W) = 2 ^ Nat.find hex :=
        and_neg_eq_two_pow (Nat.find hex) 32 W (Nat.pos_of_ne_zero hW0) hW
          hk hmin
      rw [wordBits, if_neg hW0]
      simp only
      rw [hlsb, Nat.log2_two_pow]
      have hxlt : W ^^^ 2 ^ Nat.find hex < 2 ^ 32 :=
        Nat.xor_lt_two_pow hW
          (Nat.pow_lt_pow_right (by norm_num) hk32)
      have hxbit : ∀ j, (W ^^^ 2 ^ Nat.find hex).testBit j = true →
          Nat.find hex + 1 ≤ j := by
        intro j hj
        rw [Nat.testBit_xor] at hj
        rcases lt_trichotomy j (Nat.find hex) with h | h | h
        · rw [hmin j h, Nat.testBit_two_pow_of_ne (by omega)] at hj
          exact absurd hj (by simp)
        · subst h
          rw [hk, Nat.testBit_two_pow_self] at hj
          exact absurd hj (by simp)
        · omega
      have hck := hbits (Nat.find hex) hk
      rw [ih (Nat.find hex + 1) (W ^^^ 2 ^ Nat.find hex) hxlt hxbit
        (by omega)]
      symm
      apply filter_range_eq_cons 32 (Nat.find hex) _ _ hk32 hk hmin
      · rw [Nat.testBit_xor, hk, Nat.testBit_two_pow_self]
        rfl
      · intro j hj
        rw [Nat.testBit_xor, Nat.testBit_two_pow_of_ne (Ne.symm hj)]
        exact Bool.xor_false _

theorem bitsetRun_inv (c : ℤ) (ops : List BitsetOp) :
    BitsetInv (bitsetRun c ops) := by
  unfold bitsetRun
  induction ops using List.reverseRecOn with
  | nil => exact bitsetInv_mk c
  | append_singleton ops op ih =>
    rw [List.foldl_append, List.foldl_cons, List.foldl_nil]
    cases op with
    | add v => exact bitsetInv_add _ v ih
    | del v => exact bitsetInv_delete _ v ih
    | clear => exact bitsetInv_clear _

/-- Row-major chunking of a filtered range into 32-wide blocks. -/
theorem filter_range_chunk (P : ℕ → Bool) (words : ℕ) :
    (List.range (32 * words)).filter P =
      (List.range words).flatMap (fun w =>
        ((List.range 32).filter (fun b => P (32 * w + b))).map
          (fun b => 32 * w + b)) := by
  induction words with
  | zero => simp
  | succ words ih =>
    have hr : List.range (words + 1) = List.range words ++ [words] :=
      List.range_succ words
    rw [hr, List.flatMap_append, List.flatMap_cons, List.flatMap_nil,
      List.append_nil,
      show 32 * (words + 1) = 32 * words + 32 by ring, List.range_add,
      List.filter_append, ih]
    congr 1
    rw [List.filter_map]
    rfl

/-- Under the invariant, `values()` yields exactly the stored in-range
indices. -/
theorem bitsetValues_spec (s : BitsetNumberSet) (hs : BitsetInv s) :
    bitsetValues s =
      (List.range s.capacity).filter (fun i => bitsetMem s i) := by
  obtain ⟨hw, -, -⟩ := hs
  have hword : (fun w =>
      ((wordBits 32 (s.bits w)).map (fun bit => 32 * w + bit)).filter
        (fun idx => decide (idx < s.capacity))) =
      (fun w => ((List.range 32).filter
        (fun b => bitsetMem s (32 * w + b) &&
          decide (32 * w + b < s.capacity))).map
        (fun b => 32 * w + b)) := by
    funext w
    rw [wordBits_spec 32 0 (s.bits w) (hw w) (fun j _ => Nat.zero_le j)
      (by omega)]
    rw [List.filter_map, List.filter_filter]
    apply congrArg
    apply List.filter_congr
    intro b hb
    have hb32 := List.mem_range.1 hb
    unfold bitsetMem
    rw [show (32 * w + b) / 32 = w by omega,
      show (32 * w + b) % 32 = b by omega]
    exact Bool.and_comm _ _
  have hrestrict : (List.range (32 * bitsetWords s)).filter
      (fun i => bitsetMem s i && decide (i < s.capacity)) =
      (List.range s.capacity).filter (fun i => bitsetMem s i) := by
    have hcapN : s.capacity ≤ 32 * bitsetWords s := by
      unfold bitsetWords
      omega
    obtain ⟨m, hm⟩ : ∃ m, 32 * bitsetWords s = s.capacity + m :=
      ⟨32 * bitsetWords s - s.capacity, by omega⟩
    rw [hm, List.range_add, List.filter_append]
    have h1 : (List.range s.capacity).filter
        (fun i => bitsetMem s i && decide (i < s.capacity)) =
        (List.range s.capacity).filter (fun i => bitsetMem s i) := by
      apply List.filter_congr
      intro a ha
      have := List.mem_range.1 ha
      simp [this]
    have h2 : ((List.range m).map (fun x => s.capacity + x)).filter
        (fun i => bitsetMem s i && decide (i < s.capacity)) = [] := by
      rw [List.filter_eq_nil_iff]
      intro a ha
      obtain ⟨x, -, rfl⟩ := List.mem_map.1 ha
      simp
    rw [h1, h2, List.append_nil]
  unfold bitsetValues
  rw [hword, ← filter_range_chunk
    (fun i => bitsetMem s i && decide (i < s.capacity)) (bitsetWords s),
    hrestrict]

/-- ToInt32 is the identity on the Int32 range. -/
theorem toInt32_of_int32_range (v : ℤ) (h1 : -2 ^ 31 ≤ v)
    (h2 : v < 2 ^ 31) : toInt32 v = v := by
  unfold toInt32
  rw [Int.emod_eq_of_lt (by omega) (by omega)]
  omega

/-- Out-of-range behavior for Int32-range inputs: the three public
operations leave the set alone. -/
theorem bitset_out_of_range_ops (s : BitsetNumberSet) (v : ℤ)
    (h1 : -2 ^ 31 ≤ v) (h2 : v < 2 ^ 31)
    (hout : v < 0 ∨ (s.capacity : ℤ) ≤ v) :
    bitsetHas s v = false ∧ bitsetAdd s v = s ∧
      bitsetDelete s v = (s, false) := by
  have ht := toInt32_of_int32_range v h1 h2
  refine ⟨?_, ?_, ?_⟩
  · unfold bitsetHas
    simp only
    rw [ht, if_pos hout]
  · unfold bitsetAdd
    simp only
    rw [ht, if_pos hout]
  · unfold bitsetDelete
    simp only
    rw [ht, if_pos hout]

/-- C10 (amended): `BitsetNumberSet` wraps its argument with ToInt32
before the range check, so "silently ignores out-of-range inputs" holds
for Int32-range values: after any add/delete/clear sequence, for any
`v ∈ [-2^31, 2^31)` that is negative or at least `capacity`, `has v`
returns false, `add v` leaves the set unchanged and `delete v` returns
false without changing state.  (An input like `2^32` instead wraps to
index 0 and mutates the set — `bitset_toInt32_wrap_counterexample`.)  The
size/iteration half holds for every reachable state: `_size` equals the
number of distinct in-range members and `values()` yields exactly those
members in strictly increasing order. -/
theorem bitset_out_of_range_and_iteration (c : ℤ) (ops : List BitsetOp)
    (s : BitsetNumberSet) (hs : s = bitsetRun c ops) :
    (∀ v : ℤ, -2 ^ 31 ≤ v → v < 2 ^ 31 →
      (v < 0 ∨ (s.capacity : ℤ) ≤ v) →
      bitsetHas s v = false ∧ bitsetAdd s v = s ∧
        bitsetDelete s v = (s, false)) ∧
    s.size =
      ((List.range s.capacity).filter (fun i => bitsetMem s i)).length ∧
    bitsetValues s =
      (List.range s.capacity).filter (fun i => bitsetMem s i) ∧
    (bitsetValues s).Pairwise (· < ·) := by
  have hinv : BitsetInv s := hs ▸ bitsetRun_inv c ops
  refine ⟨fun v hv1 hv2 hout => bitset_out_of_range_ops s v hv1 hv2 hout,
    hinv.2.2, bitsetValues_spec s hinv, ?_⟩
  rw [bitsetValues_spec s hinv]
  exact List.Pairwise.sublist (List.filter_sublist _)
    (List.pairwise_lt_range _)

/-- Concrete instance of `bitset_out_of_range_and_iteration`:
capacity 4 with the operation sequence add 2, add 0, delete 2, add 3. -/
theorem bitset_out_of_range_and_iteration_witness :
    (bitsetRun 4 [BitsetOp.add 2, BitsetOp.add 0, BitsetOp.del 2,
        BitsetOp.add 3] =
      bitsetRun 4 [BitsetOp.add 2, BitsetOp.add 0, BitsetOp.del 2,
        BitsetOp.add 3]) ∧
    ((∀ v : ℤ, -2 ^ 31 ≤ v → v < 2 ^ 31 →
      (v < 0 ∨ ((bitsetRun 4 [BitsetOp.add 2, BitsetOp.add 0,
          BitsetOp.del 2, BitsetOp.add 3]).capacity : ℤ) ≤ v) →
      bitsetHas (bitsetRun 4 [BitsetOp.add 2, BitsetOp.add 0,
          BitsetOp.del 2, BitsetOp.add 3]) v = false ∧
        bitsetAdd (bitsetRun 4 [BitsetOp.add 2, BitsetOp.add 0,
          BitsetOp.del 2, BitsetOp.add 3]) v =
          bitsetRun 4 [BitsetOp.add 2, BitsetOp.add 0, BitsetOp.del 2,
            BitsetOp.add 3] ∧
        bitsetDelete (bitsetRun 4 [BitsetOp.add 2, BitsetOp.add 0,
          BitsetOp.del 2, BitsetOp.add 3]) v =
          (bitsetRun 4 [BitsetOp.add 2, BitsetOp.add 0, BitsetOp.del 2,
            BitsetOp.add 3], false)) ∧
    (bitsetRun 4 [BitsetOp.add 2, BitsetOp.add 0, BitsetOp.del 2,
        BitsetOp.add 3]).size =
      ((List.range (bitsetRun 4 [BitsetOp.add 2, BitsetOp.add 0,
          BitsetOp.del 2, BitsetOp.add 3]).capacity).filter
        (fun i => bitsetMem (bitsetRun 4 [BitsetOp.add 2, BitsetOp.add 0,
          BitsetOp.del 2, BitsetOp.add 3]) i)).length ∧
    bitsetValues (bitsetRun 4 [BitsetOp.add 2, BitsetOp.add 0,
        BitsetOp.del 2, BitsetOp.add 3]) =
      (List.range (bitsetRun 4 [BitsetOp.add 2, BitsetOp.add 0,
          BitsetOp.del 2, BitsetOp.add 3]).capacity).filter
        (fun i => bitsetMem (bitsetRun 4 [BitsetOp.add 2, BitsetOp.add 0,
          BitsetOp.del 2, BitsetOp.add 3]) i) ∧
    (bitsetValues (bitsetRun 4 [BitsetOp.add 2, BitsetOp.add 0,
        BitsetOp.del 2, BitsetOp.add 3])).Pairwise (· < ·)) :=
  ⟨rfl, bitset_out_of_range_and_iteration 4
    [BitsetOp.add 2, BitsetOp.add 0, BitsetOp.del 2, BitsetOp.add 3]
    _ rfl⟩

/-- C10 counterexample: `add(2^32)` on a capacity-4 set wraps to index 0
through ToInt32 and mutates the set even though `2^32 ≥ capacity`
(`size` becomes 1), and `has(2^32)` afterwards reports true — likewise
`has(2^32)` is true after `add(0)`.  A native `Set` would store `2^32`
itself and leave index 0 alone. -/
theorem bitset_toInt32_wrap_counterexample :
    ((mkBitset 4).capacity : ℤ) ≤ 4294967296 ∧
    (bitsetAdd (mkBitset 4) 4294967296).size = 1 ∧
    bitsetHas (bitsetAdd (mkBitset 4) 4294967296) 0 = true ∧
    bitsetHas (bitsetAdd (mkBitset 4) 0) 4294967296 = true := by
  refine ⟨by decide, by decide, by decide, by decide⟩

end VizLab
